import Mathlib

/-!
# The multi-reality ledger state (packages/ledgerstate)

A shallow embedding of `reality.go` and `ledgerstate.go`: the reality graph with its
descendance query, the merge of realities, the balance check and the booking of a
transfer.  Go maps are association lists, the object storage is a list of records
looked up by key, a Go `panic` and an exhausted recursion budget are faults of
`Outcome`, and a returned Go `error` is a value of `BookError`.
-/

namespace Ledgerstate

/-! ## Identifiers and records -/

/-- A fixed array of 32 bytes, the shape of every identifier of the package. -/
abbrev Bytes32 : Type := { l : List (Fin 256) // l.length = 32 }

abbrev RealityId : Type := Bytes32

abbrev TransferHash : Type := Bytes32

abbrev AddressHash : Type := Bytes32

abbrev Color : Type := Bytes32

/-- The ways a call can end without returning: the three panics of the package and
the exhaustion of the recursion budget of the model (a recursion that does not end). -/
inductive Fault where
  /-- `panic("could not load parent reality ...")` in `GetParentRealities`. -/
  | parentMissing
  /-- `panic(errors.New("referenced reality does not exist: ..."))` in `MergeRealities`. -/
  | realityMissing
  /-- A type assertion `Get().(*T)` on a cached object that holds nothing. -/
  | nilObject
  /-- The recursion budget is used up. -/
  | outOfFuel
  /-- A slice expression or an index beyond the bytes at hand. -/
  | outOfRange
  /-- `panic("unknown SpentIndicator")` and `panic("unknown filter type: ...")` in
  `generateFilterPrefixes`. -/
  | unknownFilter
  /-- `panic("too many arguments in call to Parse")` of the payload package. -/
  | tooManyArguments
  /-- `panic("expected first parameter of NewConflictId to be a TransferHash")` and the
  panic of the second type assertion of `NewConflictId`. -/
  | notTransferHash
  /-- `panic("invalid parameter count when calling NewConflictId")`. -/
  | invalidParameterCount
  deriving DecidableEq, Repr

/-- The result of a call: a normal return or a fault. -/
inductive Outcome (α : Type) where
  | ok : α → Outcome α
  | fault : Fault → Outcome α
  deriving DecidableEq, Repr

/-- The errors `checkTransferBalances` returns. -/
inductive BookError where
  /-- `errors.New("missing input in transfer")`. -/
  | missingInput
  /-- `errors.New("the referenced funds do not exist in this reality")`. -/
  | wrongReality
  /-- `errors.New("the sum of the balance changes is not 0")`. -/
  | balanceMismatch
  deriving DecidableEq, Repr

/-- The persistent fields of `Reality`. -/
structure Reality where
  id : RealityId
  parentRealities : List RealityId
  deriving DecidableEq, Repr

/-- Modelled from the spec: `ColoredBalance` (its file is not among the sources) is a
pair of a color and an unsigned 64-bit value. -/
structure ColoredBalance where
  color : Color
  value : Nat
  deriving DecidableEq, Repr

/-- Modelled from the spec: `TransferOutput` (its file is not among the sources) is the
tuple (reality, transfer, address, balances); `consumers` records the transfers
registered as consumers of the output by `addConsumer`. -/
structure TransferOutput where
  realityId : RealityId
  transferHash : TransferHash
  addressHash : AddressHash
  balances : List ColoredBalance
  consumers : List TransferHash
  deriving DecidableEq, Repr

/-- Modelled from the spec: `TransferOutputBooking` (its file is not among the sources)
is the index record (reality, address, spent, transfer). -/
structure TransferOutputBooking where
  realityId : RealityId
  addressHash : AddressHash
  spent : Bool
  transferHash : TransferHash
  deriving DecidableEq, Repr

/-- Modelled from the spec: a `TransferOutputReference` is a pair (transfer, address). -/
structure TransferOutputReference where
  transferHash : TransferHash
  addressHash : AddressHash
  deriving DecidableEq, Repr

/-- A Go `map[AddressHash][]*ColoredBalance`, listed in the order a `range` visits it. -/
abbrev OutputMap : Type := List (AddressHash × List ColoredBalance)

/-- Modelled from the spec: a `Transfer` (its file is not among the sources) is
(hash, inputs, outputs). -/
structure Transfer where
  hash : TransferHash
  inputs : List TransferOutputReference
  outputs : OutputMap
  deriving DecidableEq, Repr

/-- The three keyspaces of `LedgerState`. -/
structure LedgerState where
  transferOutputs : List TransferOutput
  transferOutputBookings : List TransferOutputBooking
  realities : List Reality
  deriving DecidableEq, Repr

/-! ## The realities keyspace -/

/-- `newReality(id, parentRealities...)`. -/
def newReality (id : RealityId) (parentRealities : List RealityId) : Reality :=
  { id := id, parentRealities := parentRealities }

/-- `realities.Load(id[:])`: the stored reality whose storage key is `id`, if any. -/
def loadReality (ls : LedgerState) (id : RealityId) : Option Reality :=
  ls.realities.find? (fun r => decide (r.id = id))

/-- `LedgerState.GetReality`. -/
def GetReality (ls : LedgerState) (id : RealityId) : Option Reality :=
  loadReality ls id

/-- `realities.Store(reality)`: the record takes the place of what was stored under
its key. -/
def storeReality (ls : LedgerState) (r : Reality) : LedgerState :=
  { ls with realities := r :: ls.realities.filter (fun s => decide (s.id ≠ r.id)) }

/-- `Reality.GetParentRealities`: every parent is loaded, a parent that is not stored
panics; the map is keyed by the id of the loaded reality. -/
def GetParentRealities (ls : LedgerState) : List RealityId → Outcome (List (RealityId × Reality))
  | [] => .ok []
  | parentRealityId :: rest =>
    match GetReality ls parentRealityId with
    | none => .fault .parentMissing
    | some loadedParentReality =>
      match GetParentRealities ls rest with
      | .fault f => .fault f
      | .ok parentRealities =>
        .ok ((loadedParentReality.id, loadedParentReality) ::
          parentRealities.filter (fun p => decide (p.1 ≠ loadedParentReality.id)))

/-- The body of the loop of `GetAncestorRealities` over the parents: the parent is
entered, then each of its ancestors; `ancestorsOf` is the recursive call. -/
def collectAncestors (ancestorsOf : Reality → Outcome (List RealityId)) :
    List (RealityId × Reality) → List RealityId → Outcome (List RealityId)
  | [], result => .ok result
  | (parentRealityId, parentReality) :: rest, result =>
    match ancestorsOf parentReality with
    | .fault f => .fault f
    | .ok ancestors =>
      collectAncestors ancestorsOf rest
        (ancestors.foldl (fun res ancestorId => List.insert ancestorId res)
          (List.insert parentRealityId result))

/-- `Reality.GetAncestorRealities`: the keys of the returned map.  The recursion of
the source has no bound; `fuel` bounds its depth. -/
def GetAncestorRealities (ls : LedgerState) : Nat → Reality → Outcome (List RealityId)
  | 0, _ => .fault .outOfFuel
  | fuel + 1, reality =>
    match GetParentRealities ls reality.parentRealities with
    | .fault f => .fault f
    | .ok parentRealities =>
      collectAncestors (GetAncestorRealities ls fuel) parentRealities []

/-- `Reality.DescendsFromReality`. -/
def DescendsFromReality (ls : LedgerState) (fuel : Nat) (reality : Reality)
    (realityId : RealityId) : Outcome Bool :=
  if reality.id = realityId then .ok true
  else
    match GetAncestorRealities ls fuel reality with
    | .fault f => .fault f
    | .ok ancestors => .ok (ancestors.any (fun ancestorRealityId => decide (ancestorRealityId = realityId)))

/-! ## The balance check -/

/-- A Go `map[Color]uint64`. -/
abbrev BalanceMap : Type := List (Color × Nat)

/-- `m[c]` on a `map[Color]uint64`: the zero value when the key is absent. -/
def balanceGet (m : BalanceMap) (c : Color) : Nat :=
  match m.find? (fun p => decide (p.1 = c)) with
  | some p => p.2
  | none => 0

/-- `m[c] = v`. -/
def balanceSet (m : BalanceMap) (c : Color) (v : Nat) : BalanceMap :=
  (c, v) :: m.filter (fun p => decide (p.1 ≠ c))

/-- `delete(m, c)`. -/
def balanceDelete (m : BalanceMap) (c : Color) : BalanceMap :=
  m.filter (fun p => decide (p.1 ≠ c))

/-- Addition of `uint64`. -/
def add64 (a b : Nat) : Nat := (a + b) % 2 ^ 64

/-- Subtraction of `uint64`. -/
def sub64 (a b : Nat) : Nat := (a + (2 ^ 64 - b % 2 ^ 64)) % 2 ^ 64

/-- The inner loop over the balances of one input:
`totalColoredBalances[balance.GetColor()] += balance.GetValue()`. -/
def addBalances (total : BalanceMap) : List ColoredBalance → BalanceMap
  | [] => total
  | balance :: rest =>
    addBalances (balanceSet total balance.color (add64 (balanceGet total balance.color) balance.value)) rest

/-- The inner loop over the balances of one output: the value is subtracted and a
color that reaches zero is deleted. -/
def subBalances (total : BalanceMap) : List ColoredBalance → BalanceMap
  | [] => total
  | balance :: rest =>
    let total1 := balanceSet total balance.color (sub64 (balanceGet total balance.color) balance.value)
    subBalances (if balanceGet total1 balance.color = 0 then balanceDelete total1 balance.color else total1) rest

/-- The loop of `checkTransferBalances` over the outputs. -/
def subOutputs (total : BalanceMap) : OutputMap → BalanceMap
  | [] => total
  | transferOutput :: rest => subOutputs (subBalances total transferOutput.2) rest

/-- The loop of `checkTransferBalances` over the inputs: an input that does not exist
and an input of a reality the target does not descend from end the check. -/
def sumInputs (ls : LedgerState) (fuel : Nat) (reality : Reality) :
    List (Option TransferOutput) → BalanceMap → Outcome (BookError ⊕ BalanceMap)
  | [], total => .ok (.inr total)
  | none :: _, _ => .ok (.inl .missingInput)
  | some transferOutput :: rest, total =>
    match DescendsFromReality ls fuel reality transferOutput.realityId with
    | .fault f => .fault f
    | .ok false => .ok (.inl .wrongReality)
    | .ok true => sumInputs ls fuel reality rest (addBalances total transferOutput.balances)

/-- `Reality.checkTransferBalances`: `none` is the `nil` error. -/
def checkTransferBalances (ls : LedgerState) (fuel : Nat) (reality : Reality)
    (inputs : List (Option TransferOutput)) (outputs : OutputMap) : Outcome (Option BookError) :=
  match sumInputs ls fuel reality inputs [] with
  | .fault f => .fault f
  | .ok (.inl err) => .ok (some err)
  | .ok (.inr totalColoredBalances) =>
    if (subOutputs totalColoredBalances outputs).length ≠ 0 then .ok (some .balanceMismatch)
    else .ok none

/-! ## Merging realities -/

/-- The comparison loop of the `less` closure of `sortRealityIds` on the bytes from
index `k` on: the first differing byte decides.  (`len(sortedRealityIds[k])` is the
constant array length 32, so `k` runs over all 32 bytes.) -/
def lessFrom : List (Fin 256) → List (Fin 256) → Bool
  | a :: as, b :: bs => if a < b then true else if a > b then false else lessFrom as bs
  | _, _ => false

/-- The `less` closure handed to `sort.Slice` in `sortRealityIds`. -/
def less (a b : RealityId) : Bool := lessFrom a.val b.val

/-- `sort.Slice(ids, less)` of the Go library, as an insertion sort driven by `less`. -/
def sortSlice (ids : List RealityId) : List RealityId :=
  ids.insertionSort (fun a b => less b a = false)

/-- `LedgerState.sortRealityIds`: the keys of the map, in the order the `range` visits
them, then sorted. -/
def sortRealityIds (aggregatedRealities : List (RealityId × Reality)) : List RealityId :=
  sortSlice (aggregatedRealities.map Prod.fst)

/-- `LedgerState.generateAggregatedRealityId`: the ids are appended and hashed;
`blake2b` stands for `blake2b.Sum256` of the Go library. -/
def generateAggregatedRealityId (blake2b : List (Fin 256) → Bytes32)
    (sortedRealityIds : List RealityId) : RealityId :=
  blake2b (sortedRealityIds.foldl (fun aggregatedRealityId realityId => aggregatedRealityId ++ realityId.val) [])

/-- What the loop over the aggregated realities decides for the reality at hand. -/
inductive Verdict where
  /-- An aggregated reality descends from it: it is dropped. -/
  | keep
  /-- It descends from the aggregated reality of this key, which it replaces. -/
  | replace : RealityId → Verdict
  /-- Neither: it becomes a new aggregate candidate. -/
  | add
  deriving DecidableEq, Repr

/-- The loop of `MergeRealities` over `aggregatedRealities` for one reality; the list
is the map in the order the `range` visits it. -/
def scanAggregated (ls : LedgerState) (fuel : Nat) (realityId : RealityId) (reality : Reality) :
    List (RealityId × Reality) → Outcome Verdict
  | [] => .ok .add
  | (aggregatedRealityId, aggregatedReality) :: rest =>
    match DescendsFromReality ls fuel aggregatedReality realityId with
    | .fault f => .fault f
    | .ok true => .ok .keep
    | .ok false =>
      match DescendsFromReality ls fuel reality aggregatedRealityId with
      | .fault f => .fault f
      | .ok true => .ok (.replace aggregatedRealityId)
      | .ok false => scanAggregated ls fuel realityId reality rest

/-- The loop `AGGREGATE_REALITIES` of `MergeRealities`.  `order k m` is the order in
which the `range` of round `k` visits the map `m` (Go leaves it unspecified). -/
def aggregateRealities (order : Nat → List (RealityId × Reality) → List (RealityId × Reality))
    (ls : LedgerState) (fuel : Nat) :
    Nat → List RealityId → List (RealityId × Reality) → Outcome (List (RealityId × Reality))
  | _, [], aggregatedRealities => .ok aggregatedRealities
  | k, realityId :: rest, aggregatedRealities =>
    if aggregatedRealities.any (fun p => decide (p.1 = realityId)) then
      aggregateRealities order ls fuel (k + 1) rest aggregatedRealities
    else
      match loadReality ls realityId with
      | none => .fault .realityMissing
      | some reality =>
        match scanAggregated ls fuel realityId reality (order k aggregatedRealities) with
        | .fault f => .fault f
        | .ok .keep => aggregateRealities order ls fuel (k + 1) rest aggregatedRealities
        | .ok (.replace aggregatedRealityId) =>
          aggregateRealities order ls fuel (k + 1) rest
            ((reality.id, reality) ::
              (aggregatedRealities.filter (fun p => decide (p.1 ≠ aggregatedRealityId))).filter
                (fun p => decide (p.1 ≠ reality.id)))
        | .ok .add =>
          aggregateRealities order ls fuel (k + 1) rest
            ((realityId, reality) :: aggregatedRealities.filter (fun p => decide (p.1 ≠ realityId)))

/-- A cached reality: the record and whether it is stored (`Load`, `Store`) or only
prepared (`Prepare`). -/
structure CachedReality where
  reality : Reality
  isStored : Bool
  deriving DecidableEq, Repr

/-- `LedgerState.MergeRealities`. -/
def MergeRealities (blake2b : List (Fin 256) → Bytes32) (MAIN_REALITY_ID : RealityId)
    (order : Nat → List (RealityId × Reality) → List (RealityId × Reality))
    (ls : LedgerState) (fuel : Nat) (realityIds : List RealityId) : Outcome CachedReality :=
  match realityIds with
  | [] =>
    match loadReality ls MAIN_REALITY_ID with
    | none => .fault .nilObject
    | some loadedReality => .ok { reality := loadedReality, isStored := true }
  | [realityId] =>
    match loadReality ls realityId with
    | none => .fault .nilObject
    | some loadedReality => .ok { reality := loadedReality, isStored := true }
  | _ =>
    match aggregateRealities order ls fuel 0 realityIds [] with
    | .fault f => .fault f
    | .ok [(_, independentReality)] => .ok { reality := independentReality, isStored := true }
    | .ok aggregatedRealities =>
      let sortedRealityIds := sortRealityIds (order realityIds.length aggregatedRealities)
      .ok { reality := newReality (generateAggregatedRealityId blake2b sortedRealityIds) sortedRealityIds,
            isStored := false }

/-! ## Booking a transfer -/

/-- Modelled from the spec: `LedgerState.GetTransferOutput` loads the output a
reference (transfer, address) designates (`TransferOutputReference.GetStorageKey` is
not among the sources); `none` is a cached object that does not exist. -/
def GetTransferOutput (ls : LedgerState) (ref : TransferOutputReference) : Option TransferOutput :=
  ls.transferOutputs.find?
    (fun o => decide (o.transferHash = ref.transferHash ∧ o.addressHash = ref.addressHash))

/-- Two outputs have the storage key reality ‖ transfer ‖ address in common. -/
def sameOutputKey (a b : TransferOutput) : Bool :=
  decide (a.realityId = b.realityId ∧ a.transferHash = b.transferHash ∧ a.addressHash = b.addressHash)

/-- `LedgerState.storeTransferOutput`. -/
def storeTransferOutput (ls : LedgerState) (transferOutput : TransferOutput) : LedgerState :=
  { ls with transferOutputs :=
      transferOutput :: ls.transferOutputs.filter (fun o => !sameOutputKey o transferOutput) }

/-- `LedgerState.storeTransferOutputBooking`: the key of a booking is all its fields. -/
def storeTransferOutputBooking (ls : LedgerState) (booking : TransferOutputBooking) : LedgerState :=
  { ls with transferOutputBookings :=
      booking :: ls.transferOutputBookings.filter (fun b => decide (b ≠ booking)) }

/-- `NewTransferOutput`: a fresh output has no consumer. -/
def NewTransferOutput (realityId : RealityId) (transferHash : TransferHash) (addressHash : AddressHash)
    (balances : List ColoredBalance) : TransferOutput :=
  { realityId := realityId, transferHash := transferHash, addressHash := addressHash,
    balances := balances, consumers := [] }

/-- `newTransferOutputBooking`. -/
def newTransferOutputBooking (realityId : RealityId) (addressHash : AddressHash) (spent : Bool)
    (transferHash : TransferHash) : TransferOutputBooking :=
  { realityId := realityId, addressHash := addressHash, spent := spent, transferHash := transferHash }

/-- `LedgerState.getTransferInputs`. -/
def getTransferInputs (ls : LedgerState) (transfer : Transfer) : List (Option TransferOutput) :=
  transfer.inputs.map (GetTransferOutput ls)

/-- The loop of `getTargetReality`: `input.Get().(*TransferOutput).GetRealityId()`
for every input, with no test that the input exists. -/
def inputRealityIds : List (Option TransferOutput) → Outcome (List RealityId)
  | [] => .ok []
  | none :: _ => .fault .nilObject
  | some transferOutput :: rest =>
    match inputRealityIds rest with
    | .fault f => .fault f
    | .ok realityIds => .ok (transferOutput.realityId :: realityIds)

/-- `LedgerState.getTargetReality`. -/
def getTargetReality (blake2b : List (Fin 256) → Bytes32) (MAIN_REALITY_ID : RealityId)
    (order : Nat → List (RealityId × Reality) → List (RealityId × Reality))
    (ls : LedgerState) (fuel : Nat) (inputs : List (Option TransferOutput)) : Outcome CachedReality :=
  match inputRealityIds inputs with
  | .fault f => .fault f
  | .ok realityIds => MergeRealities blake2b MAIN_REALITY_ID order ls fuel realityIds

/-- Modelled from the spec: `TransferOutput.addConsumer` (its file is not among the
sources) registers the transfer as a consumer of the output.  If the output already
has a consumer the transfer is conflicting and the prior consumers are returned for
elevation; the registration writes the sibling `spent = true` booking.  The spec names
no error of the registration. -/
def addConsumer (ls : LedgerState) (output : TransferOutput) (consumer : TransferHash) :
    (Bool × List TransferHash × Option BookError) × LedgerState :=
  let prior : List TransferHash :=
    match ls.transferOutputs.find? (fun o => sameOutputKey o output) with
    | some stored => stored.consumers
    | none => output.consumers
  ((!prior.isEmpty, prior, none),
    storeTransferOutputBooking
      { ls with transferOutputs := (ls.transferOutputs.map
          (fun o => if sameOutputKey o output then { o with consumers := prior ++ [consumer] } else o)) }
      (newTransferOutputBooking output.realityId output.addressHash true output.transferHash))

/-- `Reality.consumeInputs`: the loop over the inputs, `conflicting` being the
disjunction so far. -/
def consumeInputs (transferHash : TransferHash) :
    LedgerState → List (Option TransferOutput) → Bool → Outcome ((Bool × Option BookError) × LedgerState)
  | ls, [], conflicting => .ok ((conflicting, none), ls)
  | _, none :: _, _ => .fault .nilObject
  | ls, some consumedTransferOutput :: rest, conflicting =>
    match addConsumer ls consumedTransferOutput transferHash with
    | ((_, _, some consumeErr), ls1) => .ok ((conflicting, some consumeErr), ls1)
    | ((inputConflicting, _, none), ls1) =>
      consumeInputs transferHash ls1 rest (conflicting || inputConflicting)

/-- `Reality.CreateReality`: the new reality has the receiver as its only parent. -/
def CreateReality (ls : LedgerState) (reality : Reality) (id : RealityId) : Reality × LedgerState :=
  (newReality id [reality.id], storeReality ls (newReality id [reality.id]))

/-- `Reality.bookTransferOutputs`: for every entry of the output map the output and
its `spent = false` booking are stored. -/
def bookTransferOutputs (reality : Reality) (transferHash : TransferHash) :
    LedgerState → OutputMap → LedgerState
  | ls, [] => ls
  | ls, (addressHash, coloredBalances) :: rest =>
    bookTransferOutputs reality transferHash
      (storeTransferOutputBooking
        (storeTransferOutput ls (NewTransferOutput reality.id transferHash addressHash coloredBalances))
        (newTransferOutputBooking reality.id addressHash false transferHash))
      rest

/-- `Reality.bookTransfer`: the returned error (`none` is `nil`) and the ledger state
the call leaves. -/
def bookTransfer (ls : LedgerState) (fuel : Nat) (reality : Reality) (transferHash : TransferHash)
    (inputs : List (Option TransferOutput)) (outputs : OutputMap) :
    Outcome (Option BookError × LedgerState) :=
  match checkTransferBalances ls fuel reality inputs outputs with
  | .fault f => .fault f
  | .ok (some err) => .ok (some err, ls)
  | .ok none =>
    match consumeInputs transferHash ls inputs false with
    | .fault f => .fault f
    | .ok ((_, some err), ls1) => .ok (some err, ls1)
    | .ok ((true, none), ls1) =>
      let targetRealityId : RealityId := transferHash
      let created := CreateReality ls1 reality targetRealityId
      .ok (none, bookTransferOutputs created.1 transferHash created.2 outputs)
    | .ok ((false, none), ls1) =>
      .ok (none, bookTransferOutputs reality transferHash ls1 outputs)

/-- `LedgerState.BookTransfer`. -/
def BookTransfer (blake2b : List (Fin 256) → Bytes32) (MAIN_REALITY_ID : RealityId)
    (order : Nat → List (RealityId × Reality) → List (RealityId × Reality))
    (ls : LedgerState) (fuel : Nat) (transfer : Transfer) : Outcome (Option BookError × LedgerState) :=
  let inputs := getTransferInputs ls transfer
  match getTargetReality blake2b MAIN_REALITY_ID order ls fuel inputs with
  | .fault f => .fault f
  | .ok targetReality =>
    match bookTransfer ls fuel targetReality.reality transfer.hash inputs transfer.outputs with
    | .fault f => .fault f
    | .ok (some bookingErr, ls1) => .ok (some bookingErr, ls1)
    | .ok (none, ls1) =>
      .ok (none, if targetReality.isStored then ls1 else storeReality ls1 targetReality.reality)

/-- `Reality.BookTransfer`. -/
def Reality.BookTransfer (ls : LedgerState) (fuel : Nat) (reality : Reality) (transfer : Transfer) :
    Outcome (Option BookError × LedgerState) :=
  bookTransfer ls fuel reality transfer.hash (getTransferInputs ls transfer) transfer.outputs


/-! ## Sums of balances, used to state the balance check -/

/-- The balances of the inputs, in the order the check visits them. -/
def inputBalances : List TransferOutput → List ColoredBalance
  | [] => []
  | transferOutput :: rest => transferOutput.balances ++ inputBalances rest

/-- The balances of the outputs, in the order the check visits them. -/
def outputBalances : OutputMap → List ColoredBalance
  | [] => []
  | transferOutput :: rest => transferOutput.2 ++ outputBalances rest

/-- The sum, over the natural numbers, of the values of the balances of color `c`. -/
def colorSum (bs : List ColoredBalance) (c : Color) : Nat :=
  ((bs.filter (fun b => decide (b.color = c))).map ColoredBalance.value).sum

/-- The colors that occur in a list of balances. -/
def colorsOf (bs : List ColoredBalance) : List Color := bs.map ColoredBalance.color

/-- One round of the output loop. -/
def subStep (m : BalanceMap) (b : ColoredBalance) : BalanceMap :=
  if balanceGet (balanceSet m b.color (sub64 (balanceGet m b.color) b.value)) b.color = 0 then
    balanceDelete (balanceSet m b.color (sub64 (balanceGet m b.color) b.value)) b.color
  else balanceSet m b.color (sub64 (balanceGet m b.color) b.value)


/-! ## Notions used to state what a booking stores -/

/-- The storage key reality ‖ transfer ‖ address of an output. -/
def outputKey (o : TransferOutput) : RealityId × TransferHash × AddressHash :=
  (o.realityId, o.transferHash, o.addressHash)

/-- The outputs stored under a key. -/
def outputsAt (ls : LedgerState) (k : RealityId × TransferHash × AddressHash) : List TransferOutput :=
  ls.transferOutputs.filter (fun o => decide (outputKey o = k))

/-- The stored bookings equal to a booking (the key of a booking is the booking). -/
def bookingsAt (ls : LedgerState) (b : TransferOutputBooking) : List TransferOutputBooking :=
  ls.transferOutputBookings.filter (fun x => decide (x = b))

/-! ## The parent graph, used to state descendance and merging -/

/-- `y` is in the parent list of the reality stored under `x`: a parent edge. -/
def isParent (ls : LedgerState) (x y : RealityId) : Prop :=
  ∃ r, loadReality ls x = some r ∧ y ∈ r.parentRealities

/-- `x` is a parent of the reality `r` or is reached from one of its parents by
parent edges. -/
def IsAncestor (ls : LedgerState) (r : Reality) (x : RealityId) : Prop :=
  ∃ p ∈ r.parentRealities, Relation.ReflTransGen (isParent ls) p x

/-- Every parent of every stored reality is stored. -/
def ClosedUnderParents (ls : LedgerState) : Prop :=
  ∀ id r, loadReality ls id = some r → ∀ p ∈ r.parentRealities, ∃ rp, loadReality ls p = some rp

/-- No reality is reached from itself by one or more parent edges. -/
def Acyclic (ls : LedgerState) : Prop :=
  ∀ x, ¬ Relation.TransGen (isParent ls) x x

/-- Whatever the order in which a `range` visits a map, it visits the entries of the
map, each once. -/
def IsRangeOrder (order : Nat → List (RealityId × Reality) → List (RealityId × Reality)) : Prop :=
  ∀ k m, (order k m).Perm m

/-- The concatenation of the bytes of a list of ids. -/
def concatIds : List RealityId → List (Fin 256)
  | [] => []
  | id :: rest => id.val ++ concatIds rest

/-- Every entry of the map of aggregated realities is a stored reality, under its id. -/
def AllStored (ls : LedgerState) (agg : List (RealityId × Reality)) : Prop :=
  ∀ q ∈ agg, loadReality ls q.1 = some q.2

/-- An entry of the map has the id, or reaches it by one or more parent edges. -/
def Covers (ls : LedgerState) (agg : List (RealityId × Reality)) (id : RealityId) : Prop :=
  ∃ q ∈ agg, q.1 = id ∨ Relation.TransGen (isParent ls) q.1 id

/-- `NewLedgerState`: the three keyspaces are empty but for the main reality, which is
stored with no parent. -/
def NewLedgerState (MAIN_REALITY_ID : RealityId) : LedgerState :=
  { transferOutputs := [], transferOutputBookings := [],
    realities := [newReality MAIN_REALITY_ID []] }

/-! ## The binary form of a reality -/

/-- The byte `v mod 256`. -/
def byteOf (v : Nat) : Fin 256 := ⟨v % 256, Nat.mod_lt v (by decide)⟩

/-- `binary.LittleEndian.PutUint32`: the four bytes of a `uint32`, lowest first. -/
def putUint32 (v : Nat) : List (Fin 256) :=
  [byteOf v, byteOf (v / 256), byteOf (v / 65536), byteOf (v / 16777216)]

/-- `binary.LittleEndian.Uint32`: the `uint32` of the first four bytes; fewer than four
bytes is an index out of range. -/
def getUint32 : List (Fin 256) → Outcome Nat
  | b0 :: b1 :: b2 :: b3 :: _ => .ok (b0.val + 256 * b1.val + 65536 * b2.val + 16777216 * b3.val)
  | _ => .fault .outOfRange

/-- A `Reality` in memory: its persistent fields and its storage key. -/
structure RealityObject where
  reality : Reality
  storageKey : List (Fin 256)
  deriving DecidableEq, Repr

/-- The zero value of `RealityId`. -/
def zeroRealityId : RealityId := ⟨List.replicate 32 0, by simp⟩

/-- `realityFactory`: a `Reality` that has the storage key and nothing else. -/
def realityFactory (key : List (Fin 256)) : RealityObject :=
  { reality := { id := zeroRealityId, parentRealities := [] }, storageKey := key }

/-- `Reality.MarshalBinary`: the count of the parents as `uint32`, little-endian, and
the ids of the parents. -/
def MarshalBinary (reality : Reality) : List (Fin 256) :=
  putUint32 (reality.parentRealities.length % 2 ^ 32) ++ concatIds reality.parentRealities

/-- Modelled from the spec: `RealityId.UnmarshalBinary` (its file is not among the
sources) copies the first 32 bytes of the data into the id, as
`ConflictId.UnmarshalBinary` of `conflict_id.go` does; fewer than 32 bytes are out of
range. -/
def RealityId.UnmarshalBinary (data : List (Fin 256)) : Outcome RealityId :=
  if h : (data.take 32).length = 32 then .ok ⟨data.take 32, h⟩ else .fault .outOfRange

/-- The loop of `Reality.UnmarshalBinary` that fills the local slice `parentRealities`
from the index `i` on, `count` ids being left to read. -/
def readParentRealities (serializedObject : List (Fin 256)) : Nat → Nat → Outcome (List RealityId)
  | 0, _ => .ok []
  | count + 1, i =>
    if serializedObject.length < 4 + i * 32 then .fault .outOfRange
    else
      match RealityId.UnmarshalBinary (serializedObject.drop (4 + i * 32)) with
      | .fault f => .fault f
      | .ok parentRealityId =>
        match readParentRealities serializedObject count (i + 1) with
        | .fault f => .fault f
        | .ok rest => .ok (parentRealityId :: rest)

/-- `Reality.UnmarshalBinary`: the id is read from the storage key; the parents are
read into the local slice `parentRealities`, which is not assigned to the reality.
The returned error is always `nil`. -/
def Reality.UnmarshalBinary (reality : RealityObject) (serializedObject : List (Fin 256)) :
    Outcome RealityObject :=
  if reality.storageKey.length < 32 then .fault .outOfRange
  else
    match RealityId.UnmarshalBinary (reality.storageKey.take 32) with
    | .fault f => .fault f
    | .ok id =>
      match getUint32 serializedObject with
      | .fault f => .fault f
      | .ok parentRealityCount =>
        match readParentRealities serializedObject parentRealityCount 0 with
        | .fault f => .fault f
        | .ok _ => .ok { reality with reality := { reality.reality with id := id } }

/-! ## The query layer -/

/-- A value of the list `filters []interface{}`, by its dynamic type.  Modelled from
the spec: a `SpentIndicator` is a tag of one byte (its declaration is not among the
sources); `other` is a value of any other type. -/
inductive Filter where
  | realityId : RealityId → Filter
  | addressHash : AddressHash → Filter
  | transferHash : TransferHash → Filter
  | spentIndicator : Fin 256 → Filter
  | other : Filter
  deriving DecidableEq, Repr

/-- The locals the first loop of `generateFilterPrefixes` fills. -/
structure FilterSets where
  filteredRealities : List RealityId
  filteredAddresses : List AddressHash
  filteredTransfers : List TransferHash
  filterSpent : Bool
  filterUnspent : Bool
  deriving DecidableEq, Repr

/-- The first loop of `generateFilterPrefixes`, the type switch over the filters.
`SPENT` and `UNSPENT` are the two constants of `SpentIndicator`. -/
def collectFilters (SPENT UNSPENT : Fin 256) : List Filter → FilterSets → Outcome FilterSets
  | [], sets => .ok sets
  | .realityId typeCastedValue :: rest, sets =>
    collectFilters SPENT UNSPENT rest
      { sets with filteredRealities := sets.filteredRealities ++ [typeCastedValue] }
  | .addressHash typeCastedValue :: rest, sets =>
    collectFilters SPENT UNSPENT rest
      { sets with filteredAddresses := sets.filteredAddresses ++ [typeCastedValue] }
  | .transferHash typeCastedValue :: rest, sets =>
    collectFilters SPENT UNSPENT rest
      { sets with filteredTransfers := sets.filteredTransfers ++ [typeCastedValue] }
  | .spentIndicator typeCastedValue :: rest, sets =>
    if typeCastedValue = SPENT then collectFilters SPENT UNSPENT rest { sets with filterSpent := true }
    else if typeCastedValue = UNSPENT then
      collectFilters SPENT UNSPENT rest { sets with filterUnspent := true }
    else .fault .unknownFilter
  | .other :: _, _ => .fault .unknownFilter

/-- The loop over the addresses below a reality in `generateFilterPrefixes`. -/
def realityAddressLoop (SPENT UNSPENT : Fin 256) (filterSpent filterUnspent : Bool)
    (realityPrefix : List (Fin 256)) : List AddressHash → List (List (Fin 256)) → List (List (Fin 256))
  | [], prefixes => prefixes
  | addressHash :: rest, prefixes =>
    let addressPrefix := realityPrefix ++ addressHash.val
    if filterSpent != filterUnspent then
      let spentPrefix := if filterSpent then addressPrefix ++ [SPENT] else addressPrefix ++ [UNSPENT]
      realityAddressLoop SPENT UNSPENT filterSpent filterUnspent realityPrefix rest (prefixes ++ [spentPrefix])
    else
      realityAddressLoop SPENT UNSPENT filterSpent filterUnspent realityPrefix rest (prefixes ++ [addressPrefix])

/-- The loop over the realities in `generateFilterPrefixes`. -/
def realityLoop (SPENT UNSPENT : Fin 256) (sets : FilterSets) :
    List RealityId → List (List (Fin 256)) → List (List (Fin 256))
  | [], prefixes => prefixes
  | realityId :: rest, prefixes =>
    let realityPrefix := realityId.val
    if sets.filteredAddresses.length ≥ 1 then
      realityLoop SPENT UNSPENT sets rest
        (realityAddressLoop SPENT UNSPENT sets.filterSpent sets.filterUnspent realityPrefix
          sets.filteredAddresses prefixes)
    else realityLoop SPENT UNSPENT sets rest (prefixes ++ [realityPrefix])

/-- The loop over the addresses below a transfer in `generateFilterPrefixes`. -/
def transferAddressLoop (transferPrefix : List (Fin 256)) :
    List AddressHash → List (List (Fin 256)) → List (List (Fin 256))
  | [], prefixes => prefixes
  | addressHash :: rest, prefixes =>
    transferAddressLoop transferPrefix rest (prefixes ++ [transferPrefix ++ addressHash.val])

/-- The loop over the transfers in `generateFilterPrefixes`. -/
def transferLoop (sets : FilterSets) :
    List TransferHash → List (List (Fin 256)) → List (List (Fin 256))
  | [], prefixes => prefixes
  | transferHash :: rest, prefixes =>
    let transferPrefix := transferHash.val
    if sets.filteredAddresses.length ≥ 1 then
      transferLoop sets rest (transferAddressLoop transferPrefix sets.filteredAddresses prefixes)
    else transferLoop sets rest (prefixes ++ [transferPrefix])

/-- `LedgerState.generateFilterPrefixes`: the prefixes and whether the bookings are
searched. -/
def generateFilterPrefixes (SPENT UNSPENT : Fin 256) (filters : List Filter) :
    Outcome (List (List (Fin 256)) × Bool) :=
  match collectFilters SPENT UNSPENT filters
      { filteredRealities := [], filteredAddresses := [], filteredTransfers := [],
        filterSpent := false, filterUnspent := false } with
  | .fault f => .fault f
  | .ok sets =>
    if sets.filteredRealities.length ≥ 1 then
      .ok (realityLoop SPENT UNSPENT sets sets.filteredRealities [], true)
    else if sets.filteredTransfers.length ≥ 1 then
      .ok (transferLoop sets sets.filteredTransfers [], false)
    else .ok ([], false)

/-- Modelled from the spec: the storage key of a booking is
reality ‖ address ‖ spent ‖ transfer, the spent byte being one of the two constants of
`SpentIndicator` (`TransferOutputBooking.GetStorageKey` is not among the sources). -/
def bookingKey (SPENT UNSPENT : Fin 256) (booking : TransferOutputBooking) : List (Fin 256) :=
  booking.realityId.val ++ booking.addressHash.val ++ [if booking.spent then SPENT else UNSPENT] ++
    booking.transferHash.val

/-- Modelled from the spec: the storage key of an output is reality ‖ transfer ‖ address
(`TransferOutput.GetStorageKey` is not among the sources). -/
def outputStorageKey (transferOutput : TransferOutput) : List (Fin 256) :=
  transferOutput.realityId.val ++ transferOutput.transferHash.val ++ transferOutput.addressHash.val

/-- The order of the keys of a keyspace: byte-lexicographic, a key before its
extensions. -/
def keyLe : List (Fin 256) → List (Fin 256) → Bool
  | [], _ => true
  | _ :: _, [] => false
  | a :: as, b :: bs => if a < b then true else if b < a then false else keyLe as bs

/-- The calls of the callback of a `ForEach`: the records are handed over one after the
other until the callback returns false.  The result lists the records handed over. -/
def forEachLoop {α : Type} (callback : α → Bool) : List α → List α
  | [] => []
  | record :: rest => if callback record then record :: forEachLoop callback rest else [record]

/-- Modelled from the spec: `ObjectStorage.ForEach` (the object storage is not among the
sources) streams the records whose keys start with the given bytes (all records when
there is none), in key order, until the callback returns false. -/
def storageForEach {α : Type} (key : α → List (Fin 256)) (records : List α) (callback : α → Bool)
    (start : Option (List (Fin 256))) : List α :=
  forEachLoop callback
    ((records.filter (fun record =>
        match start with
        | none => true
        | some bytes => bytes.isPrefixOf (key record))).insertionSort
      (fun a b => keyLe (key a) (key b) = true))

/-- The loop of `ForEachTransferOutput` over the prefixes when the bookings are
searched: the callback gets the output each booking designates. -/
def forEachBookingLoop (SPENT UNSPENT : Fin 256) (ls : LedgerState)
    (callback : Option TransferOutput → Bool) : List (List (Fin 256)) → List (Option TransferOutput)
  | [] => []
  | bytes :: rest =>
    (storageForEach (bookingKey SPENT UNSPENT) ls.transferOutputBookings
        (fun booking => callback (GetTransferOutput ls ⟨booking.transferHash, booking.addressHash⟩))
        (some bytes)).map
      (fun booking => GetTransferOutput ls ⟨booking.transferHash, booking.addressHash⟩) ++
    forEachBookingLoop SPENT UNSPENT ls callback rest

/-- The loop of `ForEachTransferOutput` over the prefixes when the outputs are
searched. -/
def forEachOutputLoop (ls : LedgerState) (callback : Option TransferOutput → Bool) :
    List (List (Fin 256)) → List (Option TransferOutput)
  | [] => []
  | bytes :: rest =>
    (storageForEach outputStorageKey ls.transferOutputs (fun o => callback (some o)) (some bytes)).map some ++
    forEachOutputLoop ls callback rest

/-- `LedgerState.ForEachTransferOutput`: the cached outputs the callback is called
with, in the order of the calls. -/
def ForEachTransferOutput (SPENT UNSPENT : Fin 256) (ls : LedgerState)
    (callback : Option TransferOutput → Bool) (filters : List Filter) :
    Outcome (List (Option TransferOutput)) :=
  match generateFilterPrefixes SPENT UNSPENT filters with
  | .fault f => .fault f
  | .ok (prefixes, searchBookings) =>
    if searchBookings then .ok (forEachBookingLoop SPENT UNSPENT ls callback prefixes)
    else if prefixes.length ≥ 1 then .ok (forEachOutputLoop ls callback prefixes)
    else
      .ok ((storageForEach outputStorageKey ls.transferOutputs (fun o => callback (some o)) none).map some)

/-! ## The compilation rules of the filters, as the spec words them -/

/-- The `RealityId`s of a filter list, in the order they were supplied. -/
def suppliedRealities : List Filter → List RealityId
  | [] => []
  | .realityId r :: rest => r :: suppliedRealities rest
  | _ :: rest => suppliedRealities rest

/-- The `AddressHash`es of a filter list, in the order they were supplied. -/
def suppliedAddresses : List Filter → List AddressHash
  | [] => []
  | .addressHash a :: rest => a :: suppliedAddresses rest
  | _ :: rest => suppliedAddresses rest

/-- The `TransferHash`es of a filter list, in the order they were supplied. -/
def suppliedTransfers : List Filter → List TransferHash
  | [] => []
  | .transferHash t :: rest => t :: suppliedTransfers rest
  | _ :: rest => suppliedTransfers rest

/-- The spent indicator `v` is supplied. -/
def indicatorSupplied (v : Fin 256) (filters : List Filter) : Bool :=
  filters.any (fun f => decide (f = .spentIndicator v))

/-- The compilation rules: with a `RealityId`, the bookings are searched with
reality [‖ address [‖ spentByte]] over the cross product; otherwise the outputs are
searched with transfer [‖ address] over the cross product (no prefix when there is no
transfer). -/
def compiledPrefixes (SPENT UNSPENT : Fin 256) (filters : List Filter) :
    List (List (Fin 256)) × Bool :=
  if suppliedRealities filters ≠ [] then
    ((suppliedRealities filters).flatMap (fun r =>
      if suppliedAddresses filters = [] then [r.val]
      else (suppliedAddresses filters).map (fun a =>
        if indicatorSupplied SPENT filters ∧ ¬ indicatorSupplied UNSPENT filters then
          r.val ++ a.val ++ [SPENT]
        else if indicatorSupplied UNSPENT filters ∧ ¬ indicatorSupplied SPENT filters then
          r.val ++ a.val ++ [UNSPENT]
        else r.val ++ a.val)), true)
  else
    ((suppliedTransfers filters).flatMap (fun t =>
      if suppliedAddresses filters = [] then [t.val]
      else (suppliedAddresses filters).map (fun a => t.val ++ a.val)), false)

/-- A filter `generateFilterPrefixes` accepts: of one of the four types, a spent
indicator being one of the two constants. -/
def Filter.Accepted (SPENT UNSPENT : Fin 256) : Filter → Prop
  | .spentIndicator v => v = SPENT ∨ v = UNSPENT
  | .other => False
  | _ => True

/-! ## Conflict ids (conflict_id.go) -/

abbrev ConflictId : Type := Bytes32

/-- A value of the list `conflictBytes ...interface{}`, by its dynamic type; `other` is
a value of any other type. -/
inductive ConflictArg where
  | transferHash : TransferHash → ConflictArg
  | addressHash : AddressHash → ConflictArg
  | other : ConflictArg
  deriving DecidableEq, Repr

/-- The type assertion `v.(TransferHash)` with the comma-ok form: the value when the
dynamic type is `TransferHash`. -/
def ConflictArg.asTransferHash : ConflictArg → Option TransferHash
  | .transferHash typeCastedValue => some typeCastedValue
  | _ => none

/-- The zero value of `ConflictId`. -/
def zeroConflictId : ConflictId := ⟨List.replicate 32 0, by simp⟩

/-- `copy(dst, src)` of Go: the first `min(len(dst), len(src))` bytes of `dst` are
overwritten with those of `src`; the result is `dst` after the call. -/
def copyBytes (dst src : List (Fin 256)) : List (Fin 256) :=
  src.take dst.length ++ dst.drop src.length

/-- `NewConflictId`.  `transferHashLength` and `addressLength` stand for the constants
`transferHashLength` and `address.Length`, which are declared outside the sources.
Both type assertions of the case of two arguments read `conflictBytes[0]`. -/
def NewConflictId (blake2b : List (Fin 256) → Bytes32) (transferHashLength addressLength : Nat)
    (conflictBytes : List ConflictArg) : Outcome ConflictId :=
  match conflictBytes with
  | [conflictBytes0, _] =>
    match ConflictArg.asTransferHash conflictBytes0 with
    | none => .fault .notTransferHash
    | some transferHash =>
      match ConflictArg.asTransferHash conflictBytes0 with
      | none => .fault .notTransferHash
      | some addressHash =>
        let fullConflictSetIdentifier := List.replicate (transferHashLength + addressLength) (0 : Fin 256)
        let afterFirstCopy := copyBytes fullConflictSetIdentifier transferHash.val
        let afterSecondCopy := afterFirstCopy.take transferHashLength ++
          copyBytes (afterFirstCopy.drop transferHashLength) addressHash.val
        .ok (blake2b afterSecondCopy)
  | [_] => .ok zeroConflictId
  | _ => .fault .invalidParameterCount


/-! ## The stream of a prefix, used to state where an iteration ends -/

/-- The records `ObjectStorage.ForEach` has at hand for a prefix, in the order it
streams them: those the callback gets when it never returns false. -/
def storageStream {α : Type} (key : α → List (Fin 256)) (records : List α)
    (start : Option (List (Fin 256))) : List α :=
  (records.filter (fun record =>
      match start with
      | none => true
      | some bytes => bytes.isPrefixOf (key record))).insertionSort
    (fun a b => keyLe (key a) (key b) = true)


/-! ## The operations that change the ledger state, and the states they reach -/

/-- `LedgerState.CreateReality`: the new reality is stored as a child of the main
reality, whatever is stored under the id. -/
def LedgerState.CreateReality (MAIN_REALITY_ID : RealityId) (ls : LedgerState) (id : RealityId) :
    LedgerState :=
  storeReality ls (newReality id [MAIN_REALITY_ID])

/-- `LedgerState.AddTransferOutput`: the output and its `spent = false` booking are
stored in the main reality. -/
def AddTransferOutput (MAIN_REALITY_ID : RealityId) (ls : LedgerState) (transferHash : TransferHash)
    (addressHash : AddressHash) (balances : List ColoredBalance) : LedgerState :=
  storeTransferOutputBooking
    (storeTransferOutput ls (NewTransferOutput MAIN_REALITY_ID transferHash addressHash balances))
    (newTransferOutputBooking MAIN_REALITY_ID addressHash false transferHash)

/-- `LedgerState.Prune`: the three keyspaces are pruned (`ObjectStorage.Prune`, which is
not among the sources, drops every record of a keyspace) and the main reality is
stored again, with no parent. -/
def Prune (MAIN_REALITY_ID : RealityId) (_ledgerState : LedgerState) : LedgerState :=
  storeReality { transferOutputs := [], transferOutputBookings := [], realities := [] }
    (newReality MAIN_REALITY_ID [])

/-- One call of an operation that changes the stored state: `LedgerState.CreateReality`,
`Reality.CreateReality` on a stored reality, `AddTransferOutput`, and a
`LedgerState.BookTransfer` that returns (with an error or without), the `range`
statements visiting their maps in any order.  `MergeRealities` loads and prepares
realities and stores nothing: it has no step. -/
inductive Step (blake2b : List (Fin 256) → Bytes32) (MAIN_REALITY_ID : RealityId) :
    LedgerState → LedgerState → Prop where
  | createReality (ls : LedgerState) (id : RealityId) :
    Step blake2b MAIN_REALITY_ID ls (LedgerState.CreateReality MAIN_REALITY_ID ls id)
  | realityCreateReality (ls : LedgerState) (reality : Reality) (id : RealityId)
    (hstored : loadReality ls reality.id = some reality) :
    Step blake2b MAIN_REALITY_ID ls (CreateReality ls reality id).2
  | addTransferOutput (ls : LedgerState) (transferHash : TransferHash) (addressHash : AddressHash)
    (balances : List ColoredBalance) :
    Step blake2b MAIN_REALITY_ID ls (AddTransferOutput MAIN_REALITY_ID ls transferHash addressHash balances)
  | bookTransfer (order : Nat → List (RealityId × Reality) → List (RealityId × Reality))
    (hord : IsRangeOrder order) (ls : LedgerState) (fuel : Nat) (transfer : Transfer)
    (err : Option BookError) (ls1 : LedgerState)
    (hbook : BookTransfer blake2b MAIN_REALITY_ID order ls fuel transfer = .ok (err, ls1)) :
    Step blake2b MAIN_REALITY_ID ls ls1

/-- The states reached from `NewLedgerState` by the operations of `Step` and by
`Prune`. -/
inductive Reachable (blake2b : List (Fin 256) → Bytes32) (MAIN_REALITY_ID : RealityId) :
    LedgerState → Prop where
  | init : Reachable blake2b MAIN_REALITY_ID (NewLedgerState MAIN_REALITY_ID)
  | step (ls ls1 : LedgerState) (hreach : Reachable blake2b MAIN_REALITY_ID ls)
    (hstep : Step blake2b MAIN_REALITY_ID ls ls1) : Reachable blake2b MAIN_REALITY_ID ls1
  | prune (ls : LedgerState) (hreach : Reachable blake2b MAIN_REALITY_ID ls) :
    Reachable blake2b MAIN_REALITY_ID (Prune MAIN_REALITY_ID ls)

/-- Every reality stored in `ls` is stored in `ls1` with the same record: the call
that leads from one to the other changes no parent list. -/
def KeepsRealities (ls ls1 : LedgerState) : Prop :=
  ∀ id r, loadReality ls id = some r → loadReality ls1 id = some r

/-- The states reached from `NewLedgerState` by the operations of `Step`, each call
keeping the record of every reality that is stored, and by `Prune`. -/
inductive ReachableKeeping (blake2b : List (Fin 256) → Bytes32) (MAIN_REALITY_ID : RealityId) :
    LedgerState → Prop where
  | init : ReachableKeeping blake2b MAIN_REALITY_ID (NewLedgerState MAIN_REALITY_ID)
  | step (ls ls1 : LedgerState) (hreach : ReachableKeeping blake2b MAIN_REALITY_ID ls)
    (hstep : Step blake2b MAIN_REALITY_ID ls ls1) (hkeep : KeepsRealities ls ls1) :
    ReachableKeeping blake2b MAIN_REALITY_ID ls1
  | prune (ls : LedgerState) (hreach : ReachableKeeping blake2b MAIN_REALITY_ID ls) :
    ReachableKeeping blake2b MAIN_REALITY_ID (Prune MAIN_REALITY_ID ls)


/-! ## Example data -/

/-- The identifier whose first byte is `n` and whose other bytes are zero. -/
def mkId (n : Fin 256) : Bytes32 := ⟨n :: List.replicate 31 0, by simp⟩

/-- The id the examples use for the main reality. -/
def exMAIN : RealityId := mkId 0

def exIOTA : Color := mkId 7

def exT1 : TransferHash := mkId 11

def exT2 : TransferHash := mkId 12

def exA1 : AddressHash := mkId 21

def exA2 : AddressHash := mkId 22

/-- The main reality, which has no parent. -/
def exMainReality : Reality := newReality exMAIN []

/-- The ledger after `AddTransferOutput(T1, A1, IOTA:100)`. -/
def exLedger : LedgerState :=
  { transferOutputs := [NewTransferOutput exMAIN exT1 exA1 [⟨exIOTA, 100⟩]],
    transferOutputBookings := [newTransferOutputBooking exMAIN exA1 false exT1],
    realities := [exMainReality] }

/-- The output of `exLedger`. -/
def exInput : TransferOutput := NewTransferOutput exMAIN exT1 exA1 [⟨exIOTA, 100⟩]

/-- An output of the main reality with two balances of 2^63 of the same color. -/
def exWrapInput : TransferOutput :=
  NewTransferOutput exMAIN exT1 exA1 [⟨exIOTA, 2 ^ 63⟩, ⟨exIOTA, 2 ^ 63⟩]

/-- An output of the main reality with one balance of value zero. -/
def exZeroInput : TransferOutput := NewTransferOutput exMAIN exT1 exA1 [⟨exIOTA, 0⟩]

/-- The order of a `range` over a map that visits the entries as the model lists them. -/
def exOrder : Nat → List (RealityId × Reality) → List (RealityId × Reality) := fun _ m => m

/-- The order of a `range` over a map that visits the entries in the reverse order. -/
def exOrderRev : Nat → List (RealityId × Reality) → List (RealityId × Reality) :=
  fun _ m => m.reverse

def exRA : RealityId := mkId 1

def exRB : RealityId := mkId 2

/-- The blake2b-256 digest of `exRA ‖ exRB`. -/
def exRC : RealityId :=
  ⟨[120, 229, 231, 120, 238, 180, 241, 15, 71, 78, 224, 185, 101, 97, 102, 125, 225, 208, 161, 75,
    234, 130, 203, 129, 191, 52, 206, 42, 20, 217, 253, 242], by decide⟩

/-- The blake2b-256 digest of `exRA ‖ exRC`. -/
def exDigestAC : RealityId :=
  ⟨[186, 26, 51, 6, 237, 200, 70, 191, 61, 244, 146, 205, 174, 51, 122, 220, 30, 56, 196, 212, 177,
    244, 51, 143, 118, 74, 81, 49, 170, 201, 244, 71], by decide⟩

/-- The blake2b-256 digest of `exRB ‖ exRC`. -/
def exDigestBC : RealityId :=
  ⟨[57, 63, 4, 131, 85, 53, 99, 129, 89, 246, 94, 103, 216, 127, 19, 36, 240, 98, 47, 37, 226, 72,
    254, 223, 49, 8, 7, 255, 162, 247, 168, 143], by decide⟩

/-- The values of blake2b-256 on the three strings the examples hash (every other
string is sent to a placeholder the examples never reach). -/
def exBlake2b (data : List (Fin 256)) : Bytes32 :=
  if data = exRA.val ++ exRB.val then exRC
  else if data = exRA.val ++ exRC.val then exDigestAC
  else if data = exRB.val ++ exRC.val then exDigestBC
  else mkId 255

/-- A transfer whose only input reference designates no stored output. -/
def exMissingTransfer : Transfer :=
  { hash := exT2, inputs := [⟨exT1, exA2⟩], outputs := [(exA2, [⟨exIOTA, 100⟩])] }

/-- A transfer that lists the reference (T1, A1) twice and pays out its balance once. -/
def exDoubleTransfer : Transfer :=
  { hash := exT2, inputs := [⟨exT1, exA1⟩, ⟨exT1, exA1⟩], outputs := [(exA2, [⟨exIOTA, 100⟩])] }

def exA3 : AddressHash := mkId 23

def exT4 : TransferHash := mkId 14

/-- The transfer T2 of scenario 1: it spends (T1, A1) to the address A2. -/
def exT2Transfer : Transfer :=
  { hash := exT2, inputs := [⟨exT1, exA1⟩], outputs := [(exA2, [⟨exIOTA, 100⟩])] }

/-- The transfer T4 of scenario 3: it spends (T1, A1) again, to the address A3. -/
def exT4Transfer : Transfer :=
  { hash := exT4, inputs := [⟨exT1, exA1⟩], outputs := [(exA3, [⟨exIOTA, 100⟩])] }

/-- The output (T1, A1) once T2 is registered as its consumer. -/
def exInputSpent : TransferOutput :=
  { realityId := exMAIN, transferHash := exT1, addressHash := exA1,
    balances := [⟨exIOTA, 100⟩], consumers := [exT2] }

/-- `exLedger` after the inputs of T2 are consumed. -/
def exConsumedLedger : LedgerState :=
  { transferOutputs := [exInputSpent],
    transferOutputBookings :=
      [newTransferOutputBooking exMAIN exA1 true exT1, newTransferOutputBooking exMAIN exA1 false exT1],
    realities := [exMainReality] }

/-- `exLedger` after T2 is booked. -/
def exSpentLedger : LedgerState :=
  { transferOutputs := [NewTransferOutput exMAIN exT2 exA2 [⟨exIOTA, 100⟩], exInputSpent],
    transferOutputBookings :=
      [newTransferOutputBooking exMAIN exA2 false exT2, newTransferOutputBooking exMAIN exA1 true exT1,
        newTransferOutputBooking exMAIN exA1 false exT1],
    realities := [exMainReality] }

/-- `exSpentLedger` after the inputs of T4 are consumed. -/
def exConflictLedger : LedgerState :=
  { transferOutputs :=
      [NewTransferOutput exMAIN exT2 exA2 [⟨exIOTA, 100⟩],
        { exInputSpent with consumers := [exT2, exT4] }],
    transferOutputBookings :=
      [newTransferOutputBooking exMAIN exA1 true exT1, newTransferOutputBooking exMAIN exA2 false exT2,
        newTransferOutputBooking exMAIN exA1 false exT1],
    realities := [exMainReality] }

/-- A reality with the id `exRA`, child of the main reality. -/
def exSelfReality : Reality := newReality exRA [exMAIN]

/-- An output of the reality `exRA` that already has the consumer T2. -/
def exSelfInput : TransferOutput :=
  { realityId := exRA, transferHash := exT1, addressHash := exA1,
    balances := [⟨exIOTA, 100⟩], consumers := [exT2] }

/-- A ledger that holds the reality `exRA` and the output `exSelfInput`. -/
def exSelfLedger : LedgerState :=
  { transferOutputs := [exSelfInput],
    transferOutputBookings :=
      [newTransferOutputBooking exRA exA1 true exT1, newTransferOutputBooking exRA exA1 false exT1],
    realities := [exMainReality, exSelfReality] }

/-- `exSelfLedger` after a transfer whose hash is the 32 bytes of `exRA` consumed
`exSelfInput`. -/
def exSelfConsumed : LedgerState :=
  { transferOutputs := [{ exSelfInput with consumers := [exT2, exRA] }],
    transferOutputBookings :=
      [newTransferOutputBooking exRA exA1 true exT1, newTransferOutputBooking exRA exA1 false exT1],
    realities := [exMainReality, exSelfReality] }

/-- `exSelfLedger` after that transfer is booked on the reality `exRA`. -/
def exSelfBooked : LedgerState :=
  { transferOutputs :=
      [NewTransferOutput exRA exRA exA2 [⟨exIOTA, 100⟩], { exSelfInput with consumers := [exT2, exRA] }],
    transferOutputBookings :=
      [newTransferOutputBooking exRA exA2 false exRA, newTransferOutputBooking exRA exA1 true exT1,
        newTransferOutputBooking exRA exA1 false exT1],
    realities := [newReality exRA [exRA], exMainReality] }

/-- The reality `exRA`, child of the main reality. -/
def exRealityA : Reality := newReality exRA [exMAIN]

/-- The reality `exRB`, child of the main reality. -/
def exRealityB : Reality := newReality exRB [exMAIN]

/-- The aggregated reality of `exRA` and `exRB`: its id is the digest of `exRA ‖ exRB`. -/
def exRealityC : Reality := newReality exRC [exRA, exRB]

/-- A ledger with the main reality, its children `exRA` and `exRB`, and one output of
50 IOTA in each child. -/
def exBranchLedger : LedgerState :=
  { transferOutputs :=
      [NewTransferOutput exRA exT1 exA1 [⟨exIOTA, 50⟩], NewTransferOutput exRB exT2 exA2 [⟨exIOTA, 50⟩]],
    transferOutputBookings :=
      [newTransferOutputBooking exRA exA1 false exT1, newTransferOutputBooking exRB exA2 false exT2],
    realities := [exMainReality, exRealityA, exRealityB] }

/-- A transfer that spends the two outputs of `exBranchLedger` to the address A3. -/
def exJoinTransfer : Transfer :=
  { hash := exT4, inputs := [⟨exT1, exA1⟩, ⟨exT2, exA2⟩], outputs := [(exA3, [⟨exIOTA, 100⟩])] }

/-- The ledger `exBranchLedger` after `exJoinTransfer` is booked: it holds the main
reality, its children `exRA` and `exRB`, and their aggregated reality `exRC`, in which
the output of the transfer lives. -/
def exMergeLedger : LedgerState :=
  { transferOutputs :=
      [NewTransferOutput exRC exT4 exA3 [⟨exIOTA, 100⟩],
        { NewTransferOutput exRA exT1 exA1 [⟨exIOTA, 50⟩] with consumers := [exT4] },
        { NewTransferOutput exRB exT2 exA2 [⟨exIOTA, 50⟩] with consumers := [exT4] }],
    transferOutputBookings :=
      [newTransferOutputBooking exRC exA3 false exT4, newTransferOutputBooking exRB exA2 true exT2,
        newTransferOutputBooking exRA exA1 true exT1, newTransferOutputBooking exRA exA1 false exT1,
        newTransferOutputBooking exRB exA2 false exT2],
    realities := [exRealityC, exMainReality, exRealityA, exRealityB] }

/-- A rank that decreases along the parent edges of `exMergeLedger`. -/
def exRank (id : RealityId) : Nat :=
  if id = exMAIN then 0 else if id = exRC then 2 else 1

/-- The byte the examples use for the constant `SPENT`. -/
def exSPENT : Fin 256 := 1

/-- The byte the examples use for the constant `UNSPENT`. -/
def exUNSPENT : Fin 256 := 0

/-- The ledger `exSpentLedger` after the conflicting transfer T4 is booked (scenario 3):
the reality with the id T4, child of the main reality, holds the output of T4. -/
def exBranchedLedger : LedgerState :=
  { transferOutputs :=
      [NewTransferOutput exT4 exT4 exA3 [⟨exIOTA, 100⟩],
        NewTransferOutput exMAIN exT2 exA2 [⟨exIOTA, 100⟩],
        { exInputSpent with consumers := [exT2, exT4] }],
    transferOutputBookings :=
      [newTransferOutputBooking exT4 exA3 false exT4, newTransferOutputBooking exMAIN exA1 true exT1,
        newTransferOutputBooking exMAIN exA2 false exT2, newTransferOutputBooking exMAIN exA1 false exT1],
    realities := [newReality exT4 [exMAIN], exMainReality] }

/-- The blake2b-256 digest of `exT1 ‖ exT1`. -/
def exDigestT1T1 : ConflictId :=
  ⟨[242, 212, 15, 102, 31, 60, 214, 229, 99, 162, 143, 156, 216, 149, 19, 35, 120, 89, 12, 83, 199,
    151, 226, 2, 224, 128, 111, 117, 205, 3, 212, 188], by decide⟩

/-- The blake2b-256 digest of `exT1 ‖ exA1`. -/
def exDigestT1A1 : ConflictId :=
  ⟨[117, 157, 170, 5, 243, 123, 95, 88, 162, 48, 1, 252, 8, 110, 43, 151, 85, 127, 84, 81, 206,
    110, 10, 194, 61, 209, 110, 120, 226, 214, 26, 124], by decide⟩

/-- The values of blake2b-256 on the two strings the examples of the conflict id hash
(every other string is sent to a placeholder the examples never reach). -/
def exBlake2bConflict (data : List (Fin 256)) : Bytes32 :=
  if data = exT1.val ++ exT1.val then exDigestT1T1
  else if data = exT1.val ++ exA1.val then exDigestT1A1
  else mkId 255


/-- A transfer with no input and no output. -/
def exEmptyTransfer : Transfer := { hash := exT2, inputs := [], outputs := [] }

/-- A transfer that spends the two outputs of `exBranchLedger`, 100 IOTA, and pays out
90 IOTA. -/
def exShortJoinTransfer : Transfer :=
  { hash := exT4, inputs := [⟨exT1, exA1⟩, ⟨exT2, exA2⟩], outputs := [(exA3, [⟨exIOTA, 90⟩])] }


/-- The new ledger state after `CreateReality(exRA)` and `CreateReality(exRB)`. -/
def exTwoChildren : LedgerState :=
  LedgerState.CreateReality exMAIN (LedgerState.CreateReality exMAIN (NewLedgerState exMAIN) exRA) exRB


end Ledgerstate

/-! # The FPC test payload (dapps/fpctest/packages/payload)

The locks of `ID` and `ObjectStorageValue` are left out: the embedding is that of one
thread.  `marshalutil` is the Go library `hive.go/marshalutil`; a write appends the
bytes to the buffer, a read takes them at the read offset. -/

namespace Fpctest

open Ledgerstate

/-- `NonceSize`. -/
def NonceSize : Nat := 32

/-- `marshalutil.UINT32_SIZE`. -/
def UINT32_SIZE : Nat := 4

/-- The constant `Type` of the payload package. -/
def payloadType : Nat := 10895

/-- The persistent and the cached fields of `Payload`; `none` is a `nil` field. -/
structure Payload where
  id : Option Bytes32
  nonce : List (Fin 256)
  like : Nat
  bytes : Option (List (Fin 256))
  deriving DecidableEq, Repr

/-- The errors of the reads of `marshalutil`. -/
inductive ParseError where
  /-- The read asks for more bytes than are left. -/
  | notEnoughBytes
  deriving DecidableEq, Repr

/-- `New`: `none` is the `nil` returned for a nonce of fewer than `NonceSize` bytes. -/
def New (like : Nat) (nonce : List (Fin 256)) : Option Payload :=
  if nonce.length < NonceSize then none
  else some { id := none, nonce := nonce.take NonceSize, like := like, bytes := none }

/-- `marshalutil.New(size)` followed by writes and `Bytes()`: the bytes written, and the
zero bytes of the part of the buffer that was not written. -/
def marshalBytes (size : Nat) (written : List (Fin 256)) : List (Fin 256) :=
  written ++ List.replicate (size - written.length) 0

/-- `Payload.Nonce`. -/
def Payload.Nonce (payload : Payload) : List (Fin 256) := payload.nonce

/-- `Payload.Like`. -/
def Payload.Like (payload : Payload) : Nat := payload.like

/-- `Payload.ID`: the id and the payload with the id stored; `blake2b` stands for
`blake2b.Sum256`. -/
def Payload.ID (blake2b : List (Fin 256) → Bytes32) (payload : Payload) : Bytes32 × Payload :=
  match payload.id with
  | some id => (id, payload)
  | none =>
    let id := blake2b (marshalBytes (NonceSize + UINT32_SIZE) (payload.Nonce ++ putUint32 payload.Like))
    (id, { payload with id := some id })

/-- `Payload.ObjectStorageValue`: the bytes and the payload with the bytes stored. -/
def Payload.ObjectStorageValue (payload : Payload) : List (Fin 256) × Payload :=
  match payload.bytes with
  | some bytes => (bytes, payload)
  | none =>
    let payloadLength := NonceSize + UINT32_SIZE
    let bytes := marshalBytes (UINT32_SIZE + UINT32_SIZE + payloadLength)
      (putUint32 payloadType ++ putUint32 payloadLength ++ payload.Nonce ++ putUint32 payload.Like)
    (bytes, { payload with bytes := some bytes })

/-- `Payload.Bytes`. -/
def Payload.Bytes (payload : Payload) : List (Fin 256) × Payload := payload.ObjectStorageValue

/-- A `marshalutil.MarshalUtil` that is read: the bytes and the read offset. -/
structure MarshalUtil where
  bytes : List (Fin 256)
  readOffset : Nat
  deriving DecidableEq, Repr

/-- `marshalutil.New(bytes)`. -/
def MarshalUtil.New (bytes : List (Fin 256)) : MarshalUtil := { bytes := bytes, readOffset := 0 }

/-- `MarshalUtil.ReadBytes(length)`: `none` is the error of a read beyond the bytes. -/
def MarshalUtil.ReadBytes (util : MarshalUtil) (length : Nat) :
    Option (List (Fin 256) × MarshalUtil) :=
  if util.bytes.length < util.readOffset + length then none
  else some ((util.bytes.drop util.readOffset).take length,
    { util with readOffset := util.readOffset + length })

/-- `MarshalUtil.ReadUint32`: four bytes, little-endian. -/
def MarshalUtil.ReadUint32 (util : MarshalUtil) : Option (Nat × MarshalUtil) :=
  match util.ReadBytes UINT32_SIZE with
  | none => none
  | some (b, util1) =>
    match getUint32 b with
    | .ok v => some (v, util1)
    | .fault _ => none

/-- `Payload.UnmarshalObjectStorageValue`: the consumed bytes, the error, and the
payload as the call leaves it. -/
def Payload.UnmarshalObjectStorageValue (payload : Payload) (data : List (Fin 256)) :
    (Nat × Option ParseError) × Payload :=
  match (MarshalUtil.New data).ReadUint32 with
  | none => ((0, some .notEnoughBytes), payload)
  | some (_, util1) =>
    match util1.ReadUint32 with
    | none => ((0, some .notEnoughBytes), payload)
    | some (_, util2) =>
      match util2.ReadBytes NonceSize with
      | none => ((0, some .notEnoughBytes), { payload with nonce := [] })
      | some (nonce, util3) =>
        match util3.ReadUint32 with
        | none => ((0, some .notEnoughBytes), { payload with nonce := nonce, like := 0 })
        | some (like, util4) =>
          let consumedBytes := util4.readOffset
          ((consumedBytes, none),
            { payload with nonce := nonce, like := like, bytes := some (data.take consumedBytes) })

/-- `Parse`: the payload parsed into, the error, and the `marshalUtil` with its read
offset moved when there is no error (`MarshalUtil.Parse`). -/
def Parse (marshalUtil : MarshalUtil) (optionalTargetObject : List Payload) :
    Outcome ((Payload × Option ParseError) × MarshalUtil) :=
  match optionalTargetObject with
  | _ :: _ :: _ => .fault .tooManyArguments
  | targets =>
    let result : Payload :=
      match targets with
      | [target] => target
      | _ => { id := none, nonce := [], like := 0, bytes := none }
    match result.UnmarshalObjectStorageValue (marshalUtil.bytes.drop marshalUtil.readOffset) with
    | ((_, some err), result1) => .ok ((result1, some err), marshalUtil)
    | ((parsedBytes, none), result1) =>
      .ok ((result1, none), { marshalUtil with readOffset := marshalUtil.readOffset + parsedBytes })

/-- `FromBytes`: the payload, the consumed bytes and the error. -/
def FromBytes (bytes : List (Fin 256)) (optionalTargetObject : List Payload) :
    Outcome (Payload × Nat × Option ParseError) :=
  match Parse (MarshalUtil.New bytes) optionalTargetObject with
  | .fault f => .fault f
  | .ok ((result, err), marshalUtil) => .ok (result, marshalUtil.readOffset, err)

/-- A nonce of 40 bytes, the bytes 1, 2, ..., 40. -/
def exNonce : List (Fin 256) := (List.range 40).map (fun i => byteOf (i + 1))

/-- The 46 bytes 1, 2, ..., 46: neither the type field nor the length field is that of
a payload of this package. -/
def exData : List (Fin 256) := (List.range 46).map (fun i => byteOf (i + 1))


end Fpctest

namespace Ledgerstate

/-! # Theorems -/

/-! ## Lemmas on the balance map -/

theorem colorSum_nil (c : Color) : colorSum [] c = 0 := rfl

theorem colorSum_cons (b : ColoredBalance) (bs : List ColoredBalance) (c : Color) :
    colorSum (b :: bs) c = (if b.color = c then b.value else 0) + colorSum bs c := by
  unfold colorSum
  by_cases h : b.color = c <;> simp [List.filter_cons, h]

theorem colorSum_append (as bs : List ColoredBalance) (c : Color) :
    colorSum (as ++ bs) c = colorSum as c + colorSum bs c := by
  induction as with
  | nil => simp [colorSum_nil]
  | cons a as ih => simp [colorSum_cons, ih, Nat.add_assoc]

theorem colorSum_eq_zero_of_not_mem (bs : List ColoredBalance) (c : Color)
    (h : c ∉ colorsOf bs) : colorSum bs c = 0 := by
  induction bs with
  | nil => rfl
  | cons b bs ih =>
    simp only [colorsOf, List.map_cons, List.mem_cons, not_or] at h
    have hb : ¬ b.color = c := fun e => h.1 e.symm
    simp [colorSum_cons, hb, ih h.2]

theorem find?_filter_of_imp {α : Type} (p q : α → Bool) (l : List α)
    (h : ∀ a, q a = true → p a = true) : (l.filter p).find? q = l.find? q := by
  induction l with
  | nil => rfl
  | cons a l ih =>
    cases hp : p a with
    | true => rw [List.filter_cons_of_pos hp, List.find?_cons, List.find?_cons, ih]
    | false =>
      have hq : q a = false := by
        cases hq : q a with
        | false => rfl
        | true => rw [h a hq] at hp; exact absurd hp (by decide)
      have hp2 : ¬ p a = true := by rw [hp]; decide
      rw [List.filter_cons_of_neg hp2, List.find?_cons, hq, ih]

theorem find?_filter_of_excl {α : Type} (p q : α → Bool) (l : List α)
    (h : ∀ a, q a = true → p a = false) : (l.filter p).find? q = none := by
  induction l with
  | nil => rfl
  | cons a l ih =>
    cases hp : p a with
    | true =>
      have hq : q a = false := by
        cases hq : q a with
        | false => rfl
        | true => rw [h a hq] at hp; exact absurd hp (by decide)
      rw [List.filter_cons_of_pos hp, List.find?_cons, hq, ih]
    | false =>
      have hp2 : ¬ p a = true := by rw [hp]; decide
      rw [List.filter_cons_of_neg hp2, ih]

theorem balanceGet_filter_ne (m : BalanceMap) (c d : Color) (h : d ≠ c) :
    balanceGet (m.filter (fun p => decide (p.1 ≠ c))) d = balanceGet m d := by
  unfold balanceGet
  rw [find?_filter_of_imp]
  intro a ha
  have ha2 : a.1 = d := of_decide_eq_true ha
  exact decide_eq_true (fun e => h (ha2.symm.trans e))

theorem balanceGet_filter_self (m : BalanceMap) (c : Color) :
    balanceGet (m.filter (fun p => decide (p.1 ≠ c))) c = 0 := by
  unfold balanceGet
  rw [find?_filter_of_excl]
  intro a ha
  have ha2 : a.1 = c := of_decide_eq_true ha
  exact decide_eq_false (fun e => e ha2)

theorem balanceGet_set (m : BalanceMap) (c d : Color) (v : Nat) :
    balanceGet (balanceSet m c v) d = if d = c then v else balanceGet m d := by
  by_cases h : d = c
  · subst h
    simp [balanceSet, balanceGet, List.find?_cons]
  · have h2 : ¬ c = d := fun e => h e.symm
    have key := balanceGet_filter_ne m c d h
    rw [if_neg h, ← key]
    unfold balanceSet balanceGet
    rw [List.find?_cons, decide_eq_false h2]

theorem balanceGet_delete (m : BalanceMap) (c d : Color) :
    balanceGet (balanceDelete m c) d = if d = c then 0 else balanceGet m d := by
  by_cases h : d = c
  · subst h
    rw [if_pos rfl]
    exact balanceGet_filter_self m d
  · rw [if_neg h]
    exact balanceGet_filter_ne m c d h

theorem mem_keys_set (m : BalanceMap) (c d : Color) (v : Nat) :
    d ∈ (balanceSet m c v).map Prod.fst ↔ d = c ∨ d ∈ m.map Prod.fst := by
  simp only [balanceSet, List.map_cons, List.mem_cons, List.mem_map, List.mem_filter,
    decide_eq_true_eq]
  constructor
  · rintro (h | ⟨p, ⟨hp, _⟩, rfl⟩)
    · exact Or.inl h
    · exact Or.inr ⟨p, hp, rfl⟩
  · rintro (h | ⟨p, hp, rfl⟩)
    · exact Or.inl h
    · by_cases e : p.1 = c
      · exact Or.inl e
      · exact Or.inr ⟨p, ⟨hp, e⟩, rfl⟩

theorem mem_keys_delete (m : BalanceMap) (c d : Color) :
    d ∈ (balanceDelete m c).map Prod.fst ↔ d ≠ c ∧ d ∈ m.map Prod.fst := by
  simp only [balanceDelete, List.mem_map, List.mem_filter, decide_eq_true_eq]
  constructor
  · rintro ⟨p, ⟨hp, hne⟩, rfl⟩
    exact ⟨hne, p, hp, rfl⟩
  · rintro ⟨hne, p, hp, rfl⟩
    exact ⟨p, ⟨hp, hne⟩, rfl⟩

theorem length_eq_zero_iff_no_key (m : BalanceMap) :
    m.length = 0 ↔ ∀ c, c ∉ m.map Prod.fst := by
  cases m with
  | nil => simp
  | cons p m =>
    simp only [List.length_cons, Nat.succ_ne_zero, false_iff, not_forall, not_not]
    exact ⟨p.1, by simp⟩


theorem addBalances_append (m : BalanceMap) (as bs : List ColoredBalance) :
    addBalances m (as ++ bs) = addBalances (addBalances m as) bs := by
  induction as generalizing m with
  | nil => rfl
  | cons a as ih => simp only [List.cons_append, addBalances]; exact ih _

theorem subBalances_append (m : BalanceMap) (as bs : List ColoredBalance) :
    subBalances m (as ++ bs) = subBalances (subBalances m as) bs := by
  induction as generalizing m with
  | nil => rfl
  | cons a as ih => simp only [List.cons_append, subBalances]; exact ih _

theorem subOutputs_eq (m : BalanceMap) (outputs : OutputMap) :
    subOutputs m outputs = subBalances m (outputBalances outputs) := by
  induction outputs generalizing m with
  | nil => rfl
  | cons o rest ih => simp only [subOutputs, outputBalances, subBalances_append]; exact ih _

/-- The value the input loop leaves for a color, up to the wrap-around of `uint64`. -/
theorem balanceGet_addBalances (m : BalanceMap) (bs : List ColoredBalance) (c : Color) :
    balanceGet (addBalances m bs) c % 2 ^ 64 = (balanceGet m c + colorSum bs c) % 2 ^ 64 := by
  induction bs generalizing m with
  | nil => simp [addBalances, colorSum_nil]
  | cons b bs ih =>
    simp only [addBalances]
    rw [ih, balanceGet_set, colorSum_cons]
    by_cases h : c = b.color
    · subst h
      simp only [if_true, add64]
      omega
    · have h2 : ¬ b.color = c := fun e => h e.symm
      simp only [h, h2, if_false]
      omega

/-- The keys the input loop leaves: those it started with and the colors of the inputs. -/
theorem mem_keys_addBalances (m : BalanceMap) (bs : List ColoredBalance) (c : Color) :
    c ∈ (addBalances m bs).map Prod.fst ↔ c ∈ m.map Prod.fst ∨ c ∈ colorsOf bs := by
  induction bs generalizing m with
  | nil => simp [addBalances, colorsOf]
  | cons b bs ih =>
    simp only [addBalances]
    rw [ih, mem_keys_set]
    simp only [colorsOf, List.map_cons, List.mem_cons]
    tauto

theorem subBalances_cons (m : BalanceMap) (b : ColoredBalance) (bs : List ColoredBalance) :
    subBalances m (b :: bs) = subBalances (subStep m b) bs := rfl

theorem balanceGet_subStep_other (m : BalanceMap) (b : ColoredBalance) (c : Color)
    (h : c ≠ b.color) : balanceGet (subStep m b) c = balanceGet m c := by
  unfold subStep
  split
  · rw [balanceGet_delete, if_neg h, balanceGet_set, if_neg h]
  · rw [balanceGet_set, if_neg h]

theorem mem_keys_subStep_other (m : BalanceMap) (b : ColoredBalance) (c : Color)
    (h : c ≠ b.color) : c ∈ (subStep m b).map Prod.fst ↔ c ∈ m.map Prod.fst := by
  unfold subStep
  split
  · rw [mem_keys_delete, mem_keys_set]; tauto
  · rw [mem_keys_set]; tauto

theorem balanceGet_subStep_self (m : BalanceMap) (b : ColoredBalance) :
    balanceGet (subStep m b) b.color = sub64 (balanceGet m b.color) b.value := by
  unfold subStep
  split
  · rename_i h0
    rw [balanceGet_set, if_pos rfl] at h0
    rw [balanceGet_delete, if_pos rfl, h0]
  · rw [balanceGet_set, if_pos rfl]

theorem mem_keys_subStep_self (m : BalanceMap) (b : ColoredBalance) :
    b.color ∈ (subStep m b).map Prod.fst ↔ sub64 (balanceGet m b.color) b.value ≠ 0 := by
  unfold subStep
  split
  · rename_i h0
    rw [balanceGet_set, if_pos rfl] at h0
    rw [mem_keys_delete]
    simp [h0]
  · rename_i h0
    rw [balanceGet_set, if_pos rfl] at h0
    rw [mem_keys_set]
    simp [h0]

/-- A color no output carries keeps its entry through the output loop. -/
theorem subBalances_other (m : BalanceMap) (bs : List ColoredBalance) (c : Color)
    (h : c ∉ colorsOf bs) :
    balanceGet (subBalances m bs) c = balanceGet m c ∧
      (c ∈ (subBalances m bs).map Prod.fst ↔ c ∈ m.map Prod.fst) := by
  induction bs generalizing m with
  | nil => exact ⟨rfl, Iff.rfl⟩
  | cons b bs ih =>
    simp only [colorsOf, List.map_cons, List.mem_cons, not_or] at h
    rw [subBalances_cons]
    have hb := ih (subStep m b) h.2
    rw [balanceGet_subStep_other m b c h.1, mem_keys_subStep_other m b c h.1] at hb
    exact hb

/-- The value the output loop leaves for a color, up to the wrap-around of `uint64`. -/
theorem balanceGet_subBalances (m : BalanceMap) (bs : List ColoredBalance) (c : Color) :
    (balanceGet (subBalances m bs) c + colorSum bs c) % 2 ^ 64 = balanceGet m c % 2 ^ 64 := by
  induction bs generalizing m with
  | nil => simp [subBalances, colorSum_nil]
  | cons b bs ih =>
    rw [subBalances_cons, colorSum_cons]
    have hb := ih (subStep m b)
    by_cases h : c = b.color
    · subst h
      rw [balanceGet_subStep_self] at hb
      simp only [if_true, sub64] at hb ⊢
      omega
    · have h2 : ¬ b.color = c := fun e => h e.symm
      rw [balanceGet_subStep_other m b c h] at hb
      simp only [h2, if_false]
      omega

/-- A color some output carries has an entry after the output loop exactly when its
value is not zero, and the value is a `uint64`. -/
theorem subBalances_seen (m : BalanceMap) (bs : List ColoredBalance) (c : Color)
    (h : c ∈ colorsOf bs) :
    (c ∈ (subBalances m bs).map Prod.fst ↔ balanceGet (subBalances m bs) c ≠ 0) ∧
      balanceGet (subBalances m bs) c < 2 ^ 64 := by
  induction bs generalizing m with
  | nil => simp [colorsOf] at h
  | cons b bs ih =>
    rw [subBalances_cons]
    by_cases hc : c ∈ colorsOf bs
    · exact ih (subStep m b) hc
    · have hcb : c = b.color := by
        simp only [colorsOf, List.map_cons, List.mem_cons] at h hc
        tauto
      subst hcb
      obtain ⟨hget, hkey⟩ := subBalances_other (subStep m b) bs _ hc
      rw [hget, hkey, balanceGet_subStep_self, mem_keys_subStep_self]
      refine ⟨Iff.rfl, ?_⟩
      simp only [sub64]
      omega

theorem sumInputs_all_ok (ls : LedgerState) (fuel : Nat) (reality : Reality)
    (inputs : List TransferOutput) (m : BalanceMap)
    (h : ∀ o ∈ inputs, DescendsFromReality ls fuel reality o.realityId = .ok true) :
    sumInputs ls fuel reality (inputs.map some) m = .ok (.inr (addBalances m (inputBalances inputs))) := by
  induction inputs generalizing m with
  | nil => rfl
  | cons o rest ih =>
    simp only [List.map_cons, sumInputs, inputBalances, addBalances_append]
    rw [h o (List.mem_cons_self _ _)]
    exact ih _ (fun o2 h2 => h o2 (List.mem_cons_of_mem _ h2))

/-- The balance check on inputs that all exist in realities the target descends from:
it succeeds when the map the two loops leave is empty, and fails with the balance
mismatch otherwise. -/
theorem checkTransferBalances_eq (ls : LedgerState) (fuel : Nat) (reality : Reality)
    (inputs : List TransferOutput) (outputs : OutputMap)
    (h : ∀ o ∈ inputs, DescendsFromReality ls fuel reality o.realityId = .ok true) :
    checkTransferBalances ls fuel reality (inputs.map some) outputs =
      if (subBalances (addBalances [] (inputBalances inputs)) (outputBalances outputs)).length ≠ 0
      then .ok (some .balanceMismatch) else .ok none := by
  unfold checkTransferBalances
  rw [sumInputs_all_ok ls fuel reality inputs [] h]
  simp only [subOutputs_eq]


/-! ## The balance check (C1) -/

/-- C1, the claim as stated fails twice.  An output with two balances of 2^63 of one
color against an output balance of value 0 passes the check although the sums over the
naturals are 2^64 and 0; an input balance of value 0 with no output at all fails with
the balance mismatch although every color sums to 0 on both sides. -/
theorem checkTransferBalances_natural_sums_counterexample :
    (DescendsFromReality exLedger 0 exMainReality exWrapInput.realityId = .ok true ∧
      checkTransferBalances exLedger 0 exMainReality [some exWrapInput] [(exA2, [⟨exIOTA, 0⟩])] = .ok none ∧
      colorSum (inputBalances [exWrapInput]) exIOTA ≠ colorSum (outputBalances [(exA2, [⟨exIOTA, 0⟩])]) exIOTA) ∧
    (DescendsFromReality exLedger 0 exMainReality exZeroInput.realityId = .ok true ∧
      checkTransferBalances exLedger 0 exMainReality [some exZeroInput] [] = .ok (some .balanceMismatch) ∧
      ∀ c, colorSum (inputBalances [exZeroInput]) c = colorSum (outputBalances []) c) := by
  refine ⟨⟨by decide, by decide, by decide⟩, by decide, by decide, ?_⟩
  intro c
  simp [inputBalances, outputBalances, exZeroInput, NewTransferOutput, colorSum_cons, colorSum_nil]

/-- C1, amended: for inputs that all exist in realities the target descends from, and
when every color of an input balance is also the color of some output balance,
`checkTransferBalances` succeeds if and only if for every color the sum of the input
values and the sum of the output values are congruent modulo 2^64; when it does not
succeed it returns the balance-mismatch error. -/
theorem checkTransferBalances_iff_sums_mod (ls : LedgerState) (fuel : Nat) (reality : Reality)
    (inputs : List TransferOutput) (outputs : OutputMap)
    (h : ∀ o ∈ inputs, DescendsFromReality ls fuel reality o.realityId = .ok true)
    (hcol : ∀ c ∈ colorsOf (inputBalances inputs), c ∈ colorsOf (outputBalances outputs)) :
    (checkTransferBalances ls fuel reality (inputs.map some) outputs = .ok none ↔
      ∀ c, colorSum (inputBalances inputs) c % 2 ^ 64 = colorSum (outputBalances outputs) c % 2 ^ 64) ∧
    (checkTransferBalances ls fuel reality (inputs.map some) outputs ≠ .ok none →
      checkTransferBalances ls fuel reality (inputs.map some) outputs = .ok (some .balanceMismatch)) := by
  rw [checkTransferBalances_eq ls fuel reality inputs outputs h]
  constructor
  · have hempty : (if (subBalances (addBalances [] (inputBalances inputs)) (outputBalances outputs)).length ≠ 0
        then (Outcome.ok (some BookError.balanceMismatch) : Outcome (Option BookError)) else .ok none) = .ok none ↔
        (subBalances (addBalances [] (inputBalances inputs)) (outputBalances outputs)).length = 0 := by
      split
      · rename_i hne
        simp [hne]
      · rename_i hne
        simp only [ne_eq, not_not] at hne
        simp [hne]
    rw [hempty, length_eq_zero_iff_no_key]
    have hin := fun c => balanceGet_addBalances [] (inputBalances inputs) c
    have hout := fun c =>
      balanceGet_subBalances (addBalances [] (inputBalances inputs)) (outputBalances outputs) c
    have hget0 : ∀ c, balanceGet ([] : BalanceMap) c = 0 := fun _ => rfl
    constructor
    · intro hnone c
      have h1 := hin c
      have h2 := hout c
      rw [hget0] at h1
      by_cases hc : c ∈ colorsOf (outputBalances outputs)
      · obtain ⟨hkey, _⟩ := subBalances_seen (addBalances [] (inputBalances inputs)) (outputBalances outputs) c hc
        have hz : balanceGet (subBalances (addBalances [] (inputBalances inputs)) (outputBalances outputs)) c = 0 := by
          by_contra hnz
          exact hnone c (hkey.mpr hnz)
        rw [hz] at h2
        omega
      · have hci : c ∉ colorsOf (inputBalances inputs) := fun hci => hc (hcol c hci)
        rw [colorSum_eq_zero_of_not_mem _ c hc, colorSum_eq_zero_of_not_mem _ c hci]
    · intro hsum c
      have h1 := hin c
      have h2 := hout c
      have h3 := hsum c
      rw [hget0] at h1
      by_cases hc : c ∈ colorsOf (outputBalances outputs)
      · obtain ⟨hkey, hlt⟩ := subBalances_seen (addBalances [] (inputBalances inputs)) (outputBalances outputs) c hc
        rw [hkey]
        simp only [ne_eq, not_not]
        omega
      · have hci : c ∉ colorsOf (inputBalances inputs) := fun hci => hc (hcol c hci)
        rw [(subBalances_other _ _ c hc).2, mem_keys_addBalances]
        simp [hci]
  · intro hne
    split
    · rfl
    · rename_i hlen
      rw [if_neg hlen] at hne
      exact absurd rfl hne

/-- The amended C1 at the transfer of 100 IOTA from `exInput` to the address `exA2`. -/
theorem checkTransferBalances_iff_sums_mod_witness :
    (checkTransferBalances exLedger 0 exMainReality ([exInput].map some) [(exA2, [⟨exIOTA, 100⟩])] = .ok none ↔
      ∀ c, colorSum (inputBalances [exInput]) c % 2 ^ 64 =
        colorSum (outputBalances [(exA2, [⟨exIOTA, 100⟩])]) c % 2 ^ 64) ∧
    (checkTransferBalances exLedger 0 exMainReality ([exInput].map some) [(exA2, [⟨exIOTA, 100⟩])] ≠ .ok none →
      checkTransferBalances exLedger 0 exMainReality ([exInput].map some) [(exA2, [⟨exIOTA, 100⟩])] =
        .ok (some .balanceMismatch)) :=
  checkTransferBalances_iff_sums_mod exLedger 0 exMainReality [exInput] [(exA2, [⟨exIOTA, 100⟩])]
    (by decide) (by decide)


/-! ## Inputs that are not stored, inputs listed twice (C2, C3) -/

theorem inputRealityIds_of_missing (inputs : List (Option TransferOutput)) (h : none ∈ inputs) :
    inputRealityIds inputs = .fault .nilObject := by
  induction inputs with
  | nil => simp at h
  | cons i rest ih =>
    cases i with
    | none => rfl
    | some o =>
      have hr : none ∈ rest := by simpa using h
      simp only [inputRealityIds, ih hr]

/-- C2: a transfer one of whose input references designates an output that is not
stored makes `LedgerState.BookTransfer` end in the panic of `getTargetReality`, which
reads the reality of every input before `checkTransferBalances` can return the
missing-input error. -/
theorem BookTransfer_missing_input_panics (blake2b : List (Fin 256) → Bytes32)
    (MAIN_REALITY_ID : RealityId)
    (order : Nat → List (RealityId × Reality) → List (RealityId × Reality))
    (ls : LedgerState) (fuel : Nat) (transfer : Transfer)
    (h : ∃ ref ∈ transfer.inputs, GetTransferOutput ls ref = none) :
    BookTransfer blake2b MAIN_REALITY_ID order ls fuel transfer = .fault .nilObject := by
  obtain ⟨ref, hmem, hnone⟩ := h
  have hin : none ∈ getTransferInputs ls transfer := by
    unfold getTransferInputs
    exact List.mem_map.mpr ⟨ref, hmem, hnone⟩
  unfold BookTransfer getTargetReality
  simp only [inputRealityIds_of_missing _ hin]

/-- C2 at `exMissingTransfer`: the reference is not stored, `LedgerState.BookTransfer`
panics, and `Reality.BookTransfer` of the main reality returns the missing-input error
for the same transfer. -/
theorem BookTransfer_missing_input_panics_witness :
    (∃ ref ∈ exMissingTransfer.inputs, GetTransferOutput exLedger ref = none) ∧
    BookTransfer exBlake2b exMAIN exOrder exLedger 3 exMissingTransfer = .fault .nilObject ∧
    Reality.BookTransfer exLedger 3 exMainReality exMissingTransfer =
      .ok (some .missingInput, exLedger) :=
  ⟨⟨⟨exT1, exA2⟩, by decide, by decide⟩,
    BookTransfer_missing_input_panics exBlake2b exMAIN exOrder exLedger 3 exMissingTransfer
      ⟨⟨exT1, exA2⟩, by decide, by decide⟩,
    by decide⟩

theorem sumInputs_ne_missing (ls : LedgerState) (fuel : Nat) (reality : Reality)
    (inputs : List (Option TransferOutput)) (m : BalanceMap)
    (h : ∀ i ∈ inputs, i ≠ none) :
    sumInputs ls fuel reality inputs m ≠ .ok (.inl .missingInput) := by
  induction inputs generalizing m with
  | nil => simp [sumInputs]
  | cons i rest ih =>
    cases i with
    | none => exact absurd rfl (h none (List.mem_cons_self _ _))
    | some o =>
      simp only [sumInputs]
      split
      · simp
      · simp
      · exact ih _ (fun i hi => h i (List.mem_cons_of_mem _ hi))

theorem checkTransferBalances_ne_missing (ls : LedgerState) (fuel : Nat) (reality : Reality)
    (inputs : List (Option TransferOutput)) (outputs : OutputMap)
    (h : ∀ i ∈ inputs, i ≠ none) :
    checkTransferBalances ls fuel reality inputs outputs ≠ .ok (some .missingInput) := by
  have hs := sumInputs_ne_missing ls fuel reality inputs [] h
  unfold checkTransferBalances
  split
  · simp
  · rename_i err heq
    intro hc
    simp only [Outcome.ok.injEq, Option.some.injEq] at hc
    rw [hc] at heq
    exact hs heq
  · split <;> simp

/-- The registration of consumers returns no error. -/
theorem consumeInputs_no_error (transferHash : TransferHash) (ls : LedgerState)
    (inputs : List (Option TransferOutput)) (conflicting : Bool)
    (res : Bool × Option BookError) (ls1 : LedgerState)
    (h : consumeInputs transferHash ls inputs conflicting = .ok (res, ls1)) : res.2 = none := by
  induction inputs generalizing ls conflicting with
  | nil =>
    simp only [consumeInputs, Outcome.ok.injEq, Prod.mk.injEq] at h
    rw [← h.1]
  | cons i rest ih =>
    cases i with
    | none => simp [consumeInputs] at h
    | some o =>
      simp only [consumeInputs, addConsumer] at h
      exact ih _ _ h

theorem bookTransfer_ne_missing (ls : LedgerState) (fuel : Nat) (reality : Reality)
    (transferHash : TransferHash) (inputs : List (Option TransferOutput)) (outputs : OutputMap)
    (h : ∀ i ∈ inputs, i ≠ none) (ls1 : LedgerState) :
    bookTransfer ls fuel reality transferHash inputs outputs ≠ .ok (some .missingInput, ls1) := by
  have hc := checkTransferBalances_ne_missing ls fuel reality inputs outputs h
  unfold bookTransfer
  split
  · simp
  · rename_i err heq
    intro hx
    simp only [Outcome.ok.injEq, Prod.mk.injEq, Option.some.injEq] at hx
    rw [hx.1] at heq
    exact hc heq
  · split
    · simp
    · rename_i c err ls2 heq
      have := consumeInputs_no_error _ _ _ _ _ _ heq
      simp at this
    · simp
    · simp

/-- C3, the claim as stated fails: the ledger holds the output (T1, A1) with 100 IOTA,
the transfer lists the reference (T1, A1) twice and pays out 100 IOTA; both loads
succeed, the balance is counted twice, and `BookTransfer` returns the balance-mismatch
error, not the missing-input error. -/
theorem BookTransfer_duplicate_input_counterexample :
    BookTransfer exBlake2b exMAIN exOrder exLedger 3 exDoubleTransfer =
      .ok (some .balanceMismatch, exLedger) := by
  decide

/-- C3, amended: when every input reference of a transfer designates a stored output
(also when one reference is listed twice) `LedgerState.BookTransfer` does not fail
with the missing-input error: every occurrence of a reference is loaded on its own. -/
theorem BookTransfer_stored_inputs_not_missing (blake2b : List (Fin 256) → Bytes32)
    (MAIN_REALITY_ID : RealityId)
    (order : Nat → List (RealityId × Reality) → List (RealityId × Reality))
    (ls : LedgerState) (fuel : Nat) (transfer : Transfer)
    (h : ∀ ref ∈ transfer.inputs, GetTransferOutput ls ref ≠ none) (ls1 : LedgerState) :
    getTransferInputs ls transfer = transfer.inputs.map (GetTransferOutput ls) ∧
    BookTransfer blake2b MAIN_REALITY_ID order ls fuel transfer ≠ .ok (some .missingInput, ls1) := by
  refine ⟨rfl, ?_⟩
  have hin : ∀ i ∈ getTransferInputs ls transfer, i ≠ none := by
    intro i hi
    unfold getTransferInputs at hi
    obtain ⟨ref, hmem, rfl⟩ := List.mem_map.mp hi
    exact h ref hmem
  unfold BookTransfer
  simp only
  split
  · simp
  · rename_i target _
    have hb := fun l => bookTransfer_ne_missing ls fuel target.reality transfer.hash
      (getTransferInputs ls transfer) transfer.outputs hin l
    split
    · simp
    · rename_i err ls2 heq
      intro hx
      simp only [Outcome.ok.injEq, Prod.mk.injEq, Option.some.injEq] at hx
      rw [hx.1] at heq
      exact hb _ heq
    · simp

/-- The amended C3 at `exDoubleTransfer`, which lists the stored reference (T1, A1)
twice. -/
theorem BookTransfer_stored_inputs_not_missing_witness :
    (∀ ref ∈ exDoubleTransfer.inputs, GetTransferOutput exLedger ref ≠ none) ∧
    getTransferInputs exLedger exDoubleTransfer =
      exDoubleTransfer.inputs.map (GetTransferOutput exLedger) ∧
    BookTransfer exBlake2b exMAIN exOrder exLedger 3 exDoubleTransfer ≠
      .ok (some .missingInput, exLedger) :=
  ⟨by decide,
    BookTransfer_stored_inputs_not_missing exBlake2b exMAIN exOrder exLedger 3 exDoubleTransfer
      (by decide) exLedger⟩


/-! ## What a booking stores (C4, C5) -/

theorem sameOutputKey_eq (a b : TransferOutput) :
    sameOutputKey a b = decide (outputKey a = outputKey b) := by
  unfold sameOutputKey outputKey
  simp only [Prod.mk.injEq]

theorem filter_filter_of_imp {α : Type} (p q : α → Bool) (l : List α)
    (h : ∀ a, q a = true → p a = true) : (l.filter p).filter q = l.filter q := by
  rw [List.filter_filter]
  apply List.filter_congr
  intro a _
  cases hq : q a with
  | false => rfl
  | true => simp [h a hq]

theorem filter_filter_of_excl {α : Type} (p q : α → Bool) (l : List α)
    (h : ∀ a, q a = true → p a = false) : (l.filter p).filter q = [] := by
  rw [List.filter_filter, List.filter_eq_nil_iff]
  intro a _
  cases hq : q a with
  | false => simp
  | true => simp [h a hq]

theorem outputsAt_store_self (ls : LedgerState) (x : TransferOutput) :
    outputsAt (storeTransferOutput ls x) (outputKey x) = [x] := by
  unfold outputsAt storeTransferOutput
  simp only [List.filter_cons, decide_True, if_true]
  rw [filter_filter_of_excl]
  intro a ha
  rw [sameOutputKey_eq, ha]
  rfl

theorem outputsAt_store_other (ls : LedgerState) (x : TransferOutput)
    (k : RealityId × TransferHash × AddressHash) (h : outputKey x ≠ k) :
    outputsAt (storeTransferOutput ls x) k = outputsAt ls k := by
  unfold outputsAt storeTransferOutput
  simp only [List.filter_cons, decide_eq_false h]
  rw [filter_filter_of_imp]
  · simp
  · intro a ha
    have ha2 : outputKey a = k := of_decide_eq_true ha
    have hax : ¬ outputKey a = outputKey x := fun e => h (e.symm.trans ha2)
    rw [sameOutputKey_eq, decide_eq_false hax]
    rfl

theorem bookingsAt_store_self (ls : LedgerState) (b : TransferOutputBooking) :
    bookingsAt (storeTransferOutputBooking ls b) b = [b] := by
  unfold bookingsAt storeTransferOutputBooking
  simp only [List.filter_cons, decide_True, if_true]
  rw [filter_filter_of_excl]
  intro a ha
  have ha2 : a = b := of_decide_eq_true ha
  exact decide_eq_false (fun e => e ha2)

theorem bookingsAt_store_other (ls : LedgerState) (b c : TransferOutputBooking) (h : b ≠ c) :
    bookingsAt (storeTransferOutputBooking ls b) c = bookingsAt ls c := by
  unfold bookingsAt storeTransferOutputBooking
  simp only [List.filter_cons, decide_eq_false h]
  rw [filter_filter_of_imp]
  · simp
  · intro a ha
    have ha2 : a = c := of_decide_eq_true ha
    exact decide_eq_true (fun e => h (e.symm.trans ha2))

theorem bookTransferOutputs_cons (reality : Reality) (transferHash : TransferHash) (ls : LedgerState)
    (p : AddressHash × List ColoredBalance) (rest : OutputMap) :
    bookTransferOutputs reality transferHash ls (p :: rest) =
      bookTransferOutputs reality transferHash
        (storeTransferOutputBooking
          (storeTransferOutput ls (NewTransferOutput reality.id transferHash p.1 p.2))
          (newTransferOutputBooking reality.id p.1 false transferHash)) rest := rfl

theorem bookTransferOutputs_realities (reality : Reality) (transferHash : TransferHash)
    (ls : LedgerState) (outputs : OutputMap) :
    (bookTransferOutputs reality transferHash ls outputs).realities = ls.realities := by
  induction outputs generalizing ls with
  | nil => rfl
  | cons p rest ih => rw [bookTransferOutputs_cons, ih]; rfl

theorem bookTransferOutputs_outputsAt_other (reality : Reality) (transferHash : TransferHash)
    (ls : LedgerState) (outputs : OutputMap) (k : RealityId × TransferHash × AddressHash)
    (h : ∀ p ∈ outputs, (reality.id, transferHash, p.1) ≠ k) :
    outputsAt (bookTransferOutputs reality transferHash ls outputs) k = outputsAt ls k := by
  induction outputs generalizing ls with
  | nil => rfl
  | cons p rest ih =>
    rw [bookTransferOutputs_cons, ih _ (fun q hq => h q (List.mem_cons_of_mem _ hq))]
    have hk := h p (List.mem_cons_self _ _)
    exact outputsAt_store_other ls _ k hk

/-- Every entry of the output map is stored, once, under its key. -/
theorem bookTransferOutputs_outputsAt (reality : Reality) (transferHash : TransferHash)
    (ls : LedgerState) (outputs : OutputMap) (hmap : (outputs.map Prod.fst).Nodup) :
    ∀ p ∈ outputs, outputsAt (bookTransferOutputs reality transferHash ls outputs)
      (reality.id, transferHash, p.1) = [NewTransferOutput reality.id transferHash p.1 p.2] := by
  induction outputs generalizing ls with
  | nil => intro p hp; simp at hp
  | cons q rest ih =>
    intro p hp
    rw [List.map_cons, List.nodup_cons] at hmap
    rw [bookTransferOutputs_cons]
    rcases List.mem_cons.mp hp with rfl | hrest
    · rw [bookTransferOutputs_outputsAt_other]
      · exact outputsAt_store_self ls (NewTransferOutput reality.id transferHash p.1 p.2)
      · intro r hr heq
        simp only [Prod.mk.injEq, true_and] at heq
        exact hmap.1 (List.mem_map.mpr ⟨r, hr, heq⟩)
    · exact ih _ hmap.2 p hrest

/-- An output that is stored after the outputs are booked was stored before or is one
of the outputs of the transfer. -/
theorem bookTransferOutputs_mem (reality : Reality) (transferHash : TransferHash)
    (ls : LedgerState) (outputs : OutputMap) (o : TransferOutput)
    (h : o ∈ (bookTransferOutputs reality transferHash ls outputs).transferOutputs) :
    o ∈ ls.transferOutputs ∨ ∃ p ∈ outputs, o = NewTransferOutput reality.id transferHash p.1 p.2 := by
  induction outputs generalizing ls with
  | nil => exact Or.inl h
  | cons q rest ih =>
    rw [bookTransferOutputs_cons] at h
    rcases ih _ h with h1 | ⟨p, hp, rfl⟩
    · change o ∈ NewTransferOutput reality.id transferHash q.1 q.2 ::
        ls.transferOutputs.filter _ at h1
      rcases List.mem_cons.mp h1 with rfl | h2
      · exact Or.inr ⟨q, List.mem_cons_self _ _, rfl⟩
      · exact Or.inl (List.mem_filter.mp h2).1
    · exact Or.inr ⟨p, List.mem_cons_of_mem _ hp, rfl⟩

theorem bookTransferOutputs_bookingsAt_other (reality : Reality) (transferHash : TransferHash)
    (ls : LedgerState) (outputs : OutputMap) (b : TransferOutputBooking)
    (h : ∀ p ∈ outputs, newTransferOutputBooking reality.id p.1 false transferHash ≠ b) :
    bookingsAt (bookTransferOutputs reality transferHash ls outputs) b = bookingsAt ls b := by
  induction outputs generalizing ls with
  | nil => rfl
  | cons p rest ih =>
    rw [bookTransferOutputs_cons, ih _ (fun q hq => h q (List.mem_cons_of_mem _ hq))]
    rw [bookingsAt_store_other _ _ _ (h p (List.mem_cons_self _ _))]
    rfl

/-- The `spent = false` booking of every entry of the output map is stored, once. -/
theorem bookTransferOutputs_bookingsAt (reality : Reality) (transferHash : TransferHash)
    (ls : LedgerState) (outputs : OutputMap) (hmap : (outputs.map Prod.fst).Nodup) :
    ∀ p ∈ outputs, bookingsAt (bookTransferOutputs reality transferHash ls outputs)
      (newTransferOutputBooking reality.id p.1 false transferHash) =
        [newTransferOutputBooking reality.id p.1 false transferHash] := by
  induction outputs generalizing ls with
  | nil => intro p hp; simp at hp
  | cons q rest ih =>
    intro p hp
    rw [List.map_cons, List.nodup_cons] at hmap
    rw [bookTransferOutputs_cons]
    rcases List.mem_cons.mp hp with rfl | hrest
    · rw [bookTransferOutputs_bookingsAt_other]
      · exact bookingsAt_store_self _ _
      · intro r hr heq
        simp only [newTransferOutputBooking, TransferOutputBooking.mk.injEq, true_and, and_true] at heq
        exact hmap.1 (List.mem_map.mpr ⟨r, hr, heq⟩)
    · exact ih _ hmap.2 p hrest

theorem addConsumer_realities (ls : LedgerState) (o : TransferOutput) (consumer : TransferHash) :
    (addConsumer ls o consumer).2.realities = ls.realities := rfl

theorem addConsumer_keys (ls : LedgerState) (o : TransferOutput) (consumer : TransferHash) :
    (addConsumer ls o consumer).2.transferOutputs.map outputKey = ls.transferOutputs.map outputKey := by
  unfold addConsumer storeTransferOutputBooking
  simp only [List.map_map]
  apply List.map_congr_left
  intro a _
  simp only [Function.comp]
  split <;> rfl

theorem consumeInputs_preserves (transferHash : TransferHash) (ls : LedgerState)
    (inputs : List (Option TransferOutput)) (conflicting : Bool)
    (res : Bool × Option BookError) (ls1 : LedgerState)
    (h : consumeInputs transferHash ls inputs conflicting = .ok (res, ls1)) :
    ls1.realities = ls.realities ∧
      ls1.transferOutputs.map outputKey = ls.transferOutputs.map outputKey := by
  induction inputs generalizing ls conflicting with
  | nil =>
    simp only [consumeInputs, Outcome.ok.injEq, Prod.mk.injEq] at h
    rw [← h.2]
    exact ⟨rfl, rfl⟩
  | cons i rest ih =>
    cases i with
    | none => simp [consumeInputs] at h
    | some o =>
      have hstep : consumeInputs transferHash ls (some o :: rest) conflicting =
          consumeInputs transferHash (addConsumer ls o transferHash).2 rest
            (conflicting || (addConsumer ls o transferHash).1.1) := rfl
      rw [hstep] at h
      obtain ⟨h1, h2⟩ := ih _ _ h
      exact ⟨h1.trans (addConsumer_realities ls o transferHash),
        h2.trans (addConsumer_keys ls o transferHash)⟩


theorem loadReality_storeReality (ls : LedgerState) (r : Reality) :
    loadReality (storeReality ls r) r.id = some r := by
  unfold loadReality storeReality
  simp [List.find?_cons]

theorem mem_of_map_outputKey_eq (l1 l2 : List TransferOutput)
    (h : l1.map outputKey = l2.map outputKey) (o : TransferOutput) (ho : o ∈ l1) :
    ∃ o1 ∈ l2, outputKey o1 = outputKey o := by
  have hk : outputKey o ∈ l2.map outputKey := by
    rw [← h]
    exact List.mem_map_of_mem _ ho
  obtain ⟨o1, h1, h2⟩ := List.mem_map.mp hk
  exact ⟨o1, h1, h2⟩

/-- C4, the claim as stated fails when the transfer hash is the id of the target
reality: the transfer with hash `exRA` is booked on the reality `exRA` and conflicts
on its input, the reality stored under the transfer hash is the target reality with
itself as parent, and the output for A2, which was not stored before, is created in
the target reality. -/
theorem bookTransfer_branch_counterexample :
    checkTransferBalances exSelfLedger 3 exSelfReality [some exSelfInput] [(exA2, [⟨exIOTA, 100⟩])] =
      .ok none ∧
    consumeInputs exRA exSelfLedger [some exSelfInput] false = .ok ((true, none), exSelfConsumed) ∧
    bookTransfer exSelfLedger 3 exSelfReality exRA [some exSelfInput] [(exA2, [⟨exIOTA, 100⟩])] =
      .ok (none, exSelfBooked) ∧
    outputsAt exSelfLedger (exSelfReality.id, exRA, exA2) = [] ∧
    outputsAt exSelfBooked (exSelfReality.id, exRA, exA2) =
      [NewTransferOutput exSelfReality.id exRA exA2 [⟨exIOTA, 100⟩]] ∧
    loadReality exSelfBooked exRA = some (newReality exRA [exRA]) := by
  refine ⟨by decide, by decide, by decide, by decide, by decide, by decide⟩

/-- C4, amended: when `bookTransfer` on a target reality passes the balance check, at
least one input reports a conflict, and the transfer hash is not the id of the target
reality, a reality whose id is the transfer hash and whose parent list is exactly
[target reality id] is stored, every output of the transfer is stored (once) in that
branch reality, and every output stored in the target reality has the key of an
output that was stored before the call.  (`hmap`: the outputs are a Go map, no
address is listed twice.) -/
theorem bookTransfer_conflict_branches (ls : LedgerState) (fuel : Nat) (reality : Reality)
    (transferHash : TransferHash) (inputs : List (Option TransferOutput)) (outputs : OutputMap)
    (ls1 : LedgerState)
    (hcheck : checkTransferBalances ls fuel reality inputs outputs = .ok none)
    (hconf : consumeInputs transferHash ls inputs false = .ok ((true, none), ls1))
    (hne : transferHash ≠ reality.id)
    (hmap : (outputs.map Prod.fst).Nodup) :
    ∃ ls2, bookTransfer ls fuel reality transferHash inputs outputs = .ok (none, ls2) ∧
      loadReality ls2 transferHash = some (newReality transferHash [reality.id]) ∧
      (∀ p ∈ outputs, outputsAt ls2 (transferHash, transferHash, p.1) =
        [NewTransferOutput transferHash transferHash p.1 p.2]) ∧
      (∀ o ∈ ls2.transferOutputs, o.realityId = reality.id →
        ∃ o1 ∈ ls.transferOutputs, outputKey o1 = outputKey o) := by
  refine ⟨bookTransferOutputs (newReality transferHash [reality.id]) transferHash
    (storeReality ls1 (newReality transferHash [reality.id])) outputs, ?_, ?_, ?_, ?_⟩
  · unfold bookTransfer
    simp only [hcheck, hconf, CreateReality]
  · unfold loadReality
    rw [bookTransferOutputs_realities]
    exact loadReality_storeReality ls1 (newReality transferHash [reality.id])
  · exact bookTransferOutputs_outputsAt (newReality transferHash [reality.id]) transferHash _ outputs hmap
  · intro o ho hr
    rcases bookTransferOutputs_mem _ _ _ _ o ho with h1 | ⟨p, _, rfl⟩
    · have h2 : o ∈ ls1.transferOutputs := h1
      exact mem_of_map_outputKey_eq _ _ (consumeInputs_preserves _ _ _ _ _ _ hconf).2 o h2
    · exact absurd hr hne

/-- The amended C4 at scenario 3: T4 spends (T1, A1), which T2 has spent already. -/
theorem bookTransfer_conflict_branches_witness :
    checkTransferBalances exSpentLedger 3 exMainReality (getTransferInputs exSpentLedger exT4Transfer)
      exT4Transfer.outputs = .ok none ∧
    consumeInputs exT4 exSpentLedger (getTransferInputs exSpentLedger exT4Transfer) false =
      .ok ((true, none), exConflictLedger) ∧
    ∃ ls2, bookTransfer exSpentLedger 3 exMainReality exT4 (getTransferInputs exSpentLedger exT4Transfer)
        exT4Transfer.outputs = .ok (none, ls2) ∧
      loadReality ls2 exT4 = some (newReality exT4 [exMainReality.id]) ∧
      (∀ p ∈ exT4Transfer.outputs, outputsAt ls2 (exT4, exT4, p.1) =
        [NewTransferOutput exT4 exT4 p.1 p.2]) ∧
      (∀ o ∈ ls2.transferOutputs, o.realityId = exMainReality.id →
        ∃ o1 ∈ exSpentLedger.transferOutputs, outputKey o1 = outputKey o) :=
  ⟨by decide, by decide,
    bookTransfer_conflict_branches exSpentLedger 3 exMainReality exT4
      (getTransferInputs exSpentLedger exT4Transfer) exT4Transfer.outputs exConflictLedger
      (by decide) (by decide) (by decide) (by decide)⟩

/-- C5: when `bookTransfer` on a target reality passes the balance check and no input
reports a conflict, then for every address of the output map exactly one
`TransferOutput` (target reality id, transfer hash, address, balances) and exactly one
booking (target reality id, address, spent = false, transfer hash) are stored, and the
stored realities are those stored before.  (`hmap`: the outputs are a Go map, no
address is listed twice.) -/
theorem bookTransfer_no_conflict_books_in_target (ls : LedgerState) (fuel : Nat) (reality : Reality)
    (transferHash : TransferHash) (inputs : List (Option TransferOutput)) (outputs : OutputMap)
    (ls1 : LedgerState)
    (hcheck : checkTransferBalances ls fuel reality inputs outputs = .ok none)
    (hconf : consumeInputs transferHash ls inputs false = .ok ((false, none), ls1))
    (hmap : (outputs.map Prod.fst).Nodup) :
    ∃ ls2, bookTransfer ls fuel reality transferHash inputs outputs = .ok (none, ls2) ∧
      (∀ p ∈ outputs,
        outputsAt ls2 (reality.id, transferHash, p.1) =
          [NewTransferOutput reality.id transferHash p.1 p.2] ∧
        bookingsAt ls2 (newTransferOutputBooking reality.id p.1 false transferHash) =
          [newTransferOutputBooking reality.id p.1 false transferHash]) ∧
      ls2.realities = ls.realities := by
  refine ⟨bookTransferOutputs reality transferHash ls1 outputs, ?_, ?_, ?_⟩
  · unfold bookTransfer
    simp only [hcheck, hconf]
  · intro p hp
    exact ⟨bookTransferOutputs_outputsAt reality transferHash ls1 outputs hmap p hp,
      bookTransferOutputs_bookingsAt reality transferHash ls1 outputs hmap p hp⟩
  · rw [bookTransferOutputs_realities]
    exact (consumeInputs_preserves _ _ _ _ _ _ hconf).1

/-- C5 at scenario 1: T2 spends (T1, A1), which has no consumer yet. -/
theorem bookTransfer_no_conflict_books_in_target_witness :
    checkTransferBalances exLedger 3 exMainReality (getTransferInputs exLedger exT2Transfer)
      exT2Transfer.outputs = .ok none ∧
    consumeInputs exT2 exLedger (getTransferInputs exLedger exT2Transfer) false =
      .ok ((false, none), exConsumedLedger) ∧
    ∃ ls2, bookTransfer exLedger 3 exMainReality exT2 (getTransferInputs exLedger exT2Transfer)
        exT2Transfer.outputs = .ok (none, ls2) ∧
      (∀ p ∈ exT2Transfer.outputs,
        outputsAt ls2 (exMainReality.id, exT2, p.1) =
          [NewTransferOutput exMainReality.id exT2 p.1 p.2] ∧
        bookingsAt ls2 (newTransferOutputBooking exMainReality.id p.1 false exT2) =
          [newTransferOutputBooking exMainReality.id p.1 false exT2]) ∧
      ls2.realities = exLedger.realities :=
  ⟨by decide, by decide,
    bookTransfer_no_conflict_books_in_target exLedger 3 exMainReality exT2
      (getTransferInputs exLedger exT2Transfer) exT2Transfer.outputs exConsumedLedger
      (by decide) (by decide) (by decide)⟩


/-! ## The descendance query -/

theorem loadReality_id {ls : LedgerState} {id : RealityId} {r : Reality}
    (h : loadReality ls id = some r) : r.id = id := by
  unfold loadReality at h
  have := List.find?_some h
  simpa using this

theorem loadReality_mem {ls : LedgerState} {id : RealityId} {r : Reality}
    (h : loadReality ls id = some r) : r ∈ ls.realities :=
  List.mem_of_find?_eq_some h

theorem GetParentRealities_ok {ls : LedgerState} {ps : List RealityId}
    {L : List (RealityId × Reality)} (h : GetParentRealities ls ps = .ok L) :
    (∀ q ∈ L, loadReality ls q.1 = some q.2 ∧ q.1 ∈ ps) ∧ (∀ p ∈ ps, ∃ rp, (p, rp) ∈ L) := by
  induction ps generalizing L with
  | nil =>
    simp only [GetParentRealities, Outcome.ok.injEq] at h
    subst h
    simp
  | cons p rest ih =>
    simp only [GetParentRealities, GetReality] at h
    cases hl : loadReality ls p with
    | none => rw [hl] at h; simp at h
    | some lp =>
      rw [hl] at h
      cases hr : GetParentRealities ls rest with
      | fault f => rw [hr] at h; simp at h
      | ok L1 =>
        rw [hr] at h
        simp only [Outcome.ok.injEq] at h
        subst h
        obtain ⟨ih1, ih2⟩ := ih hr
        have hid : lp.id = p := loadReality_id hl
        constructor
        · intro q hq
          rcases List.mem_cons.mp hq with rfl | hq
          · exact ⟨by simpa [hid] using hl, by simp [hid]⟩
          · have hq1 := (List.mem_filter.mp hq).1
            exact ⟨(ih1 q hq1).1, List.mem_cons_of_mem _ (ih1 q hq1).2⟩
        · intro p1 hp1
          rcases List.mem_cons.mp hp1 with rfl | hp1
          · exact ⟨lp, by simp [hid]⟩
          · obtain ⟨rp, hrp⟩ := ih2 p1 hp1
            by_cases e : p1 = lp.id
            · exact ⟨lp, by simp [e]⟩
            · exact ⟨rp, List.mem_cons_of_mem _ (List.mem_filter.mpr ⟨hrp, by simpa using e⟩)⟩

theorem GetParentRealities_exists {ls : LedgerState} {ps : List RealityId}
    (h : ∀ p ∈ ps, ∃ rp, loadReality ls p = some rp) : ∃ L, GetParentRealities ls ps = .ok L := by
  induction ps with
  | nil => exact ⟨[], rfl⟩
  | cons p rest ih =>
    obtain ⟨rp, hrp⟩ := h p (List.mem_cons_self _ _)
    obtain ⟨L, hL⟩ := ih (fun q hq => h q (List.mem_cons_of_mem _ hq))
    exact ⟨(rp.id, rp) :: L.filter (fun q => decide (q.1 ≠ rp.id)),
      by simp only [GetParentRealities, GetReality, hrp, hL]⟩

theorem mem_foldl_insert (anc init : List RealityId) (x : RealityId) :
    x ∈ anc.foldl (fun res ancestorId => List.insert ancestorId res) init ↔ x ∈ init ∨ x ∈ anc := by
  induction anc generalizing init with
  | nil => simp
  | cons a anc ih =>
    rw [List.foldl_cons, ih, List.mem_insert_iff, List.mem_cons]
    tauto

theorem collectAncestors_ok {g : Reality → Outcome (List RealityId)}
    {L : List (RealityId × Reality)} {init R : List RealityId}
    (h : collectAncestors g L init = .ok R) :
    (∀ q ∈ L, ∃ A, g q.2 = .ok A) ∧
      ∀ x, x ∈ R ↔ x ∈ init ∨ ∃ q ∈ L, x = q.1 ∨ ∃ A, g q.2 = .ok A ∧ x ∈ A := by
  induction L generalizing init R with
  | nil =>
    simp only [collectAncestors, Outcome.ok.injEq] at h
    subst h
    simp
  | cons q rest ih =>
    obtain ⟨k, rp⟩ := q
    simp only [collectAncestors] at h
    cases hg : g rp with
    | fault f => rw [hg] at h; simp at h
    | ok A =>
      rw [hg] at h
      obtain ⟨ih1, ih2⟩ := ih h
      constructor
      · intro q hq
        rcases List.mem_cons.mp hq with rfl | hq
        · exact ⟨A, hg⟩
        · exact ih1 q hq
      · intro x
        rw [ih2 x, mem_foldl_insert, List.mem_insert_iff]
        constructor
        · rintro ((((rfl | h1) | h1)) | ⟨q, hq, h1⟩)
          · exact Or.inr ⟨(x, rp), List.mem_cons_self _ _, Or.inl rfl⟩
          · exact Or.inl h1
          · exact Or.inr ⟨(k, rp), List.mem_cons_self _ _, Or.inr ⟨A, hg, h1⟩⟩
          · exact Or.inr ⟨q, List.mem_cons_of_mem _ hq, h1⟩
        · rintro (h1 | ⟨q, hq, h1⟩)
          · exact Or.inl (Or.inl (Or.inr h1))
          · rcases List.mem_cons.mp hq with rfl | hq
            · rcases h1 with rfl | ⟨A1, hA1, hx⟩
              · exact Or.inl (Or.inl (Or.inl rfl))
              · rw [hg] at hA1
                simp only [Outcome.ok.injEq] at hA1
                subst hA1
                exact Or.inl (Or.inr hx)
            · exact Or.inr ⟨q, hq, h1⟩

theorem collectAncestors_exists {g : Reality → Outcome (List RealityId)}
    {L : List (RealityId × Reality)} (init : List RealityId)
    (h : ∀ q ∈ L, ∃ A, g q.2 = .ok A) : ∃ R, collectAncestors g L init = .ok R := by
  induction L generalizing init with
  | nil => exact ⟨init, rfl⟩
  | cons q rest ih =>
    obtain ⟨k, rp⟩ := q
    obtain ⟨A, hA⟩ := h (k, rp) (List.mem_cons_self _ _)
    obtain ⟨R, hR⟩ := ih (A.foldl (fun res ancestorId => List.insert ancestorId res) (List.insert k init))
      (fun q hq => h q (List.mem_cons_of_mem _ hq))
    exact ⟨R, by simp only [collectAncestors, hA, hR]⟩

theorem collectAncestors_congr {g g1 : Reality → Outcome (List RealityId)}
    {L : List (RealityId × Reality)} {init R : List RealityId}
    (hg : ∀ q ∈ L, ∀ A, g q.2 = .ok A → g1 q.2 = .ok A)
    (h : collectAncestors g L init = .ok R) : collectAncestors g1 L init = .ok R := by
  induction L generalizing init R with
  | nil => exact h
  | cons q rest ih =>
    obtain ⟨k, rp⟩ := q
    simp only [collectAncestors] at h ⊢
    cases hq : g rp with
    | fault f => rw [hq] at h; simp at h
    | ok A =>
      rw [hq] at h
      rw [hg (k, rp) (List.mem_cons_self _ _) A hq]
      exact ih (fun q hq => hg q (List.mem_cons_of_mem _ hq)) h

theorem GetAncestorRealities_succ {ls : LedgerState} {fuel : Nat} {r : Reality}
    {A : List RealityId} (h : GetAncestorRealities ls fuel r = .ok A) :
    GetAncestorRealities ls (fuel + 1) r = .ok A := by
  induction fuel generalizing r A with
  | zero => simp [GetAncestorRealities] at h
  | succ f ih =>
    rw [GetAncestorRealities] at h ⊢
    cases hp : GetParentRealities ls r.parentRealities with
    | fault e => rw [hp] at h; simp at h
    | ok L =>
      rw [hp] at h
      exact collectAncestors_congr (fun q _ A hA => ih hA) h

/-- More fuel does not change a result that was reached. -/
theorem GetAncestorRealities_mono {ls : LedgerState} {fuel fuel1 : Nat} {r : Reality}
    {A : List RealityId} (hle : fuel ≤ fuel1) (h : GetAncestorRealities ls fuel r = .ok A) :
    GetAncestorRealities ls fuel1 r = .ok A := by
  induction hle with
  | refl => exact h
  | step _ ih => exact GetAncestorRealities_succ ih

/-- The ids `GetAncestorRealities` returns are the ancestors in the parent graph. -/
theorem mem_GetAncestorRealities {ls : LedgerState} {fuel : Nat} {r : Reality}
    {A : List RealityId} (h : GetAncestorRealities ls fuel r = .ok A) (x : RealityId) :
    x ∈ A ↔ IsAncestor ls r x := by
  induction fuel generalizing r A x with
  | zero => simp [GetAncestorRealities] at h
  | succ f ih =>
    rw [GetAncestorRealities] at h
    cases hp : GetParentRealities ls r.parentRealities with
    | fault e => rw [hp] at h; simp at h
    | ok L =>
      rw [hp] at h
      obtain ⟨hL1, hL2⟩ := GetParentRealities_ok hp
      obtain ⟨hc1, hc2⟩ := collectAncestors_ok h
      rw [hc2 x]
      constructor
      · rintro (h0 | ⟨q, hq, h1⟩)
        · simp at h0
        · obtain ⟨hload, hmem⟩ := hL1 q hq
          rcases h1 with rfl | ⟨Aq, hAq, hx⟩
          · exact ⟨q.1, hmem, Relation.ReflTransGen.refl⟩
          · obtain ⟨p1, hp1, hreach⟩ := (ih hAq x).mp hx
            exact ⟨q.1, hmem, Relation.ReflTransGen.head ⟨q.2, hload, hp1⟩ hreach⟩
      · rintro ⟨p, hp1, hreach⟩
        obtain ⟨rp, hrp⟩ := hL2 p hp1
        obtain ⟨hload, _⟩ := hL1 (p, rp) hrp
        refine Or.inr ⟨(p, rp), hrp, ?_⟩
        rcases Relation.ReflTransGen.cases_head hreach with rfl | ⟨c, ⟨r1, hr1, hc⟩, hcx⟩
        · exact Or.inl rfl
        · obtain ⟨Aq, hAq⟩ := hc1 (p, rp) hrp
          have e : r1 = rp := by
            have := hr1.symm.trans hload
            simpa using this
          subst e
          exact Or.inr ⟨Aq, hAq, (ih hAq x).mpr ⟨c, hc, hcx⟩⟩

theorem DescendsFromReality_of_ancestors {ls : LedgerState} {fuel : Nat} {r : Reality}
    {A : List RealityId} (h : GetAncestorRealities ls fuel r = .ok A) (X : RealityId) :
    ∃ b, DescendsFromReality ls fuel r X = .ok b ∧ (b = true ↔ r.id = X ∨ IsAncestor ls r X) := by
  unfold DescendsFromReality
  by_cases e : r.id = X
  · exact ⟨true, by simp [e], by simp [e]⟩
  · refine ⟨A.any (fun a => decide (a = X)), by simp [e, h], ?_⟩
    rw [← mem_GetAncestorRealities h X]
    simp [e]

/-- A call of `DescendsFromReality` that returns true: the id is the id of the reality
or one of its ancestors. -/
theorem DescendsFromReality_true {ls : LedgerState} {fuel : Nat} {r : Reality} {X : RealityId}
    (h : DescendsFromReality ls fuel r X = .ok true) : r.id = X ∨ IsAncestor ls r X := by
  by_cases e : r.id = X
  · exact Or.inl e
  · unfold DescendsFromReality at h
    rw [if_neg e] at h
    cases hA : GetAncestorRealities ls fuel r with
    | fault f => rw [hA] at h; simp at h
    | ok A =>
      rw [hA] at h
      simp only [Outcome.ok.injEq, List.any_eq_true, decide_eq_true_eq] at h
      obtain ⟨a, ha, rfl⟩ := h
      exact Or.inr ((mem_GetAncestorRealities hA a).mp ha)

/-- A call of `DescendsFromReality` that returns false. -/
theorem DescendsFromReality_false {ls : LedgerState} {fuel : Nat} {r : Reality} {X : RealityId}
    (h : DescendsFromReality ls fuel r X = .ok false) : ¬ (r.id = X ∨ IsAncestor ls r X) := by
  unfold DescendsFromReality at h
  by_cases e : r.id = X
  · rw [if_pos e] at h; simp at h
  · rw [if_neg e] at h
    cases hA : GetAncestorRealities ls fuel r with
    | fault f => rw [hA] at h; simp at h
    | ok A =>
      rw [hA] at h
      rintro (h1 | h1)
      · exact e h1
      · have hx := (mem_GetAncestorRealities hA X).mpr h1
        simp only [Outcome.ok.injEq, List.any_eq_false, decide_eq_true_eq] at h
        exact h X hx rfl

/-- For a stored reality the ancestors are what one or more parent edges reach. -/
theorem isAncestor_iff_transGen {ls : LedgerState} {r : Reality}
    (h : loadReality ls r.id = some r) (x : RealityId) :
    IsAncestor ls r x ↔ Relation.TransGen (isParent ls) r.id x := by
  rw [Relation.TransGen.head'_iff]
  constructor
  · rintro ⟨p, hp, hreach⟩
    exact ⟨p, ⟨r, h, hp⟩, hreach⟩
  · rintro ⟨p, ⟨r1, hr1, hp⟩, hreach⟩
    have e : r1 = r := by
      have := hr1.symm.trans h
      simpa using this
    subst e
    exact ⟨p, hp, hreach⟩


theorem GetAncestorRealities_of_ancestor {ls : LedgerState} {fuel : Nat} {r : Reality}
    {A : List RealityId} (h : GetAncestorRealities ls fuel r = .ok A) {x : RealityId}
    (hx : IsAncestor ls r x) {rx : Reality} (hrx : loadReality ls x = some rx) :
    ∃ A1, GetAncestorRealities ls fuel rx = .ok A1 := by
  induction fuel generalizing r A x rx with
  | zero => simp [GetAncestorRealities] at h
  | succ f ih =>
    rw [GetAncestorRealities] at h
    cases hp : GetParentRealities ls r.parentRealities with
    | fault e => rw [hp] at h; simp at h
    | ok L =>
      rw [hp] at h
      obtain ⟨hL1, hL2⟩ := GetParentRealities_ok hp
      obtain ⟨hc1, _⟩ := collectAncestors_ok h
      obtain ⟨p, hp1, hreach⟩ := hx
      obtain ⟨rp, hrp⟩ := hL2 p hp1
      obtain ⟨hload, _⟩ := hL1 (p, rp) hrp
      obtain ⟨Ap, hAp⟩ := hc1 (p, rp) hrp
      rcases Relation.ReflTransGen.cases_head hreach with rfl | ⟨c, ⟨r1, hr1, hc⟩, hcx⟩
      · have e : rx = rp := by
          have := hrx.symm.trans hload
          simpa using this
        subst e
        exact ⟨Ap, GetAncestorRealities_succ hAp⟩
      · have e : r1 = rp := by
          have := hr1.symm.trans hload
          simpa using this
        subst e
        obtain ⟨A1, hA1⟩ := ih hAp ⟨c, hc, hcx⟩ hrx
        exact ⟨A1, GetAncestorRealities_succ hA1⟩

theorem GetAncestorRealities_no_cycle {ls : LedgerState} {fuel : Nat} {r : Reality}
    {A : List RealityId} (h : GetAncestorRealities ls fuel r = .ok A)
    (hr : loadReality ls r.id = some r) : ¬ Relation.TransGen (isParent ls) r.id r.id := by
  induction fuel generalizing r A with
  | zero => simp [GetAncestorRealities] at h
  | succ f ih =>
    rw [GetAncestorRealities] at h
    cases hp : GetParentRealities ls r.parentRealities with
    | fault e => rw [hp] at h; simp at h
    | ok L =>
      rw [hp] at h
      obtain ⟨hL1, hL2⟩ := GetParentRealities_ok hp
      obtain ⟨hc1, _⟩ := collectAncestors_ok h
      intro hcyc
      obtain ⟨p, ⟨r1, hr1, hp1⟩, hreach⟩ := Relation.TransGen.head'_iff.mp hcyc
      have e : r1 = r := by
        have := hr1.symm.trans hr
        simpa using this
      subst e
      obtain ⟨rp, hrp⟩ := hL2 p hp1
      obtain ⟨hload, _⟩ := hL1 (p, rp) hrp
      obtain ⟨Ap, hAp⟩ := hc1 (p, rp) hrp
      have hid : rp.id = p := loadReality_id hload
      have hpp : Relation.TransGen (isParent ls) p p :=
        Relation.TransGen.tail' hreach ⟨r1, hr1, hp1⟩
      have hload2 : loadReality ls rp.id = some rp := by rw [hid]; exact hload
      have := ih hAp hload2
      rw [hid] at this
      exact this hpp

theorem exists_uniform_fuel (ls : LedgerState) (l : List Reality)
    (h : ∀ r ∈ l, ∃ fuel A, GetAncestorRealities ls fuel r = .ok A) :
    ∃ F, ∀ r ∈ l, ∃ A, GetAncestorRealities ls F r = .ok A := by
  induction l with
  | nil => exact ⟨0, fun r hr => by simp at hr⟩
  | cons a l ih =>
    obtain ⟨F, hF⟩ := ih (fun r hr => h r (List.mem_cons_of_mem _ hr))
    obtain ⟨fa, Aa, ha⟩ := h a (List.mem_cons_self _ _)
    refine ⟨max F fa, ?_⟩
    intro r hr
    rcases List.mem_cons.mp hr with rfl | hr
    · exact ⟨Aa, GetAncestorRealities_mono (Nat.le_max_right _ _) ha⟩
    · obtain ⟨A, hA⟩ := hF r hr
      exact ⟨A, GetAncestorRealities_mono (Nat.le_max_left _ _) hA⟩

/-- A reality whose parents are stored and have their ancestors computed within `fuel`
has its ancestors computed within `fuel + 1`. -/
theorem GetAncestorRealities_of_parents {ls : LedgerState} {fuel : Nat} {r : Reality}
    (h : ∀ p ∈ r.parentRealities, ∃ rp, loadReality ls p = some rp ∧
      ∃ A, GetAncestorRealities ls fuel rp = .ok A) :
    ∃ A, GetAncestorRealities ls (fuel + 1) r = .ok A := by
  obtain ⟨L, hL⟩ := @GetParentRealities_exists ls r.parentRealities
    (fun p hp => let ⟨rp, hrp, _⟩ := h p hp; ⟨rp, hrp⟩)
  obtain ⟨hL1, _⟩ := GetParentRealities_ok hL
  have hall : ∀ q ∈ L, ∃ A, GetAncestorRealities ls fuel q.2 = .ok A := by
    intro q hq
    obtain ⟨hload, hmem⟩ := hL1 q hq
    obtain ⟨rp, hrp, A, hA⟩ := h q.1 hmem
    have e : rp = q.2 := by
      have := hrp.symm.trans hload
      simpa using this
    subst e
    exact ⟨A, hA⟩
  obtain ⟨R, hR⟩ := collectAncestors_exists (g := GetAncestorRealities ls fuel) [] hall
  exact ⟨R, by rw [GetAncestorRealities, hL]; exact hR⟩

/-- Over a store that is closed under parents and has no cycle the recursion of
`GetAncestorRealities` ends at every stored reality. -/
theorem GetAncestorRealities_terminates {ls : LedgerState} (hc : ClosedUnderParents ls)
    (ha : Acyclic ls) (id : RealityId) :
    ∀ r, loadReality ls id = some r → ∃ fuel A, GetAncestorRealities ls fuel r = .ok A := by
  haveI : Finite RealityId :=
    @Finite.of_fintype _ (inferInstanceAs (Fintype (Mathlib.Vector (Fin 256) 32)))
  let R : RealityId → RealityId → Prop := fun y x => Relation.TransGen (isParent ls) x y
  haveI : IsTrans RealityId R := ⟨fun _ _ _ hab hbc => Relation.TransGen.trans hbc hab⟩
  haveI : IsIrrefl RealityId R := ⟨fun x hx => ha x hx⟩
  have wf : WellFounded R := Finite.wellFounded_of_trans_of_irrefl R
  refine wf.induction (C := fun id => ∀ r, loadReality ls id = some r →
    ∃ fuel A, GetAncestorRealities ls fuel r = .ok A) id ?_
  intro x ih r hr
  have hpar : ∀ p ∈ r.parentRealities, ∃ rp, loadReality ls p = some rp ∧
      ∃ fuel A, GetAncestorRealities ls fuel rp = .ok A := by
    intro p hp
    obtain ⟨rp, hrp⟩ := hc x r hr p hp
    exact ⟨rp, hrp, ih p (Relation.TransGen.single ⟨r, hr, hp⟩) rp hrp⟩
  have hlist : ∀ rp ∈ r.parentRealities.filterMap (loadReality ls),
      ∃ fuel A, GetAncestorRealities ls fuel rp = .ok A := by
    intro rp hrp
    obtain ⟨p, hp, hload⟩ := List.mem_filterMap.mp hrp
    obtain ⟨rp1, hrp1, hfuel⟩ := hpar p hp
    have e : rp1 = rp := by
      have := hrp1.symm.trans hload
      simpa using this
    subst e
    exact hfuel
  obtain ⟨F, hF⟩ := exists_uniform_fuel ls _ hlist
  obtain ⟨A, hA⟩ := @GetAncestorRealities_of_parents ls F r (by
    intro p hp
    obtain ⟨rp, hrp, _⟩ := hpar p hp
    exact ⟨rp, hrp, hF rp (List.mem_filterMap.mpr ⟨p, hp, hrp⟩)⟩)
  exact ⟨F + 1, A, hA⟩

/-- Over such a store one recursion budget serves every stored reality. -/
theorem GetAncestorRealities_terminates_uniform {ls : LedgerState} (hc : ClosedUnderParents ls)
    (ha : Acyclic ls) :
    ∃ F, ∀ fuel, F ≤ fuel → ∀ id r, loadReality ls id = some r →
      ∃ A, GetAncestorRealities ls fuel r = .ok A := by
  have hall : ∀ r ∈ ls.realities.filter (fun r => decide (loadReality ls r.id = some r)),
      ∃ fuel A, GetAncestorRealities ls fuel r = .ok A := by
    intro r hr
    have hload : loadReality ls r.id = some r := by
      simpa using (List.mem_filter.mp hr).2
    exact GetAncestorRealities_terminates hc ha r.id r hload
  obtain ⟨F, hF⟩ := exists_uniform_fuel ls _ hall
  refine ⟨F, fun fuel hle id r hr => ?_⟩
  have hid : r.id = id := loadReality_id hr
  have hmem : r ∈ ls.realities.filter (fun r => decide (loadReality ls r.id = some r)) := by
    refine List.mem_filter.mpr ⟨loadReality_mem hr, ?_⟩
    rw [hid]
    simpa using hr
  obtain ⟨A, hA⟩ := hF r hmem
  exact ⟨A, GetAncestorRealities_mono hle hA⟩


/-! ## Merging realities (C6 to C10) -/

/-- What the loop over the aggregated realities returns when every call of
`DescendsFromReality` in it ends. -/
theorem scanAggregated_spec {ls : LedgerState} {fuel : Nat} {realityId : RealityId}
    {reality : Reality} (l : List (RealityId × Reality))
    (hl : ∀ q ∈ l, ∃ A, GetAncestorRealities ls fuel q.2 = .ok A)
    (hr : ∃ A, GetAncestorRealities ls fuel reality = .ok A) :
    (scanAggregated ls fuel realityId reality l = .ok .keep ∧
        ∃ q ∈ l, q.2.id = realityId ∨ IsAncestor ls q.2 realityId) ∨
      (∃ a, scanAggregated ls fuel realityId reality l = .ok (.replace a) ∧
        ∃ q ∈ l, q.1 = a ∧ (reality.id = a ∨ IsAncestor ls reality a)) ∨
      (scanAggregated ls fuel realityId reality l = .ok .add ∧
        ∀ q ∈ l, ¬ (q.2.id = realityId ∨ IsAncestor ls q.2 realityId) ∧
          ¬ (reality.id = q.1 ∨ IsAncestor ls reality q.1)) := by
  induction l with
  | nil => exact Or.inr (Or.inr ⟨rfl, fun q hq => by simp at hq⟩)
  | cons q rest ih =>
    obtain ⟨k, ar⟩ := q
    obtain ⟨Aq, hAq⟩ := hl (k, ar) (List.mem_cons_self _ _)
    obtain ⟨Ar, hAr⟩ := hr
    obtain ⟨b1, hb1, hb1i⟩ := DescendsFromReality_of_ancestors hAq realityId
    obtain ⟨b2, hb2, hb2i⟩ := DescendsFromReality_of_ancestors hAr k
    cases b1 with
    | true =>
      refine Or.inl ⟨by simp only [scanAggregated, hb1], (k, ar), List.mem_cons_self _ _, hb1i.mp rfl⟩
    | false =>
      cases b2 with
      | true =>
        refine Or.inr (Or.inl ⟨k, by simp only [scanAggregated, hb1, hb2], (k, ar),
          List.mem_cons_self _ _, rfl, hb2i.mp rfl⟩)
      | false =>
        have hstep : scanAggregated ls fuel realityId reality ((k, ar) :: rest) =
            scanAggregated ls fuel realityId reality rest := by
          simp only [scanAggregated, hb1, hb2]
        rw [hstep]
        rcases ih (fun q hq => hl q (List.mem_cons_of_mem _ hq)) with
          ⟨h1, q, hq, h2⟩ | ⟨a, h1, q, hq, h2⟩ | ⟨h1, h2⟩
        · exact Or.inl ⟨h1, q, List.mem_cons_of_mem _ hq, h2⟩
        · exact Or.inr (Or.inl ⟨a, h1, q, List.mem_cons_of_mem _ hq, h2⟩)
        · refine Or.inr (Or.inr ⟨h1, ?_⟩)
          intro q hq
          rcases List.mem_cons.mp hq with rfl | hq
          · exact ⟨fun h => by simpa using hb1i.mpr h, fun h => by simpa using hb2i.mpr h⟩
          · exact h2 q hq

theorem covers_of_descends {ls : LedgerState} {q : RealityId × Reality}
    (hq : loadReality ls q.1 = some q.2) {id : RealityId}
    (h : q.2.id = id ∨ IsAncestor ls q.2 id) :
    q.1 = id ∨ Relation.TransGen (isParent ls) q.1 id := by
  have hid : q.2.id = q.1 := loadReality_id hq
  have hq2 : loadReality ls q.2.id = some q.2 := by rw [hid]; exact hq
  rcases h with h | h
  · exact Or.inl (hid.symm.trans h)
  · right
    have := (isAncestor_iff_transGen hq2 id).mp h
    rwa [hid] at this

/-- The loop `AGGREGATE_REALITIES` over stored ids, when the recursion budget serves
every stored reality: it returns a map of stored realities that is not empty and in
which every id it was given, and every id the map covered before, is covered. -/
theorem aggregateRealities_spec {order : Nat → List (RealityId × Reality) → List (RealityId × Reality)}
    {ls : LedgerState} {fuel : Nat} (hord : IsRangeOrder order)
    (hterm : ∀ id r, loadReality ls id = some r → ∃ A, GetAncestorRealities ls fuel r = .ok A)
    (ids : List RealityId) (hids : ∀ id ∈ ids, ∃ r, loadReality ls id = some r)
    (k : Nat) (agg : List (RealityId × Reality)) (hagg : AllStored ls agg) :
    ∃ agg1, aggregateRealities order ls fuel k ids agg = .ok agg1 ∧ AllStored ls agg1 ∧
      (∀ id, (id ∈ ids ∨ Covers ls agg id) → Covers ls agg1 id) ∧
      (agg ≠ [] ∨ ids ≠ [] → agg1 ≠ []) := by
  induction ids generalizing k agg with
  | nil =>
    refine ⟨agg, rfl, hagg, ?_, ?_⟩
    · rintro id (h | h)
      · simp at h
      · exact h
    · rintro (h | h)
      · exact h
      · exact absurd rfl h
  | cons realityId rest ih =>
    have hrest : ∀ id ∈ rest, ∃ r, loadReality ls id = some r :=
      fun id hid => hids id (List.mem_cons_of_mem _ hid)
    -- the step leads to a map `next` that covers what was covered, and `realityId`
    suffices hstep : ∃ next, aggregateRealities order ls fuel k (realityId :: rest) agg =
        aggregateRealities order ls fuel (k + 1) rest next ∧ AllStored ls next ∧
        (∀ id, Covers ls agg id → Covers ls next id) ∧ Covers ls next realityId by
      obtain ⟨next, heq, hst, hcov, hself⟩ := hstep
      obtain ⟨agg1, h1, h2, h3, h4⟩ := ih hrest (k + 1) next hst
      refine ⟨agg1, heq.trans h1, h2, ?_, ?_⟩
      · rintro id (h | h)
        · rcases List.mem_cons.mp h with rfl | h
          · exact h3 _ (Or.inr hself)
          · exact h3 id (Or.inl h)
        · exact h3 id (Or.inr (hcov id h))
      · intro _
        apply h4
        left
        obtain ⟨q, hq, _⟩ := hself
        exact List.ne_nil_of_mem hq
    by_cases hany : agg.any (fun p => decide (p.1 = realityId)) = true
    · refine ⟨agg, by rw [aggregateRealities, if_pos hany], hagg, fun id h => h, ?_⟩
      obtain ⟨q, hq, hq1⟩ := List.any_eq_true.mp hany
      exact ⟨q, hq, Or.inl (of_decide_eq_true hq1)⟩
    · have hno : ∀ q ∈ agg, q.1 ≠ realityId := by
        intro q hq e
        exact hany (List.any_eq_true.mpr ⟨q, hq, decide_eq_true e⟩)
      obtain ⟨reality, hload⟩ := hids realityId (List.mem_cons_self _ _)
      have hid : reality.id = realityId := loadReality_id hload
      have hmem : ∀ q, q ∈ order k agg ↔ q ∈ agg := fun q => (hord k agg).mem_iff
      have hscan := @scanAggregated_spec ls fuel realityId reality (order k agg)
        (fun q hq => hterm q.1 q.2 (hagg q ((hmem q).mp hq))) (hterm realityId reality hload)
      rcases hscan with ⟨h1, q, hq, h2⟩ | ⟨a, h1, q, hq, rfl, h2⟩ | ⟨h1, _⟩
      · refine ⟨agg, by rw [aggregateRealities, if_neg hany]; simp only [hload, h1], hagg,
          fun id h => h, ?_⟩
        exact ⟨q, (hmem q).mp hq, covers_of_descends (hagg q ((hmem q).mp hq)) h2⟩
      · have hqa : q ∈ agg := (hmem q).mp hq
        have hne : realityId ≠ q.1 := fun e => hno q hqa e.symm
        have hreach : Relation.TransGen (isParent ls) realityId q.1 := by
          have := covers_of_descends (q := (realityId, reality)) hload h2
          rcases this with h | h
          · exact absurd h hne
          · exact h
        refine ⟨(reality.id, reality) ::
          (agg.filter (fun p => decide (p.1 ≠ q.1))).filter (fun p => decide (p.1 ≠ reality.id)),
          by rw [aggregateRealities, if_neg hany]; simp only [hload, h1], ?_, ?_, ?_⟩
        · intro x hx
          rcases List.mem_cons.mp hx with rfl | hx
          · simpa [hid] using hload
          · exact hagg x (List.mem_filter.mp (List.mem_filter.mp hx).1).1
        · rintro id ⟨x, hx, hcov⟩
          by_cases e : x.1 = q.1
          · refine ⟨(reality.id, reality), List.mem_cons_self _ _, Or.inr ?_⟩
            simp only [hid]
            rcases hcov with h | h
            · rw [← h, e]; exact hreach
            · rw [e] at h; exact Relation.TransGen.trans hreach h
          · refine ⟨x, List.mem_cons_of_mem _ (List.mem_filter.mpr
              ⟨List.mem_filter.mpr ⟨hx, by simpa using e⟩, ?_⟩), hcov⟩
            have := hno x hx
            simpa [hid] using this
        · exact ⟨(reality.id, reality), List.mem_cons_self _ _, Or.inl hid⟩
      · refine ⟨(realityId, reality) :: agg.filter (fun p => decide (p.1 ≠ realityId)),
          by rw [aggregateRealities, if_neg hany]; simp only [hload, h1], ?_, ?_, ?_⟩
        · intro x hx
          rcases List.mem_cons.mp hx with rfl | hx
          · exact hload
          · exact hagg x (List.mem_filter.mp hx).1
        · rintro id ⟨x, hx, hcov⟩
          exact ⟨x, List.mem_cons_of_mem _ (List.mem_filter.mpr ⟨hx, by simpa using hno x hx⟩), hcov⟩
        · exact ⟨(realityId, reality), List.mem_cons_self _ _, Or.inl rfl⟩


/-- The comparison loop of `less` is the lexicographic order of the bytes. -/
theorem lessFrom_iff_lt (as bs : List (Fin 256)) (h : as.length = bs.length) :
    lessFrom as bs = true ↔ as < bs := by
  induction as generalizing bs with
  | nil =>
    cases bs with
    | nil => simp [lessFrom]
    | cons b bs => simp at h
  | cons a as ih =>
    cases bs with
    | nil => simp at h
    | cons b bs =>
      have hlen : as.length = bs.length := by simpa using h
      rcases lt_trichotomy a b with hab | hab | hab
      · have : a :: as < b :: bs := List.Lex.rel hab
        simp [lessFrom, hab, this]
      · subst hab
        have hc : a :: as < a :: bs ↔ as < bs := List.Lex.cons_iff
        simp [lessFrom, ih bs hlen, hc]
      · have hn : ¬ a < b := not_lt_of_gt hab
        have : ¬ (a :: as < b :: bs) := by
          intro hlt
          cases hlt with
          | cons h1 => exact absurd hab (lt_irrefl _)
          | rel h1 => exact hn h1
        simp [lessFrom, hn, hab, this]

theorem less_eq_false_iff (a b : RealityId) : less b a = false ↔ a.val ≤ b.val := by
  have h := lessFrom_iff_lt b.val a.val (b.property.trans a.property.symm)
  unfold less
  rw [← not_lt, ← h]
  simp

/-- `sort.Slice` with `less` leaves the ids in ascending byte-lexicographic order. -/
theorem sortSlice_sorted (l : List RealityId) :
    (sortSlice l).Sorted (fun a b => a.val ≤ b.val) := by
  haveI : IsTotal RealityId (fun a b => less b a = false) :=
    ⟨fun a b => by rw [less_eq_false_iff, less_eq_false_iff]; exact le_total _ _⟩
  haveI : IsTrans RealityId (fun a b => less b a = false) :=
    ⟨fun a b c => by
      rw [less_eq_false_iff, less_eq_false_iff, less_eq_false_iff]; exact le_trans⟩
  have hs := List.sorted_insertionSort (fun a b : RealityId => less b a = false) l
  exact List.Pairwise.imp (fun h => (less_eq_false_iff _ _).mp h) hs

theorem sortSlice_perm (l : List RealityId) : (sortSlice l).Perm l :=
  List.perm_insertionSort _ l

/-- The sorted list does not depend on the order in which the ids were listed. -/
theorem sortSlice_eq_of_perm {l1 l2 : List RealityId} (h : l1.Perm l2) :
    sortSlice l1 = sortSlice l2 := by
  haveI : IsAntisymm RealityId (fun a b => a.val ≤ b.val) :=
    ⟨fun a b hab hba => Subtype.ext (le_antisymm hab hba)⟩
  exact List.eq_of_perm_of_sorted
    ((sortSlice_perm l1).trans (h.trans (sortSlice_perm l2).symm))
    (sortSlice_sorted l1) (sortSlice_sorted l2)

theorem foldl_append_ids (init : List (Fin 256)) (l : List RealityId) :
    l.foldl (fun acc id => acc ++ id.val) init = init ++ concatIds l := by
  induction l generalizing init with
  | nil => simp [concatIds]
  | cons a l ih => simp [concatIds, ih, List.append_assoc]

theorem generateAggregatedRealityId_eq (blake2b : List (Fin 256) → Bytes32) (l : List RealityId) :
    generateAggregatedRealityId blake2b l = blake2b (concatIds l) := by
  unfold generateAggregatedRealityId
  rw [foldl_append_ids]
  rfl

theorem MergeRealities_single_survivor (blake2b : List (Fin 256) → Bytes32) (MAIN_REALITY_ID : RealityId)
    (order : Nat → List (RealityId × Reality) → List (RealityId × Reality))
    (ls : LedgerState) (fuel : Nat) (a b : RealityId) (rest : List RealityId)
    (k : RealityId) (r : Reality)
    (h : aggregateRealities order ls fuel 0 (a :: b :: rest) [] = .ok [(k, r)]) :
    MergeRealities blake2b MAIN_REALITY_ID order ls fuel (a :: b :: rest) =
      .ok { reality := r, isStored := true } := by
  unfold MergeRealities
  simp only [h]

theorem MergeRealities_aggregated (blake2b : List (Fin 256) → Bytes32) (MAIN_REALITY_ID : RealityId)
    (order : Nat → List (RealityId × Reality) → List (RealityId × Reality))
    (ls : LedgerState) (fuel : Nat) (a b : RealityId) (rest : List RealityId)
    (agg : List (RealityId × Reality))
    (h : aggregateRealities order ls fuel 0 (a :: b :: rest) [] = .ok agg) (hlen : agg.length ≠ 1) :
    MergeRealities blake2b MAIN_REALITY_ID order ls fuel (a :: b :: rest) =
      .ok { reality := newReality
              (generateAggregatedRealityId blake2b (sortRealityIds (order (a :: b :: rest).length agg)))
              (sortRealityIds (order (a :: b :: rest).length agg)),
            isStored := false } := by
  unfold MergeRealities
  simp only [h]
  match agg, hlen with
  | [], _ => rfl
  | [q], hl => simp at hl
  | q1 :: q2 :: t, _ => rfl

theorem mem_sortRealityIds {order : Nat → List (RealityId × Reality) → List (RealityId × Reality)}
    (hord : IsRangeOrder order) (n : Nat) (agg : List (RealityId × Reality)) (x : RealityId) :
    x ∈ sortRealityIds (order n agg) ↔ ∃ q ∈ agg, q.1 = x := by
  unfold sortRealityIds
  rw [(sortSlice_perm _).mem_iff, List.mem_map]
  constructor
  · rintro ⟨q, hq, rfl⟩
    exact ⟨q, (hord n agg).mem_iff.mp hq, rfl⟩
  · rintro ⟨q, hq, rfl⟩
    exact ⟨q, (hord n agg).mem_iff.mpr hq, rfl⟩

/-- C6: for every list of stored reality ids, over a store whose parent graph is
acyclic and closed under parents (and which holds the main reality when the list is
empty), there is a recursion budget from which on `MergeRealities` returns a reality
`R`, and `R.DescendsFromReality(id)` is true for every input id, so that the check of
`checkTransferBalances` on inputs of these realities does not return the
wrong-reality error; this holds for every order in which the `range` statements visit
the map of aggregated realities. -/
theorem MergeRealities_descends_from_inputs (blake2b : List (Fin 256) → Bytes32)
    (MAIN_REALITY_ID : RealityId)
    (order : Nat → List (RealityId × Reality) → List (RealityId × Reality))
    (ls : LedgerState) (ids : List RealityId)
    (hord : IsRangeOrder order) (hc : ClosedUnderParents ls) (ha : Acyclic ls)
    (hmain : ids = [] → ∃ r, loadReality ls MAIN_REALITY_ID = some r)
    (hids : ∀ id ∈ ids, ∃ r, loadReality ls id = some r) :
    ∃ F, ∀ fuel, F ≤ fuel →
      ∃ R, MergeRealities blake2b MAIN_REALITY_ID order ls fuel ids = .ok R ∧
        (∀ id ∈ ids, DescendsFromReality ls fuel R.reality id = .ok true) ∧
        ∀ (inputs : List TransferOutput) (outputs : OutputMap),
          inputs.map TransferOutput.realityId = ids →
          checkTransferBalances ls fuel R.reality (inputs.map some) outputs ≠ .ok (some .wrongReality) := by
  suffices hmerge : ∃ F, ∀ fuel, F ≤ fuel →
      ∃ R, MergeRealities blake2b MAIN_REALITY_ID order ls fuel ids = .ok R ∧
        ∀ id ∈ ids, DescendsFromReality ls fuel R.reality id = .ok true by
    obtain ⟨F, hF⟩ := hmerge
    refine ⟨F, fun fuel hle => ?_⟩
    obtain ⟨R, hR, hdesc⟩ := hF fuel hle
    refine ⟨R, hR, hdesc, ?_⟩
    intro inputs outputs hin
    rw [checkTransferBalances_eq ls fuel R.reality inputs outputs
      (fun o ho => hdesc o.realityId (by rw [← hin]; exact List.mem_map_of_mem _ ho))]
    split <;> simp
  obtain ⟨F, hF⟩ := GetAncestorRealities_terminates_uniform hc ha
  refine ⟨F + 1, fun fuel hle => ?_⟩
  have hterm := hF fuel (Nat.le_of_succ_le hle)
  match ids, hmain, hids with
  | [], hmain, _ =>
    obtain ⟨r, hr⟩ := hmain rfl
    exact ⟨⟨r, true⟩, by simp only [MergeRealities, hr], fun id hid => by simp at hid⟩
  | [a], _, hids =>
    obtain ⟨r, hr⟩ := hids a (List.mem_cons_self _ _)
    refine ⟨⟨r, true⟩, by simp only [MergeRealities, hr], ?_⟩
    intro id hid
    have e : id = a := by simpa using hid
    subst e
    unfold DescendsFromReality
    rw [if_pos (loadReality_id hr)]
  | a :: b :: rest, _, hids =>
    obtain ⟨agg, hagg, hst, hcov, hne⟩ :=
      aggregateRealities_spec hord hterm (a :: b :: rest) hids 0 [] (fun q hq => by simp at hq)
    have hne2 : agg ≠ [] := hne (Or.inr (by simp))
    by_cases hlen : agg.length = 1
    · obtain ⟨q, rfl⟩ := List.length_eq_one.mp hlen
      obtain ⟨k, r⟩ := q
      refine ⟨⟨r, true⟩, MergeRealities_single_survivor blake2b MAIN_REALITY_ID order ls fuel a b rest k r hagg, ?_⟩
      intro id hid
      obtain ⟨q, hq, hq2⟩ := hcov id (Or.inl hid)
      have e : q = (k, r) := by simpa using hq
      subst e
      have hload : loadReality ls k = some r := hst (k, r) (List.mem_cons_self _ _)
      have hrid : r.id = k := loadReality_id hload
      have hload2 : loadReality ls r.id = some r := by rw [hrid]; exact hload
      obtain ⟨A, hA⟩ := hterm k r hload
      obtain ⟨bb, hb, hbi⟩ := DescendsFromReality_of_ancestors hA id
      have htrue : bb = true := by
        apply hbi.mpr
        rcases hq2 with h | h
        · exact Or.inl (hrid.trans h)
        · right
          apply (isAncestor_iff_transGen hload2 id).mpr
          rw [hrid]
          exact h
      rw [htrue] at hb
      exact hb
    · refine ⟨_, MergeRealities_aggregated blake2b MAIN_REALITY_ID order ls fuel a b rest agg hagg hlen, ?_⟩
      intro id hid
      obtain ⟨f1, rfl⟩ : ∃ f1, fuel = f1 + 1 := ⟨fuel - 1, by omega⟩
      have hterm1 := hF f1 (by omega)
      have hpar : ∀ p ∈ (newReality
            (generateAggregatedRealityId blake2b (sortRealityIds (order (a :: b :: rest).length agg)))
            (sortRealityIds (order (a :: b :: rest).length agg))).parentRealities,
          ∃ rp, loadReality ls p = some rp ∧ ∃ A, GetAncestorRealities ls f1 rp = .ok A := by
        intro p hp
        obtain ⟨q, hq, rfl⟩ := (mem_sortRealityIds hord _ agg p).mp hp
        exact ⟨q.2, hst q hq, hterm1 q.1 q.2 (hst q hq)⟩
      obtain ⟨A, hA⟩ := GetAncestorRealities_of_parents hpar
      obtain ⟨bb, hb, hbi⟩ := DescendsFromReality_of_ancestors hA id
      have htrue : bb = true := by
        apply hbi.mpr
        right
        obtain ⟨q, hq, hq2⟩ := hcov id (Or.inl hid)
        refine ⟨q.1, (mem_sortRealityIds hord _ agg q.1).mpr ⟨q, hq, rfl⟩, ?_⟩
        rcases hq2 with h | h
        · rw [h]
        · exact h.to_reflTransGen
      rw [htrue] at hb
      exact hb


theorem isRangeOrder_exOrder : IsRangeOrder exOrder := fun _ m => List.Perm.refl m

theorem isRangeOrder_exOrderRev : IsRangeOrder exOrderRev := fun _ m => List.reverse_perm m

theorem closedUnderParents_of_forall (ls : LedgerState)
    (h : ∀ r ∈ ls.realities, ∀ p ∈ r.parentRealities, (loadReality ls p).isSome = true) :
    ClosedUnderParents ls := by
  intro id r hr p hp
  exact Option.isSome_iff_exists.mp (h r (loadReality_mem hr) p hp)

theorem acyclic_of_rank (ls : LedgerState) (rank : RealityId → Nat)
    (h : ∀ r ∈ ls.realities, ∀ p ∈ r.parentRealities, rank p < rank r.id) : Acyclic ls := by
  have hedge : ∀ x y, isParent ls x y → rank y < rank x := by
    rintro x y ⟨r, hr, hy⟩
    have := h r (loadReality_mem hr) y hy
    rwa [loadReality_id hr] at this
  have hreach : ∀ x y, Relation.TransGen (isParent ls) x y → rank y < rank x := by
    intro x y hxy
    induction hxy with
    | single h1 => exact hedge _ _ h1
    | tail _ h2 ih => exact Nat.lt_trans (hedge _ _ h2) ih
  intro x hx
  exact Nat.lt_irrefl _ (hreach x x hx)

/-- The ledger `exMergeLedger` of the examples of the merge is the state the booking of
`exJoinTransfer` leaves: the aggregated reality of `exRA` and `exRB` is stored. -/
theorem BookTransfer_exJoinTransfer :
    BookTransfer exBlake2b exMAIN exOrder exBranchLedger 3 exJoinTransfer = .ok (none, exMergeLedger) := by
  decide

theorem closedUnderParents_exMergeLedger : ClosedUnderParents exMergeLedger :=
  closedUnderParents_of_forall exMergeLedger (by decide)

theorem acyclic_exMergeLedger : Acyclic exMergeLedger :=
  acyclic_of_rank exMergeLedger exRank (by decide)

/-- C6 at the merge of `exRA`, `exRB` and their aggregated reality `exRC`. -/
theorem MergeRealities_descends_from_inputs_witness :
    IsRangeOrder exOrder ∧ ClosedUnderParents exMergeLedger ∧ Acyclic exMergeLedger ∧
    (∀ id ∈ [exRA, exRB, exRC], ∃ r, loadReality exMergeLedger id = some r) ∧
    ∃ F, ∀ fuel, F ≤ fuel →
      ∃ R, MergeRealities exBlake2b exMAIN exOrder exMergeLedger fuel [exRA, exRB, exRC] = .ok R ∧
        (∀ id ∈ [exRA, exRB, exRC], DescendsFromReality exMergeLedger fuel R.reality id = .ok true) ∧
        ∀ (inputs : List TransferOutput) (outputs : OutputMap),
          inputs.map TransferOutput.realityId = [exRA, exRB, exRC] →
          checkTransferBalances exMergeLedger fuel R.reality (inputs.map some) outputs ≠
            .ok (some .wrongReality) :=
  have hids : ∀ id ∈ [exRA, exRB, exRC], ∃ r, loadReality exMergeLedger id = some r :=
    fun id hid => Option.isSome_iff_exists.mp
      ((by decide : ∀ id ∈ [exRA, exRB, exRC], (loadReality exMergeLedger id).isSome = true) id hid)
  ⟨isRangeOrder_exOrder, closedUnderParents_exMergeLedger, acyclic_exMergeLedger, hids,
    MergeRealities_descends_from_inputs exBlake2b exMAIN exOrder exMergeLedger [exRA, exRB, exRC]
      isRangeOrder_exOrder closedUnderParents_exMergeLedger acyclic_exMergeLedger
      (fun h => absurd h (by simp)) hids⟩

/-- C7: the ids `exRA`, `exRB`, `exRC` and their permutation `exRC`, `exRA`, `exRB`.
In the order `exRC` first the two others are ancestors of `exRC` and are dropped, the
result is the stored reality `exRC`.  In the order `exRC` last it replaces one of the
two (which one is up to the `range` over the map) and the other stays: the result is
an aggregated reality whose id is the digest of `exRA ‖ exRC` or of `exRB ‖ exRC`,
not `exRC`. -/
theorem MergeRealities_permutation_changes_id :
    [exRC, exRA, exRB].Perm [exRA, exRB, exRC] ∧
    MergeRealities exBlake2b exMAIN exOrder exMergeLedger 3 [exRC, exRA, exRB] =
      .ok ⟨exRealityC, true⟩ ∧
    MergeRealities exBlake2b exMAIN exOrderRev exMergeLedger 3 [exRC, exRA, exRB] =
      .ok ⟨exRealityC, true⟩ ∧
    MergeRealities exBlake2b exMAIN exOrder exMergeLedger 3 [exRA, exRB, exRC] =
      .ok ⟨newReality exDigestAC [exRA, exRC], false⟩ ∧
    MergeRealities exBlake2b exMAIN exOrderRev exMergeLedger 3 [exRA, exRB, exRC] =
      .ok ⟨newReality exDigestBC [exRB, exRC], false⟩ ∧
    exRealityC.id ≠ exDigestBC ∧ exRealityC.id ≠ exDigestAC := by
  refine ⟨?_, by decide, by decide, by decide, by decide, by decide, by decide⟩
  exact (List.perm_append_comm : ([exRC] ++ [exRA, exRB]).Perm ([exRA, exRB] ++ [exRC]))

/-- C8: the reduction of `exRA`, `exRB`, `exRC` (the last descends from both others)
replaces only the first aggregated reality the `range` meets: the survivors, the
parents of the returned aggregated reality, are `exRA` and `exRC` (or `exRB` and
`exRC` in the other order of the `range`), and `exRC` descends from either. -/
theorem MergeRealities_survivors_not_independent :
    (∃ R, MergeRealities exBlake2b exMAIN exOrder exMergeLedger 3 [exRA, exRB, exRC] = .ok R ∧
      R.reality.parentRealities = [exRA, exRC]) ∧
    (∃ R, MergeRealities exBlake2b exMAIN exOrderRev exMergeLedger 3 [exRA, exRB, exRC] = .ok R ∧
      R.reality.parentRealities = [exRB, exRC]) ∧
    loadReality exMergeLedger exRC = some exRealityC ∧
    exRB ≠ exRC ∧ DescendsFromReality exMergeLedger 3 exRealityC exRB = .ok true ∧
    exRA ≠ exRC ∧ DescendsFromReality exMergeLedger 3 exRealityC exRA = .ok true := by
  refine ⟨⟨⟨newReality exDigestAC [exRA, exRC], false⟩, by decide, rfl⟩,
    ⟨⟨newReality exDigestBC [exRB, exRC], false⟩, by decide, rfl⟩,
    by decide, by decide, by decide, by decide, by decide⟩


theorem order_nil {order : Nat → List (RealityId × Reality) → List (RealityId × Reality)}
    (hord : IsRangeOrder order) (k : Nat) : order k [] = [] :=
  (hord k []).eq_nil

theorem order_singleton {order : Nat → List (RealityId × Reality) → List (RealityId × Reality)}
    (hord : IsRangeOrder order) (k : Nat) (q : RealityId × Reality) : order k [q] = [q] :=
  List.perm_singleton.mp (hord k [q])

/-- The first round of the loop `AGGREGATE_REALITIES`: the map is empty and the first
id, if stored, is entered. -/
theorem aggregateRealities_first {order : Nat → List (RealityId × Reality) → List (RealityId × Reality)}
    (hord : IsRangeOrder order) (ls : LedgerState) (fuel k : Nat) (a : RealityId) (rest : List RealityId)
    (ra : Reality) (ha : loadReality ls a = some ra) :
    aggregateRealities order ls fuel k (a :: rest) [] =
      aggregateRealities order ls fuel (k + 1) rest [(a, ra)] := by
  rw [aggregateRealities]
  simp only [List.any_nil, Bool.false_eq_true, if_false, ha, order_nil hord, scanAggregated,
    List.filter_nil]

/-- A reality that descends from a stored reality other than itself is not an ancestor
of that reality. -/
theorem DescendsFromReality_asymm {ls : LedgerState} {fuel : Nat} {RA RC : RealityId}
    {rA rC : Reality} (hA : loadReality ls RA = some rA) (hC : loadReality ls RC = some rC)
    (hne : RC ≠ RA) (hdesc : DescendsFromReality ls fuel rC RA = .ok true) :
    DescendsFromReality ls fuel rA RC = .ok false := by
  have hidA : rA.id = RA := loadReality_id hA
  have hidC : rC.id = RC := loadReality_id hC
  have hA2 : loadReality ls rA.id = some rA := by rw [hidA]; exact hA
  have hC2 : loadReality ls rC.id = some rC := by rw [hidC]; exact hC
  have hanc : IsAncestor ls rC RA :=
    (DescendsFromReality_true hdesc).resolve_left (fun e => hne (hidC.symm.trans e))
  obtain ⟨AC, hAC⟩ : ∃ A, GetAncestorRealities ls fuel rC = .ok A := by
    unfold DescendsFromReality at hdesc
    rw [if_neg (fun e => hne (hidC.symm.trans e))] at hdesc
    cases h : GetAncestorRealities ls fuel rC with
    | fault f => rw [h] at hdesc; simp at hdesc
    | ok A => exact ⟨A, rfl⟩
  obtain ⟨AA, hAA⟩ := GetAncestorRealities_of_ancestor hAC hanc hA
  obtain ⟨b, hb, hbi⟩ := DescendsFromReality_of_ancestors hAA RC
  cases b with
  | false => exact hb
  | true =>
    exfalso
    rcases hbi.mp rfl with h | h
    · exact hne (h.symm.trans hidA)
    · have h1 : Relation.TransGen (isParent ls) rA.id RC := (isAncestor_iff_transGen hA2 RC).mp h
      have h2 : Relation.TransGen (isParent ls) rC.id RA := (isAncestor_iff_transGen hC2 RA).mp hanc
      rw [hidA] at h1
      rw [hidC] at h2
      have hcyc : Relation.TransGen (isParent ls) rC.id rC.id := by
        rw [hidC]
        exact Relation.TransGen.trans h2 h1
      exact GetAncestorRealities_no_cycle hAC hC2 hcyc

/-- C10: for stored realities RA and RC with RC different from RA and
`RC.DescendsFromReality(RA)` true, `MergeRealities(RA, RC)` and `MergeRealities(RC, RA)`
both return the stored reality RC itself (a stored handle, not a prepared aggregated
reality), whatever the order of the `range` over the map. -/
theorem MergeRealities_descendant_wins (blake2b : List (Fin 256) → Bytes32)
    (MAIN_REALITY_ID : RealityId)
    (order : Nat → List (RealityId × Reality) → List (RealityId × Reality))
    (ls : LedgerState) (fuel : Nat) (RA RC : RealityId) (rA rC : Reality)
    (hord : IsRangeOrder order)
    (hA : loadReality ls RA = some rA) (hC : loadReality ls RC = some rC) (hne : RC ≠ RA)
    (hdesc : DescendsFromReality ls fuel rC RA = .ok true) :
    MergeRealities blake2b MAIN_REALITY_ID order ls fuel [RA, RC] = .ok ⟨rC, true⟩ ∧
    MergeRealities blake2b MAIN_REALITY_ID order ls fuel [RC, RA] = .ok ⟨rC, true⟩ := by
  have hidC : rC.id = RC := loadReality_id hC
  have hne2 : ¬ RA = RC := fun e => hne e.symm
  have hback := DescendsFromReality_asymm hA hC hne hdesc
  constructor
  · apply MergeRealities_single_survivor blake2b MAIN_REALITY_ID order ls fuel RA RC [] rC.id rC
    rw [aggregateRealities_first hord ls fuel 0 RA [RC] rA hA, aggregateRealities]
    simp only [List.any_cons, List.any_nil, hne2, decide_False, Bool.or_false, Bool.false_eq_true,
      if_false, hC, order_singleton hord, scanAggregated, hback, hdesc]
    simp only [aggregateRealities, List.filter_cons, List.filter_nil, ne_eq, not_true_eq_false,
      decide_False, Bool.false_eq_true, if_false]
  · apply MergeRealities_single_survivor blake2b MAIN_REALITY_ID order ls fuel RC RA [] RC rC
    rw [aggregateRealities_first hord ls fuel 0 RC [RA] rC hC, aggregateRealities]
    simp only [List.any_cons, List.any_nil, hne, decide_False, Bool.or_false, Bool.false_eq_true,
      if_false, hA, order_singleton hord, scanAggregated, hdesc]
    simp only [aggregateRealities]


/-- C10 at `exRA` and `exRC`, which descends from `exRA`. -/
theorem MergeRealities_descendant_wins_witness :
    IsRangeOrder exOrder ∧ loadReality exMergeLedger exRA = some exRealityA ∧
    loadReality exMergeLedger exRC = some exRealityC ∧ exRC ≠ exRA ∧
    DescendsFromReality exMergeLedger 3 exRealityC exRA = .ok true ∧
    MergeRealities exBlake2b exMAIN exOrder exMergeLedger 3 [exRA, exRC] = .ok ⟨exRealityC, true⟩ ∧
    MergeRealities exBlake2b exMAIN exOrder exMergeLedger 3 [exRC, exRA] = .ok ⟨exRealityC, true⟩ :=
  ⟨isRangeOrder_exOrder, by decide, by decide, by decide, by decide,
    MergeRealities_descendant_wins exBlake2b exMAIN exOrder exMergeLedger 3 exRA exRC
      exRealityA exRealityC isRangeOrder_exOrder (by decide) (by decide) (by decide) (by decide)⟩

/-- A child of the main reality descends from its own id and from the main reality
only. -/
theorem DescendsFromReality_child_of_main {ls : LedgerState} {fuel : Nat}
    {MAIN_REALITY_ID RA X : RealityId} {rM rA : Reality}
    (hM : loadReality ls MAIN_REALITY_ID = some rM) (hMp : rM.parentRealities = [])
    (hA : loadReality ls RA = some rA) (hAp : rA.parentRealities = [MAIN_REALITY_ID])
    (hX : X ≠ RA) (hXM : X ≠ MAIN_REALITY_ID) (hfuel : 2 ≤ fuel) :
    DescendsFromReality ls fuel rA X = .ok false := by
  obtain ⟨AM, hAM⟩ : ∃ A, GetAncestorRealities ls (0 + 1) rM = .ok A :=
    GetAncestorRealities_of_parents (fun p hp => by rw [hMp] at hp; simp at hp)
  obtain ⟨AA, hAA⟩ : ∃ A, GetAncestorRealities ls (1 + 1) rA = .ok A :=
    GetAncestorRealities_of_parents (fun p hp => by
      rw [hAp] at hp
      have e : p = MAIN_REALITY_ID := by simpa using hp
      subst e
      exact ⟨rM, hM, AM, hAM⟩)
  have hAA2 := GetAncestorRealities_mono hfuel hAA
  obtain ⟨b, hb, hbi⟩ := DescendsFromReality_of_ancestors hAA2 X
  cases b with
  | false => exact hb
  | true =>
    exfalso
    rcases hbi.mp rfl with h | ⟨p, hp, hreach⟩
    · exact hX (h.symm.trans (loadReality_id hA))
    · rw [hAp] at hp
      have e : p = MAIN_REALITY_ID := by simpa using hp
      subst e
      rcases Relation.ReflTransGen.cases_head hreach with h | ⟨c, ⟨r1, hr1, hc⟩, _⟩
      · exact hXM h.symm
      · have e : r1 = rM := by
          have := hr1.symm.trans hM
          simpa using this
        subst e
        rw [hMp] at hc
        simp at hc

/-- The reduction of two different children of the main reality keeps both. -/
theorem aggregateRealities_children_of_main
    {order : Nat → List (RealityId × Reality) → List (RealityId × Reality)}
    (hord : IsRangeOrder order) {ls : LedgerState} {fuel : Nat}
    {MAIN_REALITY_ID RA RB : RealityId} {rM rA rB : Reality}
    (hM : loadReality ls MAIN_REALITY_ID = some rM) (hMp : rM.parentRealities = [])
    (hA : loadReality ls RA = some rA) (hAp : rA.parentRealities = [MAIN_REALITY_ID])
    (hB : loadReality ls RB = some rB) (hBp : rB.parentRealities = [MAIN_REALITY_ID])
    (hAB : RA ≠ RB) (hAM : RA ≠ MAIN_REALITY_ID) (hBM : RB ≠ MAIN_REALITY_ID) (hfuel : 2 ≤ fuel) :
    aggregateRealities order ls fuel 0 [RA, RB] [] = .ok [(RB, rB), (RA, rA)] := by
  have h1 : DescendsFromReality ls fuel rA RB = .ok false :=
    DescendsFromReality_child_of_main hM hMp hA hAp (fun e => hAB e.symm) hBM hfuel
  have h2 : DescendsFromReality ls fuel rB RA = .ok false :=
    DescendsFromReality_child_of_main hM hMp hB hBp hAB hAM hfuel
  rw [aggregateRealities_first hord ls fuel 0 RA [RB] rA hA, aggregateRealities]
  simp only [List.any_cons, List.any_nil, hAB, decide_False, Bool.or_false, Bool.false_eq_true,
    if_false, hB, order_singleton hord, scanAggregated, h1, h2]
  simp only [aggregateRealities, List.filter_cons, List.filter_nil, ne_eq, hAB, not_false_eq_true,
    decide_True, if_true]

/-- C9: whenever the reduction in `MergeRealities` leaves two or more surviving
realities, the returned (prepared) aggregated reality has as parent list the surviving
ids in ascending byte-lexicographic order, a sorted permutation of the keys of the map,
and as id the blake2b-256 digest of the concatenation of the ids in that order; in
particular, for two different children RA, RB of the main reality,
`MergeRealities(RA, RB)` and `MergeRealities(RB, RA)` return realities with the same
id, the digest of the two ids in ascending order.  This holds for every order in which
the `range` statements visit the map. -/
theorem MergeRealities_aggregated_id (blake2b : List (Fin 256) → Bytes32)
    (MAIN_REALITY_ID : RealityId)
    (order : Nat → List (RealityId × Reality) → List (RealityId × Reality))
    (ls : LedgerState) (fuel : Nat) (hord : IsRangeOrder order) :
    (∀ (a b : RealityId) (rest : List RealityId) (agg : List (RealityId × Reality)),
      aggregateRealities order ls fuel 0 (a :: b :: rest) [] = .ok agg → 2 ≤ agg.length →
      ∃ sorted : List RealityId,
        MergeRealities blake2b MAIN_REALITY_ID order ls fuel (a :: b :: rest) =
          .ok ⟨newReality (blake2b (concatIds sorted)) sorted, false⟩ ∧
        sorted.Perm (agg.map Prod.fst) ∧ sorted.Sorted (fun x y => x.val ≤ y.val) ∧
        sortRealityIds (order (a :: b :: rest).length agg) = sorted) ∧
    (∀ (RA RB : RealityId) (rM rA rB : Reality),
      loadReality ls MAIN_REALITY_ID = some rM → rM.parentRealities = [] →
      loadReality ls RA = some rA → rA.parentRealities = [MAIN_REALITY_ID] →
      loadReality ls RB = some rB → rB.parentRealities = [MAIN_REALITY_ID] →
      RA ≠ RB → RA ≠ MAIN_REALITY_ID → RB ≠ MAIN_REALITY_ID → 2 ≤ fuel →
      ∃ (sorted : List RealityId) (R1 R2 : CachedReality),
        sorted.Perm [RA, RB] ∧ sorted.Sorted (fun x y => x.val ≤ y.val) ∧
        MergeRealities blake2b MAIN_REALITY_ID order ls fuel [RA, RB] = .ok R1 ∧
        MergeRealities blake2b MAIN_REALITY_ID order ls fuel [RB, RA] = .ok R2 ∧
        R1.reality.id = blake2b (concatIds sorted) ∧ R2.reality.id = blake2b (concatIds sorted)) := by
  have hgen : ∀ (a b : RealityId) (rest : List RealityId) (agg : List (RealityId × Reality)),
      aggregateRealities order ls fuel 0 (a :: b :: rest) [] = .ok agg → 2 ≤ agg.length →
      MergeRealities blake2b MAIN_REALITY_ID order ls fuel (a :: b :: rest) =
          .ok ⟨newReality (blake2b (concatIds (sortSlice (agg.map Prod.fst))))
            (sortSlice (agg.map Prod.fst)), false⟩ ∧
        sortRealityIds (order (a :: b :: rest).length agg) = sortSlice (agg.map Prod.fst) := by
    intro a b rest agg hagg hlen
    have hs : sortRealityIds (order (a :: b :: rest).length agg) = sortSlice (agg.map Prod.fst) :=
      sortSlice_eq_of_perm ((hord _ agg).map Prod.fst)
    have hm := MergeRealities_aggregated blake2b MAIN_REALITY_ID order ls fuel a b rest agg hagg
      (by omega)
    rw [hs, generateAggregatedRealityId_eq] at hm
    exact ⟨hm, hs⟩
  constructor
  · intro a b rest agg hagg hlen
    obtain ⟨hm, hs⟩ := hgen a b rest agg hagg hlen
    exact ⟨sortSlice (agg.map Prod.fst), hm, sortSlice_perm _, sortSlice_sorted _, hs⟩
  · intro RA RB rM rA rB hM hMp hA hAp hB hBp hAB hAM hBM hfuel
    have hagg1 := aggregateRealities_children_of_main hord hM hMp hA hAp hB hBp hAB hAM hBM hfuel
    have hagg2 := aggregateRealities_children_of_main hord hM hMp hB hBp hA hAp
      (fun e => hAB e.symm) hBM hAM hfuel
    obtain ⟨hm1, _⟩ := hgen RA RB [] _ hagg1 (by simp)
    obtain ⟨hm2, _⟩ := hgen RB RA [] _ hagg2 (by simp)
    have hswap : sortSlice ([(RB, rB), (RA, rA)].map Prod.fst) = sortSlice [RA, RB] :=
      sortSlice_eq_of_perm (List.Perm.swap RA RB [])
    have hsame : sortSlice ([(RA, rA), (RB, rB)].map Prod.fst) = sortSlice [RA, RB] := rfl
    rw [hswap] at hm1
    rw [hsame] at hm2
    exact ⟨sortSlice [RA, RB], _, _, sortSlice_perm _, sortSlice_sorted _, hm1, hm2, rfl, rfl⟩

/-- C9 at the ledger `exMergeLedger`: the merge of `exRA`, `exRB`, `exRC` leaves two
survivors, and the merges of the children `exRA` and `exRB` of the main reality in
both orders have the digest of `exRA ‖ exRB` as id. -/
theorem MergeRealities_aggregated_id_witness :
    IsRangeOrder exOrder ∧
    MergeRealities exBlake2b exMAIN exOrder exMergeLedger 3 [exRA, exRB] =
      .ok ⟨newReality exRC [exRA, exRB], false⟩ ∧
    MergeRealities exBlake2b exMAIN exOrder exMergeLedger 3 [exRB, exRA] =
      .ok ⟨newReality exRC [exRA, exRB], false⟩ ∧
    ((∀ (a b : RealityId) (rest : List RealityId) (agg : List (RealityId × Reality)),
      aggregateRealities exOrder exMergeLedger 3 0 (a :: b :: rest) [] = .ok agg → 2 ≤ agg.length →
      ∃ sorted : List RealityId,
        MergeRealities exBlake2b exMAIN exOrder exMergeLedger 3 (a :: b :: rest) =
          .ok ⟨newReality (exBlake2b (concatIds sorted)) sorted, false⟩ ∧
        sorted.Perm (agg.map Prod.fst) ∧ sorted.Sorted (fun x y => x.val ≤ y.val) ∧
        sortRealityIds (exOrder (a :: b :: rest).length agg) = sorted) ∧
    (∀ (RA RB : RealityId) (rM rA rB : Reality),
      loadReality exMergeLedger exMAIN = some rM → rM.parentRealities = [] →
      loadReality exMergeLedger RA = some rA → rA.parentRealities = [exMAIN] →
      loadReality exMergeLedger RB = some rB → rB.parentRealities = [exMAIN] →
      RA ≠ RB → RA ≠ exMAIN → RB ≠ exMAIN → 2 ≤ 3 →
      ∃ (sorted : List RealityId) (R1 R2 : CachedReality),
        sorted.Perm [RA, RB] ∧ sorted.Sorted (fun x y => x.val ≤ y.val) ∧
        MergeRealities exBlake2b exMAIN exOrder exMergeLedger 3 [RA, RB] = .ok R1 ∧
        MergeRealities exBlake2b exMAIN exOrder exMergeLedger 3 [RB, RA] = .ok R2 ∧
        R1.reality.id = exBlake2b (concatIds sorted) ∧
        R2.reality.id = exBlake2b (concatIds sorted))) :=
  ⟨isRangeOrder_exOrder, by decide, by decide,
    MergeRealities_aggregated_id exBlake2b exMAIN exOrder exMergeLedger 3 isRangeOrder_exOrder⟩


/-! ## The merge of no id and of one id, the descendance relation (C11 to C13) -/

/-- The ledger state `NewLedgerState` returns holds the main reality. -/
theorem loadReality_NewLedgerState (MAIN_REALITY_ID : RealityId) :
    loadReality (NewLedgerState MAIN_REALITY_ID) MAIN_REALITY_ID =
      some (newReality MAIN_REALITY_ID []) := by
  simp [loadReality, NewLedgerState, newReality]

/-- A reality that is stored stays stored, under its id, when a reality is stored. -/
theorem loadReality_storeReality_isSome (ls : LedgerState) (r : Reality) (id : RealityId)
    (h : (loadReality ls id).isSome = true) : (loadReality (storeReality ls r) id).isSome = true := by
  by_cases e : r.id = id
  · rw [← e, loadReality_storeReality]; rfl
  · unfold loadReality storeReality at *
    simp only [List.find?_cons, decide_eq_false e]
    rw [find?_filter_of_imp]
    · exact h
    · intro a ha
      have ha2 : a.id = id := of_decide_eq_true ha
      exact decide_eq_true (fun e2 => e (e2.symm.trans ha2))

/-- C11: `MergeRealities` called with no id returns the stored main reality, whose id
is `MAIN_REALITY_ID`, and called with a single stored id `r` it returns the stored
reality whose id is `r`. -/
theorem MergeRealities_zero_or_one (blake2b : List (Fin 256) → Bytes32)
    (MAIN_REALITY_ID : RealityId)
    (order : Nat → List (RealityId × Reality) → List (RealityId × Reality))
    (ls : LedgerState) (fuel : Nat) (r : RealityId) (rM rr : Reality)
    (hmain : loadReality ls MAIN_REALITY_ID = some rM) (hr : loadReality ls r = some rr) :
    (MergeRealities blake2b MAIN_REALITY_ID order ls fuel [] = .ok ⟨rM, true⟩ ∧
      rM.id = MAIN_REALITY_ID) ∧
    (MergeRealities blake2b MAIN_REALITY_ID order ls fuel [r] = .ok ⟨rr, true⟩ ∧ rr.id = r) := by
  refine ⟨⟨?_, loadReality_id hmain⟩, ?_, loadReality_id hr⟩
  · simp only [MergeRealities, hmain]
  · simp only [MergeRealities, hr]

/-- C11 on the ledger state `NewLedgerState` returns after `exRealityA` is stored. -/
theorem MergeRealities_zero_or_one_witness :
    loadReality (storeReality (NewLedgerState exMAIN) exRealityA) exMAIN = some exMainReality ∧
    loadReality (storeReality (NewLedgerState exMAIN) exRealityA) exRA = some exRealityA ∧
    (MergeRealities exBlake2b exMAIN exOrder (storeReality (NewLedgerState exMAIN) exRealityA) 0 [] =
        .ok ⟨exMainReality, true⟩ ∧ exMainReality.id = exMAIN) ∧
    (MergeRealities exBlake2b exMAIN exOrder (storeReality (NewLedgerState exMAIN) exRealityA) 0 [exRA] =
        .ok ⟨exRealityA, true⟩ ∧ exRealityA.id = exRA) :=
  ⟨by decide, by decide,
    MergeRealities_zero_or_one exBlake2b exMAIN exOrder (storeReality (NewLedgerState exMAIN) exRealityA)
      0 exRA exMainReality exRealityA (by decide) (by decide)⟩

/-- C12: over a store in which every parent of every stored reality is stored and the
parent graph has no cycle, there is a recursion budget from which on
`R.DescendsFromReality(X)` returns, for a stored reality `R`, and it returns true
exactly when `X` is the id of `R` or is reached from `R` by one or more parent edges,
that is, exactly when `X` is in the reflexive-transitive closure of the parent
relation at `R`. -/
theorem DescendsFromReality_iff_reachable (ls : LedgerState) (R : Reality) (X : RealityId)
    (hc : ClosedUnderParents ls) (ha : Acyclic ls) (hR : loadReality ls R.id = some R) :
    ∃ F, ∀ fuel, F ≤ fuel → ∃ b, DescendsFromReality ls fuel R X = .ok b ∧
      (b = true ↔ X = R.id ∨ Relation.TransGen (isParent ls) R.id X) ∧
      (b = true ↔ Relation.ReflTransGen (isParent ls) R.id X) := by
  obtain ⟨F, hF⟩ := GetAncestorRealities_terminates_uniform hc ha
  refine ⟨F, fun fuel hle => ?_⟩
  obtain ⟨A, hA⟩ := hF fuel hle R.id R hR
  obtain ⟨b, hb, hbi⟩ := DescendsFromReality_of_ancestors hA X
  have h1 : b = true ↔ X = R.id ∨ Relation.TransGen (isParent ls) R.id X := by
    rw [hbi, isAncestor_iff_transGen hR X]
    constructor
    · rintro (h | h)
      · exact Or.inl h.symm
      · exact Or.inr h
    · rintro (h | h)
      · exact Or.inl h.symm
      · exact Or.inr h
  exact ⟨b, hb, h1, by rw [h1, Relation.reflTransGen_iff_eq_or_transGen]⟩

/-- C12 at the aggregated reality `exRC` of `exMergeLedger` and the main reality. -/
theorem DescendsFromReality_iff_reachable_witness :
    ClosedUnderParents exMergeLedger ∧ Acyclic exMergeLedger ∧
    loadReality exMergeLedger exRealityC.id = some exRealityC ∧
    DescendsFromReality exMergeLedger 3 exRealityC exMAIN = .ok true ∧
    ∃ F, ∀ fuel, F ≤ fuel → ∃ b, DescendsFromReality exMergeLedger fuel exRealityC exMAIN = .ok b ∧
      (b = true ↔ exMAIN = exRealityC.id ∨ Relation.TransGen (isParent exMergeLedger) exRealityC.id exMAIN) ∧
      (b = true ↔ Relation.ReflTransGen (isParent exMergeLedger) exRealityC.id exMAIN) :=
  ⟨closedUnderParents_exMergeLedger, acyclic_exMergeLedger, by decide, by decide,
    DescendsFromReality_iff_reachable exMergeLedger exRealityC exMAIN
      closedUnderParents_exMergeLedger acyclic_exMergeLedger (by decide)⟩

/-- More fuel does not change the result of a call of `DescendsFromReality` that
returned. -/
theorem DescendsFromReality_mono {ls : LedgerState} {fuel fuel1 : Nat} {r : Reality}
    {X : RealityId} {b : Bool} (hle : fuel ≤ fuel1)
    (h : DescendsFromReality ls fuel r X = .ok b) : DescendsFromReality ls fuel1 r X = .ok b := by
  unfold DescendsFromReality at h ⊢
  by_cases e : r.id = X
  · rw [if_pos e] at h ⊢
    exact h
  · rw [if_neg e] at h ⊢
    cases hA : GetAncestorRealities ls fuel r with
    | fault f => rw [hA] at h; simp at h
    | ok A =>
      rw [hA] at h
      rw [GetAncestorRealities_mono hle hA]
      exact h

/-- C13: `DescendsFromReality` is a preorder on stored realities: every reality
descends from its own id (whatever the recursion budget), and for stored realities
`R`, `S` and every id `X`, if `R.DescendsFromReality(S.id)` and
`S.DescendsFromReality(X)` return true then `R.DescendsFromReality(X)` returns true
(with every recursion budget that is not smaller than those of the two calls). -/
theorem DescendsFromReality_preorder (ls : LedgerState) (fuel1 fuel2 fuel : Nat) (R S : Reality)
    (X : RealityId) (hR : loadReality ls R.id = some R) (hS : loadReality ls S.id = some S)
    (h1 : fuel1 ≤ fuel) (h2 : fuel2 ≤ fuel) :
    DescendsFromReality ls fuel R R.id = .ok true ∧
    (DescendsFromReality ls fuel1 R S.id = .ok true →
      DescendsFromReality ls fuel2 S X = .ok true →
      DescendsFromReality ls fuel R X = .ok true) := by
  constructor
  · unfold DescendsFromReality
    rw [if_pos rfl]
  · intro hRS1 hSX2
    have hRS := DescendsFromReality_mono h1 hRS1
    have hSX := DescendsFromReality_mono h2 hSX2
    by_cases e : R.id = S.id
    · have hRS2 : R = S := by
        have := hR.symm.trans (e ▸ hS)
        simpa using this
      subst hRS2
      exact hSX
    · have hanc : IsAncestor ls R S.id := (DescendsFromReality_true hRS).resolve_left e
      obtain ⟨A, hA⟩ : ∃ A, GetAncestorRealities ls fuel R = .ok A := by
        unfold DescendsFromReality at hRS
        rw [if_neg e] at hRS
        cases h : GetAncestorRealities ls fuel R with
        | fault f => rw [h] at hRS; simp at hRS
        | ok A => exact ⟨A, rfl⟩
      obtain ⟨b, hb, hbi⟩ := DescendsFromReality_of_ancestors hA X
      have htrue : b = true := by
        apply hbi.mpr
        rcases DescendsFromReality_true hSX with h | h
        · right
          rw [← h]
          exact hanc
        · right
          obtain ⟨p, hp, hreach⟩ := hanc
          obtain ⟨q, hq, hreach2⟩ := h
          exact ⟨p, hp, hreach.trans (Relation.ReflTransGen.head ⟨S, hS, hq⟩ hreach2)⟩
      rw [htrue] at hb
      exact hb

/-- C13 at `exRC`, its parent `exRA` and the main reality, in `exMergeLedger`. -/
theorem DescendsFromReality_preorder_witness :
    loadReality exMergeLedger exRealityC.id = some exRealityC ∧
    loadReality exMergeLedger exRealityA.id = some exRealityA ∧
    DescendsFromReality exMergeLedger 3 exRealityC exRealityA.id = .ok true ∧
    DescendsFromReality exMergeLedger 2 exRealityA exMAIN = .ok true ∧
    DescendsFromReality exMergeLedger 3 exRealityC exRealityC.id = .ok true ∧
    (DescendsFromReality exMergeLedger 3 exRealityC exRealityA.id = .ok true →
      DescendsFromReality exMergeLedger 2 exRealityA exMAIN = .ok true →
      DescendsFromReality exMergeLedger 3 exRealityC exMAIN = .ok true) :=
  ⟨by decide, by decide, by decide, by decide,
    DescendsFromReality_preorder exMergeLedger 3 2 3 exRealityC exRealityA exMAIN
      (by decide) (by decide) (by decide) (by decide)⟩


/-! ## The binary form of a reality (C14) -/

theorem getUint32_putUint32 (v : Nat) (hv : v < 2 ^ 32) (rest : List (Fin 256)) :
    getUint32 (putUint32 v ++ rest) = .ok v := by
  simp only [putUint32, byteOf, List.cons_append, List.nil_append, getUint32, Outcome.ok.injEq]
  omega

theorem RealityId.UnmarshalBinary_append (id : RealityId) (rest : List (Fin 256)) :
    RealityId.UnmarshalBinary (id.val ++ rest) = .ok id := by
  have h : (id.val ++ rest).take 32 = id.val := List.take_left' id.property
  unfold RealityId.UnmarshalBinary
  simp only [h, id.property, dite_true]

theorem length_concatIds (l : List RealityId) : (concatIds l).length = 32 * l.length := by
  induction l with
  | nil => rfl
  | cons a l ih => simp only [concatIds, List.length_append, a.property, ih, List.length_cons]; omega

theorem concatIds_append (p q : List RealityId) :
    concatIds (p ++ q) = concatIds p ++ concatIds q := by
  induction p with
  | nil => rfl
  | cons x p ih =>
    show x.val ++ concatIds (p ++ q) = (x.val ++ concatIds p) ++ concatIds q
    rw [ih, List.append_assoc]

/-- The loop over the parents reads the ids that follow the count, as many as asked
for and at hand. -/
theorem readParentRealities_ok (pre : List RealityId) (l : List RealityId) (hdr : List (Fin 256))
    (hhdr : hdr.length = 4) (count : Nat) (hcount : count ≤ l.length) :
    readParentRealities (hdr ++ concatIds (pre ++ l)) count pre.length = .ok (l.take count) := by
  induction count generalizing pre l with
  | zero => simp [readParentRealities]
  | succ n ih =>
    cases l with
    | nil => simp at hcount
    | cons a l =>
      have hlen : ¬ (hdr ++ concatIds (pre ++ a :: l)).length < 4 + pre.length * 32 := by
        simp only [List.length_append, hhdr, length_concatIds, List.length_cons]
        omega
      have hdrop : (hdr ++ concatIds (pre ++ a :: l)).drop (4 + pre.length * 32) =
          a.val ++ concatIds l := by
        have hsplit : hdr ++ concatIds (pre ++ a :: l) =
            (hdr ++ concatIds pre) ++ (a.val ++ concatIds l) := by
          rw [concatIds_append, List.append_assoc]
          rfl
        rw [hsplit]
        apply List.drop_left'
        simp only [List.length_append, hhdr, length_concatIds]
        omega
      have hnext := ih (pre ++ [a]) l (by simpa using hcount)
      simp only [List.append_assoc, List.singleton_append, List.length_append, List.length_singleton] at hnext
      rw [readParentRealities, if_neg hlen, hdrop, RealityId.UnmarshalBinary_append, hnext]
      rfl

/-- C14: unmarshalling the bytes `Reality.MarshalBinary` produces into the object
`realityFactory` makes from the storage key gives back the id, and a parent list that
is empty whatever the parent list was: the parents are read into a local slice that
is never assigned to the reality. -/
theorem UnmarshalBinary_MarshalBinary (id : RealityId) (parentRealities : List RealityId) :
    Reality.UnmarshalBinary (realityFactory id.val) (MarshalBinary (newReality id parentRealities)) =
      .ok { reality := { id := id, parentRealities := [] }, storageKey := id.val } := by
  have hkey : ¬ id.val.length < 32 := by rw [id.property]; omega
  have htake : id.val.take 32 = id.val ++ [] := by
    rw [List.append_nil]
    exact List.take_of_length_le (by rw [id.property])
  have hcount : getUint32 (MarshalBinary (newReality id parentRealities)) =
      .ok (parentRealities.length % 2 ^ 32) :=
    getUint32_putUint32 _ (Nat.mod_lt _ (by decide)) _
  have hread := readParentRealities_ok [] parentRealities
    (putUint32 (parentRealities.length % 2 ^ 32)) rfl (parentRealities.length % 2 ^ 32)
    (Nat.mod_le _ _)
  unfold Reality.UnmarshalBinary
  rw [show (realityFactory id.val).storageKey = id.val from rfl, if_neg hkey, htake,
    RealityId.UnmarshalBinary_append, hcount]
  simp only
  have hm : MarshalBinary (newReality id parentRealities) =
      putUint32 (parentRealities.length % 2 ^ 32) ++ concatIds ([] ++ parentRealities) := rfl
  rw [hm, show ([] : List RealityId).length = 0 from rfl] at *
  rw [hread]
  rfl

/-- C14 at the reality `exRA`, child of the main reality: the reality that comes back
has the id `exRA` and no parent. -/
theorem UnmarshalBinary_MarshalBinary_exRealityA :
    Reality.UnmarshalBinary (realityFactory exRA.val) (MarshalBinary exRealityA) =
      .ok { reality := { id := exRA, parentRealities := [] }, storageKey := exRA.val } ∧
    exRealityA.parentRealities = [exMAIN] := by
  refine ⟨by decide, rfl⟩


/-! ## The compilation of the filters (C20) -/

theorem collectFilters_eq (SPENT UNSPENT : Fin 256) (hne : SPENT ≠ UNSPENT) (filters : List Filter)
    (hacc : ∀ f ∈ filters, f.Accepted SPENT UNSPENT) (sets : FilterSets) :
    collectFilters SPENT UNSPENT filters sets =
      .ok { filteredRealities := sets.filteredRealities ++ suppliedRealities filters,
            filteredAddresses := sets.filteredAddresses ++ suppliedAddresses filters,
            filteredTransfers := sets.filteredTransfers ++ suppliedTransfers filters,
            filterSpent := sets.filterSpent || indicatorSupplied SPENT filters,
            filterUnspent := sets.filterUnspent || indicatorSupplied UNSPENT filters } := by
  induction filters generalizing sets with
  | nil => simp [collectFilters, suppliedRealities, suppliedAddresses, suppliedTransfers, indicatorSupplied]
  | cons f rest ih =>
    have hrest : ∀ g ∈ rest, g.Accepted SPENT UNSPENT := fun g hg => hacc g (List.mem_cons_of_mem _ hg)
    have hf := hacc f (List.mem_cons_self _ _)
    cases f with
    | realityId r =>
      rw [collectFilters, ih hrest]
      simp [suppliedRealities, suppliedAddresses, suppliedTransfers, indicatorSupplied]
    | addressHash a =>
      rw [collectFilters, ih hrest]
      simp [suppliedRealities, suppliedAddresses, suppliedTransfers, indicatorSupplied]
    | transferHash t =>
      rw [collectFilters, ih hrest]
      simp [suppliedRealities, suppliedAddresses, suppliedTransfers, indicatorSupplied]
    | spentIndicator v =>
      rcases hf with rfl | rfl
      · rw [collectFilters, if_pos rfl, ih hrest]
        have h2 : ¬ UNSPENT = v := fun e => hne e.symm
        simp [suppliedRealities, suppliedAddresses, suppliedTransfers, indicatorSupplied, h2, hne]
      · rw [collectFilters, if_neg (fun e => hne e.symm), if_pos rfl, ih hrest]
        have h2 : ¬ v = SPENT := fun e => hne e.symm
        simp [suppliedRealities, suppliedAddresses, suppliedTransfers, indicatorSupplied, h2, hne]
    | other => exact False.elim hf

theorem realityAddressLoop_eq (SPENT UNSPENT : Fin 256) (filterSpent filterUnspent : Bool)
    (realityPrefix : List (Fin 256)) (addresses : List AddressHash) (prefixes : List (List (Fin 256))) :
    realityAddressLoop SPENT UNSPENT filterSpent filterUnspent realityPrefix addresses prefixes =
      prefixes ++ addresses.map (fun a =>
        if (filterSpent != filterUnspent) = true then
          (if filterSpent = true then realityPrefix ++ a.val ++ [SPENT]
            else realityPrefix ++ a.val ++ [UNSPENT])
        else realityPrefix ++ a.val) := by
  induction addresses generalizing prefixes with
  | nil => simp [realityAddressLoop]
  | cons a rest ih =>
    rw [realityAddressLoop]
    by_cases h : (filterSpent != filterUnspent) = true
    · simp only [h, if_true, ih, List.map_cons, List.append_assoc, List.singleton_append]
    · simp only [h, if_false, ih, List.map_cons, List.append_assoc, List.singleton_append]
      simp

theorem realityLoop_eq (SPENT UNSPENT : Fin 256) (sets : FilterSets) (realities : List RealityId)
    (prefixes : List (List (Fin 256))) :
    realityLoop SPENT UNSPENT sets realities prefixes =
      prefixes ++ realities.flatMap (fun r =>
        if sets.filteredAddresses.length ≥ 1 then
          sets.filteredAddresses.map (fun a =>
            if (sets.filterSpent != sets.filterUnspent) = true then
              (if sets.filterSpent = true then r.val ++ a.val ++ [SPENT] else r.val ++ a.val ++ [UNSPENT])
            else r.val ++ a.val)
        else [r.val]) := by
  induction realities generalizing prefixes with
  | nil => simp [realityLoop]
  | cons r rest ih =>
    rw [realityLoop]
    by_cases h : sets.filteredAddresses.length ≥ 1
    · simp only [h, if_true, ih, realityAddressLoop_eq, List.flatMap_cons, List.append_assoc]
    · simp only [h, if_false, ih, List.flatMap_cons, List.append_assoc]

theorem transferAddressLoop_eq (transferPrefix : List (Fin 256)) (addresses : List AddressHash)
    (prefixes : List (List (Fin 256))) :
    transferAddressLoop transferPrefix addresses prefixes =
      prefixes ++ addresses.map (fun a => transferPrefix ++ a.val) := by
  induction addresses generalizing prefixes with
  | nil => simp [transferAddressLoop]
  | cons a rest ih => simp [transferAddressLoop, ih]

theorem transferLoop_eq (sets : FilterSets) (transfers : List TransferHash)
    (prefixes : List (List (Fin 256))) :
    transferLoop sets transfers prefixes =
      prefixes ++ transfers.flatMap (fun t =>
        if sets.filteredAddresses.length ≥ 1 then
          sets.filteredAddresses.map (fun a => t.val ++ a.val)
        else [t.val]) := by
  induction transfers generalizing prefixes with
  | nil => simp [transferLoop]
  | cons t rest ih =>
    rw [transferLoop]
    by_cases h : sets.filteredAddresses.length ≥ 1
    · simp only [h, if_true, ih, transferAddressLoop_eq, List.flatMap_cons, List.append_assoc]
    · simp only [h, if_false, ih, List.flatMap_cons, List.append_assoc]

theorem length_ge_one_iff {α : Type} (l : List α) : l.length ≥ 1 ↔ l ≠ [] := by
  cases l with
  | nil => simp
  | cons a l => simp

/-- C20: on every filter list it accepts, `generateFilterPrefixes` returns what the
compilation rules say (`compiledPrefixes`): with a `RealityId` the bookings are
searched, with reality ‖ address ‖ spentByte for every pair when exactly one of SPENT,
UNSPENT is supplied, reality ‖ address for every pair otherwise, and the reality alone
when no address is supplied; without `RealityId` the outputs are searched, with
transfer ‖ address for every pair, the transfer alone when no address is supplied, and
no prefix when no transfer is supplied.  (`hne`: the two constants of `SpentIndicator`
are different.) -/
theorem generateFilterPrefixes_eq_compiledPrefixes (SPENT UNSPENT : Fin 256) (filters : List Filter)
    (hne : SPENT ≠ UNSPENT) (hacc : ∀ f ∈ filters, f.Accepted SPENT UNSPENT) :
    generateFilterPrefixes SPENT UNSPENT filters = .ok (compiledPrefixes SPENT UNSPENT filters) := by
  unfold generateFilterPrefixes
  rw [collectFilters_eq SPENT UNSPENT hne filters hacc]
  simp only [List.nil_append, Bool.false_or, realityLoop_eq, transferLoop_eq, length_ge_one_iff]
  unfold compiledPrefixes
  by_cases hr : suppliedRealities filters = []
  · simp only [hr, ne_eq, not_true_eq_false, if_false]
    by_cases ht : suppliedTransfers filters = []
    · simp [ht]
    · simp only [ht, ne_eq, not_false_eq_true, if_true]
      by_cases ha : suppliedAddresses filters = []
      · simp [ha]
      · simp [ha]
  · simp only [hr, ne_eq, not_false_eq_true, if_true]
    by_cases ha : suppliedAddresses filters = []
    · simp [ha]
    · simp only [ha, not_false_eq_true, if_true, if_false]
      cases hs : indicatorSupplied SPENT filters <;> cases hu : indicatorSupplied UNSPENT filters <;>
        simp

/-- C20 at a list of two realities, two addresses and the indicator SPENT. -/
theorem generateFilterPrefixes_eq_compiledPrefixes_witness :
    exSPENT ≠ exUNSPENT ∧
    (∀ f ∈ [Filter.realityId exRA, .addressHash exA1, .realityId exRB, .addressHash exA2,
        .spentIndicator exSPENT], f.Accepted exSPENT exUNSPENT) ∧
    generateFilterPrefixes exSPENT exUNSPENT
        [.realityId exRA, .addressHash exA1, .realityId exRB, .addressHash exA2, .spentIndicator exSPENT] =
      .ok ([exRA.val ++ exA1.val ++ [exSPENT], exRA.val ++ exA2.val ++ [exSPENT],
            exRB.val ++ exA1.val ++ [exSPENT], exRB.val ++ exA2.val ++ [exSPENT]], true) ∧
    generateFilterPrefixes exSPENT exUNSPENT
        [.realityId exRA, .addressHash exA1, .realityId exRB, .addressHash exA2, .spentIndicator exSPENT] =
      .ok (compiledPrefixes exSPENT exUNSPENT
        [.realityId exRA, .addressHash exA1, .realityId exRB, .addressHash exA2, .spentIndicator exSPENT]) :=
  have hacc : ∀ f ∈ [Filter.realityId exRA, .addressHash exA1, .realityId exRB, .addressHash exA2,
      .spentIndicator exSPENT], f.Accepted exSPENT exUNSPENT := by
    intro f hf
    simp only [List.mem_cons, List.mem_singleton, List.not_mem_nil, or_false] at hf
    rcases hf with rfl | rfl | rfl | rfl | rfl <;> first | exact trivial | exact Or.inl rfl
  ⟨by decide, hacc, by decide,
    generateFilterPrefixes_eq_compiledPrefixes exSPENT exUNSPENT _ (by decide) hacc⟩


/-! ## What the prefixes select, what a query delivers (C18, C19) -/

theorem isPrefixOf_append_iff (x y x1 y1 : List (Fin 256)) (hlen : x.length = x1.length) :
    (x ++ y).isPrefixOf (x1 ++ y1) = true ↔ x = x1 ∧ y.isPrefixOf y1 = true := by
  rw [List.isPrefixOf_iff_prefix, List.isPrefixOf_iff_prefix]
  constructor
  · rintro ⟨t, ht⟩
    rw [List.append_assoc] at ht
    obtain ⟨h1, h2⟩ := List.append_inj ht hlen
    exact ⟨h1, t, h2⟩
  · rintro ⟨rfl, t, rfl⟩
    exact ⟨t, by rw [List.append_assoc]⟩

theorem bookingKey_eq (SPENT UNSPENT : Fin 256) (b : TransferOutputBooking) :
    bookingKey SPENT UNSPENT b =
      b.realityId.val ++ (b.addressHash.val ++ ([if b.spent then SPENT else UNSPENT] ++ b.transferHash.val)) := by
  unfold bookingKey
  simp only [List.append_assoc]

/-- A booking key starts with the bytes of a reality id exactly when the booking is of
that reality. -/
theorem reality_isPrefixOf_bookingKey (SPENT UNSPENT : Fin 256) (r : RealityId)
    (b : TransferOutputBooking) :
    r.val.isPrefixOf (bookingKey SPENT UNSPENT b) = true ↔ b.realityId = r := by
  rw [bookingKey_eq]
  have h := isPrefixOf_append_iff r.val [] b.realityId.val
    (b.addressHash.val ++ ([if b.spent then SPENT else UNSPENT] ++ b.transferHash.val))
    (r.property.trans b.realityId.property.symm)
  rw [List.append_nil] at h
  rw [h]
  constructor
  · rintro ⟨h1, _⟩
    exact (Subtype.ext h1).symm
  · rintro rfl
    exact ⟨rfl, by simp [List.isPrefixOf]⟩

theorem reality_address_isPrefixOf_bookingKey (SPENT UNSPENT : Fin 256) (r : RealityId)
    (a : AddressHash) (tail : List (Fin 256)) (b : TransferOutputBooking) :
    (r.val ++ a.val ++ tail).isPrefixOf (bookingKey SPENT UNSPENT b) = true ↔
      b.realityId = r ∧ b.addressHash = a ∧
        tail.isPrefixOf ([if b.spent then SPENT else UNSPENT] ++ b.transferHash.val) = true := by
  rw [bookingKey_eq, List.append_assoc,
    isPrefixOf_append_iff r.val _ b.realityId.val _ (r.property.trans b.realityId.property.symm),
    isPrefixOf_append_iff a.val _ b.addressHash.val _ (a.property.trans b.addressHash.property.symm)]
  constructor
  · rintro ⟨h1, h2, h3⟩
    exact ⟨(Subtype.ext h1).symm, (Subtype.ext h2).symm, h3⟩
  · rintro ⟨rfl, rfl, h3⟩
    exact ⟨rfl, rfl, h3⟩

theorem spent_isPrefixOf (s s1 : Fin 256) (t : List (Fin 256)) :
    ([s] : List (Fin 256)).isPrefixOf ([s1] ++ t) = true → s1 = s := by
  intro h
  have h2 := (isPrefixOf_append_iff [s] [] [s1] t rfl).mp (by simpa using h)
  have := h2.1
  simpa using this.symm

/-- C18, the claim as stated fails: with the filters (reality `exRA`, transfer T2) the
only prefix is the reality, the bookings are searched, and the two bookings of the
transfer T1 in `exRA` are selected; `ForEachTransferOutput` delivers the output of T1,
whose transfer is not the one supplied. -/
theorem generateFilterPrefixes_transfer_counterexample :
    (∀ f ∈ [Filter.realityId exRA, .transferHash exT2], f.Accepted exSPENT exUNSPENT) ∧
    generateFilterPrefixes exSPENT exUNSPENT [.realityId exRA, .transferHash exT2] =
      .ok ([exRA.val], true) ∧
    newTransferOutputBooking exRA exA1 false exT1 ∈ exMergeLedger.transferOutputBookings ∧
    exRA.val.isPrefixOf (bookingKey exSPENT exUNSPENT (newTransferOutputBooking exRA exA1 false exT1)) = true ∧
    (newTransferOutputBooking exRA exA1 false exT1).transferHash ∉
      suppliedTransfers [.realityId exRA, .transferHash exT2] ∧
    ForEachTransferOutput exSPENT exUNSPENT exMergeLedger (fun _ => true)
        [.realityId exRA, .transferHash exT2] =
      .ok [GetTransferOutput exMergeLedger ⟨exT1, exA1⟩, GetTransferOutput exMergeLedger ⟨exT1, exA1⟩] ∧
    (GetTransferOutput exMergeLedger ⟨exT1, exA1⟩).map TransferOutput.transferHash = some exT1 := by
  refine ⟨?_, by decide, by decide, by decide, by decide, by decide, by decide⟩
  intro f hf
  simp only [List.mem_cons, List.mem_singleton, List.not_mem_nil, or_false] at hf
  rcases hf with rfl | rfl <;> exact trivial

/-- C18, amended: for every filter list `generateFilterPrefixes` accepts that supplies
at least one `RealityId`, the bookings are searched, and every booking key selected by
one of the prefixes has its reality among the supplied `RealityId`s, its address among
the supplied `AddressHash`es (if any), and, when an `AddressHash` is supplied and
exactly one of SPENT, UNSPENT is supplied, its spent flag equal to the supplied one.
(`hne`: the two constants of `SpentIndicator` are different.) -/
theorem selected_booking_satisfies_filters (SPENT UNSPENT : Fin 256) (filters : List Filter)
    (hne : SPENT ≠ UNSPENT) (hacc : ∀ f ∈ filters, f.Accepted SPENT UNSPENT)
    (hreal : suppliedRealities filters ≠ []) :
    ∃ prefixes, generateFilterPrefixes SPENT UNSPENT filters = .ok (prefixes, true) ∧
      ∀ bytes ∈ prefixes, ∀ b : TransferOutputBooking,
        bytes.isPrefixOf (bookingKey SPENT UNSPENT b) = true →
        b.realityId ∈ suppliedRealities filters ∧
        (suppliedAddresses filters ≠ [] →
          b.addressHash ∈ suppliedAddresses filters ∧
          (indicatorSupplied SPENT filters = true → indicatorSupplied UNSPENT filters = false →
            b.spent = true) ∧
          (indicatorSupplied UNSPENT filters = true → indicatorSupplied SPENT filters = false →
            b.spent = false)) := by
  refine ⟨(compiledPrefixes SPENT UNSPENT filters).1, ?_, ?_⟩
  · rw [generateFilterPrefixes_eq_compiledPrefixes SPENT UNSPENT filters hne hacc]
    unfold compiledPrefixes
    rw [if_pos hreal]
  · intro bytes hbytes b hsel
    unfold compiledPrefixes at hbytes
    rw [if_pos hreal] at hbytes
    obtain ⟨r, hr, hb⟩ := List.mem_flatMap.mp hbytes
    by_cases ha : suppliedAddresses filters = []
    · rw [if_pos ha] at hb
      have e : bytes = r.val := by simpa using hb
      subst e
      have := (reality_isPrefixOf_bookingKey SPENT UNSPENT r b).mp hsel
      exact ⟨this ▸ hr, fun h => absurd ha h⟩
    · rw [if_neg ha] at hb
      obtain ⟨a, ha1, hb2⟩ := List.mem_map.mp hb
      have hspent : ∀ v : Fin 256, ([v] : List (Fin 256)).isPrefixOf
          ([if b.spent then SPENT else UNSPENT] ++ b.transferHash.val) = true →
          (if b.spent then SPENT else UNSPENT) = v := fun v h => spent_isPrefixOf v _ _ h
      cases hs : indicatorSupplied SPENT filters <;> cases hu : indicatorSupplied UNSPENT filters
      · -- neither indicator
        simp only [hs, hu, Bool.false_eq_true, false_and, and_false, if_false] at hb2
        subst hb2
        have h := (reality_address_isPrefixOf_bookingKey SPENT UNSPENT r a [] b).mp
          (by simpa using hsel)
        exact ⟨h.1 ▸ hr, fun _ => ⟨h.2.1 ▸ ha1, by simp, by simp⟩⟩
      · -- UNSPENT only
        simp only [hs, hu, Bool.false_eq_true, false_and, not_false_eq_true, and_self, if_false,
          if_true] at hb2
        subst hb2
        have h := (reality_address_isPrefixOf_bookingKey SPENT UNSPENT r a [UNSPENT] b).mp hsel
        have hv := hspent UNSPENT h.2.2
        refine ⟨h.1 ▸ hr, fun _ => ⟨h.2.1 ▸ ha1, by simp, fun _ _ => ?_⟩⟩
        cases hsp : b.spent with
        | false => rfl
        | true => rw [hsp] at hv; exact absurd hv hne
      · -- SPENT only
        simp only [hs, hu, Bool.false_eq_true, not_false_eq_true, and_self, if_true] at hb2
        subst hb2
        have h := (reality_address_isPrefixOf_bookingKey SPENT UNSPENT r a [SPENT] b).mp hsel
        have hv := hspent SPENT h.2.2
        refine ⟨h.1 ▸ hr, fun _ => ⟨h.2.1 ▸ ha1, fun _ _ => ?_, by simp⟩⟩
        cases hsp : b.spent with
        | true => rfl
        | false => rw [hsp] at hv; exact absurd hv.symm hne
      · -- both indicators
        simp only [hs, hu, not_true_eq_false, and_false, if_false] at hb2
        subst hb2
        have h := (reality_address_isPrefixOf_bookingKey SPENT UNSPENT r a [] b).mp
          (by simpa using hsel)
        exact ⟨h.1 ▸ hr, fun _ => ⟨h.2.1 ▸ ha1, by simp, by simp⟩⟩


/-- The amended C18 at the filters (reality `exRA`, address A1, SPENT): the prefix
selects the spent booking of (T1, A1) in `exRA`. -/
theorem selected_booking_satisfies_filters_witness :
    exSPENT ≠ exUNSPENT ∧
    (∀ f ∈ [Filter.realityId exRA, .addressHash exA1, .spentIndicator exSPENT],
      f.Accepted exSPENT exUNSPENT) ∧
    suppliedRealities [.realityId exRA, .addressHash exA1, .spentIndicator exSPENT] ≠ [] ∧
    (exRA.val ++ exA1.val ++ [exSPENT]).isPrefixOf
      (bookingKey exSPENT exUNSPENT (newTransferOutputBooking exRA exA1 true exT1)) = true ∧
    ∃ prefixes, generateFilterPrefixes exSPENT exUNSPENT
        [.realityId exRA, .addressHash exA1, .spentIndicator exSPENT] = .ok (prefixes, true) ∧
      ∀ bytes ∈ prefixes, ∀ b : TransferOutputBooking,
        bytes.isPrefixOf (bookingKey exSPENT exUNSPENT b) = true →
        b.realityId ∈ suppliedRealities [.realityId exRA, .addressHash exA1, .spentIndicator exSPENT] ∧
        (suppliedAddresses [.realityId exRA, .addressHash exA1, .spentIndicator exSPENT] ≠ [] →
          b.addressHash ∈ suppliedAddresses [.realityId exRA, .addressHash exA1, .spentIndicator exSPENT] ∧
          (indicatorSupplied exSPENT [.realityId exRA, .addressHash exA1, .spentIndicator exSPENT] = true →
            indicatorSupplied exUNSPENT [.realityId exRA, .addressHash exA1, .spentIndicator exSPENT] = false →
            b.spent = true) ∧
          (indicatorSupplied exUNSPENT [.realityId exRA, .addressHash exA1, .spentIndicator exSPENT] = true →
            indicatorSupplied exSPENT [.realityId exRA, .addressHash exA1, .spentIndicator exSPENT] = false →
            b.spent = false)) :=
  have hacc : ∀ f ∈ [Filter.realityId exRA, .addressHash exA1, .spentIndicator exSPENT],
      f.Accepted exSPENT exUNSPENT := by
    intro f hf
    simp only [List.mem_cons, List.mem_singleton, List.not_mem_nil, or_false] at hf
    rcases hf with rfl | rfl | rfl <;> first | exact trivial | exact Or.inl rfl
  ⟨by decide, hacc, by decide, by decide,
    selected_booking_satisfies_filters exSPENT exUNSPENT _ (by decide) hacc (by decide)⟩

theorem mem_forEachLoop {α : Type} (callback : α → Bool) (l : List α) (x : α)
    (h : x ∈ forEachLoop callback l) : x ∈ l := by
  induction l with
  | nil => simp [forEachLoop] at h
  | cons a l ih =>
    rw [forEachLoop] at h
    split at h
    · rcases List.mem_cons.mp h with rfl | h
      · exact List.mem_cons_self _ _
      · exact List.mem_cons_of_mem _ (ih h)
    · have e : x = a := by simpa using h
      exact e ▸ List.mem_cons_self _ _

theorem forEachLoop_of_true {α : Type} (callback : α → Bool) (l : List α)
    (h : ∀ x, callback x = true) : forEachLoop callback l = l := by
  induction l with
  | nil => rfl
  | cons a l ih => rw [forEachLoop, if_pos (h a), ih]

theorem mem_storageForEach {α : Type} (key : α → List (Fin 256)) (records : List α)
    (callback : α → Bool) (bytes : List (Fin 256)) (x : α)
    (h : x ∈ storageForEach key records callback (some bytes)) :
    x ∈ records ∧ bytes.isPrefixOf (key x) = true := by
  unfold storageForEach at h
  have h1 := mem_forEachLoop _ _ _ h
  have h2 := (List.perm_insertionSort _ _).mem_iff.mp h1
  exact List.mem_filter.mp h2

theorem mem_storageForEach_of_true {α : Type} (key : α → List (Fin 256)) (records : List α)
    (callback : α → Bool) (bytes : List (Fin 256)) (hcb : ∀ x, callback x = true) (x : α)
    (h1 : x ∈ records) (h2 : bytes.isPrefixOf (key x) = true) :
    x ∈ storageForEach key records callback (some bytes) := by
  unfold storageForEach
  rw [forEachLoop_of_true _ _ hcb]
  exact (List.perm_insertionSort _ _).mem_iff.mpr (List.mem_filter.mpr ⟨h1, h2⟩)

theorem generateFilterPrefixes_single_reality (SPENT UNSPENT : Fin 256) (R : RealityId) :
    generateFilterPrefixes SPENT UNSPENT [.realityId R] = .ok ([R.val], true) := by
  simp [generateFilterPrefixes, collectFilters, realityLoop]

/-- The ledger `exBranchedLedger` is the state the booking of the conflicting transfer
T4 leaves in `exSpentLedger`. -/
theorem BookTransfer_exT4Transfer :
    BookTransfer exBlake2b exMAIN exOrder exSpentLedger 3 exT4Transfer = .ok (none, exBranchedLedger) := by
  decide

/-- C19, the claim as stated fails: in `exBranchedLedger` the reality T4 is stored and
descends from the main reality, the output (T2, A2) of the main reality has no consumer
and its booking is the unspent one, and `ForEachTransferOutput` with the single filter
T4 calls the callback with the output of T4 only. -/
theorem ForEachTransferOutput_ancestry_counterexample :
    loadReality exBranchedLedger exT4 = some (newReality exT4 [exMAIN]) ∧
    DescendsFromReality exBranchedLedger 3 (newReality exT4 [exMAIN]) exMAIN = .ok true ∧
    GetTransferOutput exBranchedLedger ⟨exT2, exA2⟩ =
      some (NewTransferOutput exMAIN exT2 exA2 [⟨exIOTA, 100⟩]) ∧
    (NewTransferOutput exMAIN exT2 exA2 [⟨exIOTA, 100⟩]).consumers = [] ∧
    newTransferOutputBooking exMAIN exA2 false exT2 ∈ exBranchedLedger.transferOutputBookings ∧
    newTransferOutputBooking exMAIN exA2 true exT2 ∉ exBranchedLedger.transferOutputBookings ∧
    ForEachTransferOutput exSPENT exUNSPENT exBranchedLedger (fun _ => true) [.realityId exT4] =
      .ok [some (NewTransferOutput exT4 exT4 exA3 [⟨exIOTA, 100⟩])] := by
  refine ⟨by decide, by decide, by decide, rfl, by decide, by decide, by decide⟩

/-- C19, amended: `ForEachTransferOutput` called with the single filter R calls the
callback only with outputs that a booking of the reality R designates (by its transfer
and address), and, when the callback never ends the iteration, with the output of
every booking of R; the bookings of the ancestors of R are not visited. -/
theorem ForEachTransferOutput_single_reality (SPENT UNSPENT : Fin 256) (ls : LedgerState)
    (callback : Option TransferOutput → Bool) (R : RealityId) :
    ∃ delivered, ForEachTransferOutput SPENT UNSPENT ls callback [.realityId R] = .ok delivered ∧
      (∀ x ∈ delivered, ∃ b ∈ ls.transferOutputBookings, b.realityId = R ∧
        x = GetTransferOutput ls ⟨b.transferHash, b.addressHash⟩) ∧
      ((∀ x, callback x = true) → ∀ b ∈ ls.transferOutputBookings, b.realityId = R →
        GetTransferOutput ls ⟨b.transferHash, b.addressHash⟩ ∈ delivered) := by
  refine ⟨forEachBookingLoop SPENT UNSPENT ls callback [R.val], ?_, ?_, ?_⟩
  · unfold ForEachTransferOutput
    rw [generateFilterPrefixes_single_reality]
    rfl
  · intro x hx
    simp only [forEachBookingLoop, List.append_nil, List.mem_map] at hx
    obtain ⟨b, hb, rfl⟩ := hx
    obtain ⟨h1, h2⟩ := mem_storageForEach _ _ _ _ _ hb
    exact ⟨b, h1, (reality_isPrefixOf_bookingKey SPENT UNSPENT R b).mp h2, rfl⟩
  · intro hcb b hb hR
    simp only [forEachBookingLoop, List.append_nil, List.mem_map]
    exact ⟨b, mem_storageForEach_of_true _ _ _ _ (fun x => hcb _) b hb
      ((reality_isPrefixOf_bookingKey SPENT UNSPENT R b).mpr hR), rfl⟩


/-! ## The failure of the filter compilation (C21) -/

/-- The type switch ends in one of two ways: it returns the sets and every filter is
accepted, or it panics and a filter is not accepted. -/
theorem collectFilters_cases (SPENT UNSPENT : Fin 256) (filters : List Filter) (sets : FilterSets) :
    ((∃ s, collectFilters SPENT UNSPENT filters sets = .ok s) ∧
        ∀ f ∈ filters, f.Accepted SPENT UNSPENT) ∨
      (collectFilters SPENT UNSPENT filters sets = .fault .unknownFilter ∧
        ∃ f ∈ filters, ¬ f.Accepted SPENT UNSPENT) := by
  induction filters generalizing sets with
  | nil => exact Or.inl ⟨⟨sets, rfl⟩, fun f hf => absurd hf (List.not_mem_nil f)⟩
  | cons f rest ih =>
    have step : ∀ sets1 : FilterSets, f.Accepted SPENT UNSPENT →
        collectFilters SPENT UNSPENT (f :: rest) sets = collectFilters SPENT UNSPENT rest sets1 →
        ((∃ s, collectFilters SPENT UNSPENT (f :: rest) sets = .ok s) ∧
            ∀ g ∈ f :: rest, g.Accepted SPENT UNSPENT) ∨
          (collectFilters SPENT UNSPENT (f :: rest) sets = .fault .unknownFilter ∧
            ∃ g ∈ f :: rest, ¬ g.Accepted SPENT UNSPENT) := by
      intro sets1 hf heq
      rw [heq]
      rcases ih sets1 with ⟨hok, hall⟩ | ⟨hfault, g, hg, hbad⟩
      · refine Or.inl ⟨hok, ?_⟩
        intro g hg
        rcases List.mem_cons.mp hg with rfl | hg
        · exact hf
        · exact hall g hg
      · exact Or.inr ⟨hfault, g, List.mem_cons_of_mem _ hg, hbad⟩
    cases f with
    | realityId r => exact step _ trivial (by rw [collectFilters])
    | addressHash a => exact step _ trivial (by rw [collectFilters])
    | transferHash t => exact step _ trivial (by rw [collectFilters])
    | spentIndicator v =>
      by_cases h1 : v = SPENT
      · exact step _ (Or.inl h1) (by rw [collectFilters, if_pos h1])
      · by_cases h2 : v = UNSPENT
        · exact step _ (Or.inr h2) (by rw [collectFilters, if_neg h1, if_pos h2])
        · refine Or.inr ⟨by rw [collectFilters, if_neg h1, if_neg h2], _, List.mem_cons_self _ _, ?_⟩
          intro hacc
          rcases hacc with h | h
          · exact h1 h
          · exact h2 h
    | other =>
      refine Or.inr ⟨by rw [collectFilters], _, List.mem_cons_self _ _, ?_⟩
      intro hacc
      exact hacc

/-- The compilation of the filters ends in one of two ways: it returns and every filter
is accepted, or it panics and a filter is not accepted. -/
theorem generateFilterPrefixes_cases (SPENT UNSPENT : Fin 256) (filters : List Filter) :
    ((∃ result, generateFilterPrefixes SPENT UNSPENT filters = .ok result) ∧
        ∀ f ∈ filters, f.Accepted SPENT UNSPENT) ∨
      (generateFilterPrefixes SPENT UNSPENT filters = .fault .unknownFilter ∧
        ∃ f ∈ filters, ¬ f.Accepted SPENT UNSPENT) := by
  unfold generateFilterPrefixes
  rcases collectFilters_cases SPENT UNSPENT filters
      { filteredRealities := [], filteredAddresses := [], filteredTransfers := [],
        filterSpent := false, filterUnspent := false } with ⟨⟨s, hs⟩, hall⟩ | ⟨hfault, hbad⟩
  · refine Or.inl ⟨?_, hall⟩
    rw [hs]
    dsimp only
    split_ifs
    · exact ⟨_, rfl⟩
    · exact ⟨_, rfl⟩
    · exact ⟨_, rfl⟩
  · refine Or.inr ⟨?_, hbad⟩
    rw [hfault]

/-- C21: `generateFilterPrefixes` fails (it panics, which is the failure the spec names
BadFilter) exactly when the filter list holds a value that is not a `RealityId`, an
`AddressHash`, a `TransferHash` or a `SpentIndicator` equal to `SPENT` or `UNSPENT`, and
otherwise it returns; the same holds of `ForEachTransferOutput`, whatever the ledger
state and the callback. -/
theorem generateFilterPrefixes_fails_iff_bad_filter (SPENT UNSPENT : Fin 256) (filters : List Filter) :
    (generateFilterPrefixes SPENT UNSPENT filters = .fault .unknownFilter ↔
      ∃ f ∈ filters, ¬ f.Accepted SPENT UNSPENT) ∧
    ((∃ result, generateFilterPrefixes SPENT UNSPENT filters = .ok result) ↔
      ∀ f ∈ filters, f.Accepted SPENT UNSPENT) ∧
    (∀ (ls : LedgerState) (callback : Option TransferOutput → Bool),
      (ForEachTransferOutput SPENT UNSPENT ls callback filters = .fault .unknownFilter ↔
        ∃ f ∈ filters, ¬ f.Accepted SPENT UNSPENT) ∧
      ((∃ calls, ForEachTransferOutput SPENT UNSPENT ls callback filters = .ok calls) ↔
        ∀ f ∈ filters, f.Accepted SPENT UNSPENT)) := by
  rcases generateFilterPrefixes_cases SPENT UNSPENT filters with ⟨⟨result, hok⟩, hall⟩ | ⟨hfault, hbad⟩
  · have hnot : ¬ ∃ f ∈ filters, ¬ f.Accepted SPENT UNSPENT := by
      rintro ⟨f, hf, hb⟩
      exact hb (hall f hf)
    refine ⟨⟨fun h => ?_, fun h => absurd h hnot⟩, ⟨fun _ => hall, fun _ => ⟨result, hok⟩⟩, ?_⟩
    · rw [hok] at h
      cases h
    · intro ls callback
      have hfe : ∃ calls, ForEachTransferOutput SPENT UNSPENT ls callback filters = .ok calls := by
        unfold ForEachTransferOutput
        rw [hok]
        dsimp only
        split_ifs
        · exact ⟨_, rfl⟩
        · exact ⟨_, rfl⟩
        · exact ⟨_, rfl⟩
      refine ⟨⟨fun h => ?_, fun h => absurd h hnot⟩, ⟨fun _ => hall, fun _ => hfe⟩⟩
      obtain ⟨calls, hc⟩ := hfe
      rw [hc] at h
      cases h
  · have hnall : ¬ ∀ f ∈ filters, f.Accepted SPENT UNSPENT := by
      intro hall
      obtain ⟨f, hf, hb⟩ := hbad
      exact hb (hall f hf)
    refine ⟨⟨fun _ => hbad, fun _ => hfault⟩, ⟨fun h => ?_, fun h => absurd h hnall⟩, ?_⟩
    · obtain ⟨result, hr⟩ := h
      rw [hfault] at hr
      cases hr
    · intro ls callback
      have hfe : ForEachTransferOutput SPENT UNSPENT ls callback filters = .fault .unknownFilter := by
        unfold ForEachTransferOutput
        rw [hfault]
      refine ⟨⟨fun _ => hbad, fun _ => hfe⟩, ⟨fun h => ?_, fun h => absurd h hnall⟩⟩
      obtain ⟨calls, hc⟩ := h
      rw [hfe] at hc
      cases hc

/-- C21 at two lists: a spent indicator that is neither constant makes the compilation
fail, a list of a reality and the constant `SPENT` compiles. -/
theorem generateFilterPrefixes_fails_iff_bad_filter_witness :
    generateFilterPrefixes exSPENT exUNSPENT [.realityId exRA, .spentIndicator 2] = .fault .unknownFilter ∧
    generateFilterPrefixes exSPENT exUNSPENT [.realityId exRA, .spentIndicator exSPENT] =
      .ok ([exRA.val], true) :=
  ⟨(generateFilterPrefixes_fails_iff_bad_filter exSPENT exUNSPENT
      [.realityId exRA, .spentIndicator 2]).1.mpr
      ⟨.spentIndicator 2, List.mem_cons_of_mem _ (List.mem_cons_self _ _),
        fun h => h.elim (fun e => absurd e (by decide)) (fun e => absurd e (by decide))⟩,
    by decide⟩

/-! ## The conflict id (C22, C30) -/

/-- With both lengths 32, a call with two arguments whose first is a transfer hash
returns the digest of the transfer hash followed by itself. -/
theorem NewConflictId_of_transferHash (blake2b : List (Fin 256) → Bytes32) (t : TransferHash)
    (second : ConflictArg) :
    NewConflictId blake2b 32 32 [.transferHash t, second] = .ok (blake2b (t.val ++ t.val)) := by
  have hlen : t.val.length = 32 := t.property
  simp [NewConflictId, ConflictArg.asTransferHash, copyBytes, hlen, List.take_append_eq_append_take,
    List.drop_append_eq_append_drop, List.take_of_length_le, List.drop_of_length_le]

/-- C22: the conflict id of the transfer `exT1` and the address `exA1` is the digest of
`exT1 ‖ exT1`, which is not the digest of the 64 bytes `exT1 ‖ exA1`. -/
theorem NewConflictId_hashes_first_argument_twice :
    NewConflictId exBlake2bConflict 32 32 [.transferHash exT1, .addressHash exA1] = .ok exDigestT1T1 ∧
    exBlake2bConflict (exT1.val ++ exA1.val) = exDigestT1A1 ∧
    exDigestT1T1 ≠ exDigestT1A1 := by
  refine ⟨?_, by decide, by decide⟩
  rw [NewConflictId_of_transferHash]
  decide

/-- C30: the result of `NewConflictId` with two arguments does not depend on the second
argument, of whatever type: it is the same for all second arguments, it is the digest
of `t ‖ t` when the first argument is the transfer hash `t` (both lengths being 32),
and the call panics exactly when the first argument is not a `TransferHash`. -/
theorem NewConflictId_independent_of_second (blake2b : List (Fin 256) → Bytes32)
    (transferHashLength addressLength : Nat) (first a1 a2 : ConflictArg) :
    NewConflictId blake2b transferHashLength addressLength [first, a1] =
      NewConflictId blake2b transferHashLength addressLength [first, a2] ∧
    (∀ t : TransferHash, first = .transferHash t → transferHashLength = 32 → addressLength = 32 →
      NewConflictId blake2b transferHashLength addressLength [first, a1] = .ok (blake2b (t.val ++ t.val)) ∧
      NewConflictId blake2b transferHashLength addressLength [first, a2] = .ok (blake2b (t.val ++ t.val))) ∧
    ((∃ f, NewConflictId blake2b transferHashLength addressLength [first, a1] = .fault f) ↔
      ¬ ∃ t : TransferHash, first = .transferHash t) := by
  refine ⟨rfl, ?_, ?_⟩
  · intro t ht h1 h2
    subst ht h1 h2
    exact ⟨NewConflictId_of_transferHash blake2b t a1, NewConflictId_of_transferHash blake2b t a2⟩
  · cases first with
    | transferHash t =>
      constructor
      · rintro ⟨f, hf⟩
        simp [NewConflictId, ConflictArg.asTransferHash] at hf
      · intro h
        exact absurd ⟨t, rfl⟩ h
    | addressHash a =>
      constructor
      · rintro _ ⟨t, ht⟩
        cases ht
      · intro _
        exact ⟨.notTransferHash, rfl⟩
    | other =>
      constructor
      · rintro _ ⟨t, ht⟩
        cases ht
      · intro _
        exact ⟨.notTransferHash, rfl⟩

/-- C30 at the transfer `exT1`: an address and a value of another type as second
argument give the same conflict id, the digest of `exT1 ‖ exT1`. -/
theorem NewConflictId_independent_of_second_witness :
    NewConflictId exBlake2bConflict 32 32 [.transferHash exT1, .addressHash exA1] =
      .ok (exBlake2bConflict (exT1.val ++ exT1.val)) ∧
    NewConflictId exBlake2bConflict 32 32 [.transferHash exT1, .other] =
      .ok (exBlake2bConflict (exT1.val ++ exT1.val)) :=
  (NewConflictId_independent_of_second exBlake2bConflict 32 32 (.transferHash exT1) (.addressHash exA1)
    .other).2.1 exT1 rfl rfl rfl

/-! ## The empty transfer (C25) and a booking that ends with an error (C27) -/

/-- C25, the claim as stated fails: on the ledger that holds one output of the main
reality, the booking of the transfer with no input and no output returns no error (and
leaves the ledger as it is), not the balance-mismatch error. -/
theorem BookTransfer_empty_transfer_counterexample :
    BookTransfer exBlake2b exMAIN exOrder exLedger 3 exEmptyTransfer = .ok (none, exLedger) := by
  decide

/-- C25, amended: on a ledger in which the main reality is stored,
`LedgerState.BookTransfer` of a transfer with an empty input list and an empty output
map returns `nil` and leaves the ledger unchanged: the target is the main reality and
the balance check of no input and no output passes. -/
theorem BookTransfer_empty_transfer_accepted (blake2b : List (Fin 256) → Bytes32)
    (MAIN_REALITY_ID : RealityId)
    (order : Nat → List (RealityId × Reality) → List (RealityId × Reality))
    (ls : LedgerState) (fuel : Nat) (hash : TransferHash) (mainReality : Reality)
    (hmain : loadReality ls MAIN_REALITY_ID = some mainReality) :
    BookTransfer blake2b MAIN_REALITY_ID order ls fuel { hash := hash, inputs := [], outputs := [] } =
      .ok (none, ls) := by
  simp [BookTransfer, getTransferInputs, getTargetReality, inputRealityIds, MergeRealities, hmain,
    bookTransfer, checkTransferBalances, sumInputs, subOutputs, consumeInputs, bookTransferOutputs]

/-- C25, amended, at the new ledger state. -/
theorem BookTransfer_empty_transfer_accepted_witness :
    loadReality (NewLedgerState exMAIN) exMAIN = some (newReality exMAIN []) ∧
    BookTransfer exBlake2b exMAIN exOrder (NewLedgerState exMAIN) 0
        { hash := exT1, inputs := [], outputs := [] } = .ok (none, NewLedgerState exMAIN) :=
  ⟨by decide,
    BookTransfer_empty_transfer_accepted exBlake2b exMAIN exOrder (NewLedgerState exMAIN) 0 exT1
      (newReality exMAIN []) (by decide)⟩

/-- An error of `bookTransfer` is the error of the balance check, and the ledger is
the one the call started from. -/
theorem bookTransfer_error (ls : LedgerState) (fuel : Nat) (reality : Reality)
    (transferHash : TransferHash) (inputs : List (Option TransferOutput)) (outputs : OutputMap)
    (err : BookError) (ls1 : LedgerState)
    (h : bookTransfer ls fuel reality transferHash inputs outputs = .ok (some err, ls1)) :
    ls1 = ls ∧ checkTransferBalances ls fuel reality inputs outputs = .ok (some err) := by
  unfold bookTransfer at h
  split at h
  · cases h
  · rename_i err1 heq
    simp only [Outcome.ok.injEq, Prod.mk.injEq, Option.some.injEq] at h
    rw [← h.1, ← h.2]
    exact ⟨rfl, heq⟩
  · split at h
    · cases h
    · rename_i c err1 ls2 heq
      have := consumeInputs_no_error _ _ _ _ _ _ heq
      simp at this
    · simp at h
    · simp at h

/-- C27: when `LedgerState.BookTransfer` returns an error, the error is the one the
balance and reality check of the target reality returned, and the ledger is the one
the call started from: no output, no booking and no reality is stored, no consumer is
registered and a prepared aggregated target reality is not stored. -/
theorem BookTransfer_error_leaves_ledger (blake2b : List (Fin 256) → Bytes32)
    (MAIN_REALITY_ID : RealityId)
    (order : Nat → List (RealityId × Reality) → List (RealityId × Reality))
    (ls : LedgerState) (fuel : Nat) (transfer : Transfer) (err : BookError) (ls1 : LedgerState)
    (h : BookTransfer blake2b MAIN_REALITY_ID order ls fuel transfer = .ok (some err, ls1)) :
    ls1 = ls ∧
    ∃ targetReality,
      getTargetReality blake2b MAIN_REALITY_ID order ls fuel (getTransferInputs ls transfer) =
        .ok targetReality ∧
      checkTransferBalances ls fuel targetReality.reality (getTransferInputs ls transfer)
        transfer.outputs = .ok (some err) := by
  unfold BookTransfer at h
  dsimp only at h
  split at h
  · cases h
  · rename_i targetReality htarget
    split at h
    · cases h
    · rename_i bookingErr ls2 hbook
      simp only [Outcome.ok.injEq, Prod.mk.injEq, Option.some.injEq] at h
      obtain ⟨h1, h2⟩ := h
      subst h1 h2
      have hb := bookTransfer_error _ _ _ _ _ _ _ _ hbook
      exact ⟨hb.1, targetReality, htarget, hb.2⟩
    · simp at h

/-- C27 at a transfer whose target is a prepared aggregated reality: the transfer
spends 50 IOTA of `exRA` and 50 IOTA of `exRB` and pays out 90; the booking returns
the balance error and the ledger, in which the aggregated reality `exRC` is not
stored, is unchanged. -/
theorem BookTransfer_error_leaves_ledger_witness :
    BookTransfer exBlake2b exMAIN exOrder exBranchLedger 3 exShortJoinTransfer =
      .ok (some .balanceMismatch, exBranchLedger) ∧
    loadReality exBranchLedger exRC = none ∧
    exBranchLedger = exBranchLedger ∧
    ∃ targetReality,
      getTargetReality exBlake2b exMAIN exOrder exBranchLedger 3
          (getTransferInputs exBranchLedger exShortJoinTransfer) = .ok targetReality ∧
      checkTransferBalances exBranchLedger 3 targetReality.reality
          (getTransferInputs exBranchLedger exShortJoinTransfer) exShortJoinTransfer.outputs =
        .ok (some .balanceMismatch) :=
  ⟨by decide, by decide,
    BookTransfer_error_leaves_ledger exBlake2b exMAIN exOrder exBranchLedger 3 exShortJoinTransfer
      .balanceMismatch exBranchLedger (by decide)⟩

/-! ## The balance check, color by color (C26) -/

/-- The map the two loops of the balance check leave is empty exactly when every color
of an output has congruent sums and every color of an input is a color of an output. -/
theorem subBalances_addBalances_length (ins outs : List ColoredBalance) :
    (subBalances (addBalances [] ins) outs).length = 0 ↔
      ∀ c, (c ∈ colorsOf outs → colorSum ins c % 2 ^ 64 = colorSum outs c % 2 ^ 64) ∧
        (c ∉ colorsOf outs → c ∉ colorsOf ins) := by
  rw [length_eq_zero_iff_no_key]
  have hin := fun c => balanceGet_addBalances [] ins c
  have hout := fun c => balanceGet_subBalances (addBalances [] ins) outs c
  have hget0 : ∀ c, balanceGet ([] : BalanceMap) c = 0 := fun _ => rfl
  constructor
  · intro hnone c
    have h1 := hin c
    have h2 := hout c
    rw [hget0] at h1
    constructor
    · intro hc
      obtain ⟨hkey, _⟩ := subBalances_seen (addBalances [] ins) outs c hc
      have hz : balanceGet (subBalances (addBalances [] ins) outs) c = 0 := by
        by_contra hnz
        exact hnone c (hkey.mpr hnz)
      rw [hz] at h2
      omega
    · intro hc hci
      apply hnone c
      rw [(subBalances_other _ _ c hc).2, mem_keys_addBalances]
      exact Or.inr hci
  · intro hsum c
    have h1 := hin c
    have h2 := hout c
    rw [hget0] at h1
    by_cases hc : c ∈ colorsOf outs
    · have h3 := (hsum c).1 hc
      obtain ⟨hkey, hlt⟩ := subBalances_seen (addBalances [] ins) outs c hc
      rw [hkey]
      simp only [ne_eq, not_not]
      omega
    · have hci := (hsum c).2 hc
      rw [(subBalances_other _ _ c hc).2, mem_keys_addBalances]
      simp [hci]

/-- The balances of two output maps with the same entries, visited in two orders, are
the same up to their order. -/
theorem outputBalances_perm (outputs outputs1 : OutputMap) (h : outputs.Perm outputs1) :
    (outputBalances outputs).Perm (outputBalances outputs1) := by
  induction h with
  | nil => exact List.Perm.refl _
  | cons x _ ih =>
    simp only [outputBalances]
    exact List.Perm.append_left _ ih
  | swap x y l =>
    simp only [outputBalances]
    rw [← List.append_assoc, ← List.append_assoc]
    exact List.Perm.append_right _ List.perm_append_comm
  | trans _ _ ih1 ih2 => exact ih1.trans ih2

/-- The sum of a color does not depend on the order of the balances. -/
theorem colorSum_perm (as bs : List ColoredBalance) (h : as.Perm bs) (c : Color) :
    colorSum as c = colorSum bs c := by
  unfold colorSum
  exact ((h.filter _).map _).sum_eq

/-- The colors that occur do not depend on the order of the balances. -/
theorem mem_colorsOf_perm (as bs : List ColoredBalance) (h : as.Perm bs) (c : Color) :
    c ∈ colorsOf as ↔ c ∈ colorsOf bs := by
  unfold colorsOf
  exact (h.map _).mem_iff

/-- C26: for inputs that all exist in realities the target descends from,
`checkTransferBalances` succeeds exactly when, for every color, the input sum and the
output sum are congruent modulo 2^64 if the color occurs in an output balance, and the
color occurs in no input balance (not even with the value 0) if it occurs in no output
balance; otherwise it returns the balance-mismatch error; and the result is the same
for every order in which the output map is visited. -/
theorem checkTransferBalances_iff_colorwise (ls : LedgerState) (fuel : Nat) (reality : Reality)
    (inputs : List TransferOutput) (outputs : OutputMap)
    (h : ∀ o ∈ inputs, DescendsFromReality ls fuel reality o.realityId = .ok true) :
    (checkTransferBalances ls fuel reality (inputs.map some) outputs = .ok none ↔
      ∀ c, (c ∈ colorsOf (outputBalances outputs) →
          colorSum (inputBalances inputs) c % 2 ^ 64 = colorSum (outputBalances outputs) c % 2 ^ 64) ∧
        (c ∉ colorsOf (outputBalances outputs) → c ∉ colorsOf (inputBalances inputs))) ∧
    (checkTransferBalances ls fuel reality (inputs.map some) outputs ≠ .ok none →
      checkTransferBalances ls fuel reality (inputs.map some) outputs = .ok (some .balanceMismatch)) ∧
    (∀ outputs1 : OutputMap, outputs.Perm outputs1 →
      checkTransferBalances ls fuel reality (inputs.map some) outputs1 =
        checkTransferBalances ls fuel reality (inputs.map some) outputs) := by
  have hlen : ∀ outs : OutputMap,
      (checkTransferBalances ls fuel reality (inputs.map some) outs = .ok none ↔
        (subBalances (addBalances [] (inputBalances inputs)) (outputBalances outs)).length = 0) ∧
      (checkTransferBalances ls fuel reality (inputs.map some) outs ≠ .ok none →
        checkTransferBalances ls fuel reality (inputs.map some) outs = .ok (some .balanceMismatch)) := by
    intro outs
    rw [checkTransferBalances_eq ls fuel reality inputs outs h]
    by_cases hz : (subBalances (addBalances [] (inputBalances inputs)) (outputBalances outs)).length = 0
    · simp [hz]
    · simp [hz]
  refine ⟨?_, (hlen outputs).2, ?_⟩
  · rw [(hlen outputs).1]
    exact subBalances_addBalances_length _ _
  · intro outputs1 hperm
    have hp := outputBalances_perm outputs outputs1 hperm
    have hiff : (subBalances (addBalances [] (inputBalances inputs)) (outputBalances outputs1)).length = 0 ↔
        (subBalances (addBalances [] (inputBalances inputs)) (outputBalances outputs)).length = 0 := by
      rw [subBalances_addBalances_length, subBalances_addBalances_length]
      constructor
      · intro hall c
        have hc := hall c
        rw [← colorSum_perm _ _ hp c, ← mem_colorsOf_perm _ _ hp c] at hc
        exact hc
      · intro hall c
        have hc := hall c
        rw [colorSum_perm _ _ hp c, mem_colorsOf_perm _ _ hp c] at hc
        exact hc
    by_cases hok : checkTransferBalances ls fuel reality (inputs.map some) outputs = .ok none
    · rw [hok]
      exact (hlen outputs1).1.mpr (hiff.mpr ((hlen outputs).1.mp hok))
    · have hok1 : checkTransferBalances ls fuel reality (inputs.map some) outputs1 ≠ .ok none :=
        fun h1 => hok ((hlen outputs).1.mpr (hiff.mp ((hlen outputs1).1.mp h1)))
      rw [(hlen outputs).2 hok, (hlen outputs1).2 hok1]

/-- C26 at an input of 100 IOTA paid out as 60 and 40 to two addresses: the check
passes, in both orders of the output map, and an input of 0 IOTA with no output does
not pass. -/
theorem checkTransferBalances_iff_colorwise_witness :
    checkTransferBalances exLedger 0 exMainReality ([exInput].map some)
        [(exA3, [⟨exIOTA, 40⟩]), (exA2, [⟨exIOTA, 60⟩])] =
      checkTransferBalances exLedger 0 exMainReality ([exInput].map some)
        [(exA2, [⟨exIOTA, 60⟩]), (exA3, [⟨exIOTA, 40⟩])] ∧
    checkTransferBalances exLedger 0 exMainReality ([exInput].map some)
        [(exA2, [⟨exIOTA, 60⟩]), (exA3, [⟨exIOTA, 40⟩])] = .ok none ∧
    checkTransferBalances exLedger 0 exMainReality ([exZeroInput].map some) [] =
      .ok (some .balanceMismatch) :=
  ⟨(checkTransferBalances_iff_colorwise exLedger 0 exMainReality [exInput]
      [(exA2, [⟨exIOTA, 60⟩]), (exA3, [⟨exIOTA, 40⟩])] (by decide)).2.2 _ (List.Perm.swap _ _ _),
    by decide, by decide⟩

/-! ## A callback that returns false (C28) -/

theorem storageForEach_eq {α : Type} (key : α → List (Fin 256)) (records : List α)
    (callback : α → Bool) (start : Option (List (Fin 256))) :
    storageForEach key records callback start =
      forEachLoop callback (storageStream key records start) := rfl

/-- The first record of a stream is handed to the callback. -/
theorem forEachLoop_cons {α : Type} (callback : α → Bool) (first : α) (rest : List α) :
    ∃ tail, forEachLoop callback (first :: rest) = first :: tail := by
  rw [forEachLoop]
  split
  · exact ⟨_, rfl⟩
  · exact ⟨_, rfl⟩

/-- Within one `ForEach` the callback has returned true for every record but the last
it was handed. -/
theorem forEachLoop_map_true_before {α β : Type} (f : α → β) (callback : β → Bool) (l : List α)
    (before : List β) (x y : β) (after : List β)
    (h : (forEachLoop (fun a => callback (f a)) l).map f = before ++ x :: y :: after) :
    callback x = true := by
  induction l generalizing before with
  | nil => simp [forEachLoop] at h
  | cons a l ih =>
    rw [forEachLoop] at h
    split at h
    · rename_i hcb
      cases before with
      | nil =>
        simp only [List.map_cons, List.nil_append, List.cons.injEq] at h
        rw [← h.1]
        exact hcb
      | cons b before =>
        simp only [List.map_cons, List.cons_append, List.cons.injEq] at h
        exact ih before h.2
    · cases before with
      | nil => simp at h
      | cons b before => simp at h

theorem forEachBookingLoop_append (SPENT UNSPENT : Fin 256) (ls : LedgerState)
    (callback : Option TransferOutput → Bool) (pre post : List (List (Fin 256))) :
    forEachBookingLoop SPENT UNSPENT ls callback (pre ++ post) =
      forEachBookingLoop SPENT UNSPENT ls callback pre ++
        forEachBookingLoop SPENT UNSPENT ls callback post := by
  induction pre with
  | nil => rfl
  | cons p pre ih =>
    show forEachBookingLoop SPENT UNSPENT ls callback (p :: (pre ++ post)) = _
    rw [forEachBookingLoop, ih, forEachBookingLoop, List.append_assoc]

theorem forEachOutputLoop_append (ls : LedgerState)
    (callback : Option TransferOutput → Bool) (pre post : List (List (Fin 256))) :
    forEachOutputLoop ls callback (pre ++ post) =
      forEachOutputLoop ls callback pre ++ forEachOutputLoop ls callback post := by
  induction pre with
  | nil => rfl
  | cons p pre ih =>
    show forEachOutputLoop ls callback (p :: (pre ++ post)) = _
    rw [forEachOutputLoop, ih, forEachOutputLoop, List.append_assoc]

/-- C28: in `ForEachTransferOutput` a false return of the callback ends the scan of one
prefix only.  Whatever the callback returned during the scans of the earlier prefixes
(the calls of these scans come first), the scan of every later prefix runs and the
callback is called with the first record of its stream; and when the filters compile
to at most one prefix the callback has returned true for every call but the last. -/
theorem ForEachTransferOutput_false_ends_one_prefix (SPENT UNSPENT : Fin 256) (ls : LedgerState)
    (callback : Option TransferOutput → Bool) (filters : List Filter)
    (prefixes : List (List (Fin 256))) (searchBookings : Bool)
    (hp : generateFilterPrefixes SPENT UNSPENT filters = .ok (prefixes, searchBookings)) :
    ∃ calls, ForEachTransferOutput SPENT UNSPENT ls callback filters = .ok calls ∧
      (∀ pre bytes post, prefixes = pre ++ bytes :: post →
        (searchBookings = true → ∀ first rest,
          storageStream (bookingKey SPENT UNSPENT) ls.transferOutputBookings (some bytes) = first :: rest →
          ∃ after, calls = forEachBookingLoop SPENT UNSPENT ls callback pre ++
            GetTransferOutput ls ⟨first.transferHash, first.addressHash⟩ :: after) ∧
        (searchBookings = false → ∀ first rest,
          storageStream outputStorageKey ls.transferOutputs (some bytes) = first :: rest →
          ∃ after, calls = forEachOutputLoop ls callback pre ++ some first :: after)) ∧
      (prefixes.length ≤ 1 →
        ∀ before x y after, calls = before ++ x :: y :: after → callback x = true) := by
  unfold ForEachTransferOutput
  rw [hp]
  dsimp only
  cases searchBookings with
  | true =>
    refine ⟨forEachBookingLoop SPENT UNSPENT ls callback prefixes, by rw [if_pos rfl], ?_, ?_⟩
    · intro pre bytes post hpre
      subst hpre
      refine ⟨?_, fun h => by cases h⟩
      intro _ first rest hs
      rw [forEachBookingLoop_append, forEachBookingLoop, storageForEach_eq, hs]
      obtain ⟨tail, ht⟩ := forEachLoop_cons
        (fun booking : TransferOutputBooking =>
          callback (GetTransferOutput ls ⟨booking.transferHash, booking.addressHash⟩)) first rest
      rw [ht]
      exact ⟨tail.map (fun booking : TransferOutputBooking =>
          GetTransferOutput ls ⟨booking.transferHash, booking.addressHash⟩) ++
        forEachBookingLoop SPENT UNSPENT ls callback post, rfl⟩
    · intro hlen before x y after hcalls
      match prefixes, hlen with
      | [], _ => simp [forEachBookingLoop] at hcalls
      | [bytes], _ =>
        simp only [forEachBookingLoop, List.append_nil, storageForEach_eq] at hcalls
        exact forEachLoop_map_true_before
          (fun booking : TransferOutputBooking =>
            GetTransferOutput ls ⟨booking.transferHash, booking.addressHash⟩)
          callback _ before x y after hcalls
      | _ :: _ :: _, h => simp at h
  | false =>
    match prefixes with
    | [] =>
      refine ⟨(storageForEach outputStorageKey ls.transferOutputs (fun o => callback (some o)) none).map some,
        by simp, ?_, ?_⟩
      · intro pre bytes post hpre
        simp at hpre
      · intro _ before x y after hcalls
        rw [storageForEach_eq] at hcalls
        exact forEachLoop_map_true_before some callback _ before x y after hcalls
    | p :: ps =>
      refine ⟨forEachOutputLoop ls callback (p :: ps), by simp, ?_, ?_⟩
      · intro pre bytes post hpre
        rw [hpre]
        refine ⟨fun h => Bool.noConfusion h, ?_⟩
        intro _ first rest hs
        rw [forEachOutputLoop_append, forEachOutputLoop, storageForEach_eq, hs]
        obtain ⟨tail, ht⟩ := forEachLoop_cons (fun o : TransferOutput => callback (some o)) first rest
        rw [ht]
        exact ⟨tail.map some ++ forEachOutputLoop ls callback post, rfl⟩
      · intro hlen before x y after hcalls
        match ps, hlen with
        | [], _ =>
          simp only [forEachOutputLoop, List.append_nil, storageForEach_eq] at hcalls
          exact forEachLoop_map_true_before some callback _ before x y after hcalls
        | _ :: _, h => simp at h

/-- C28 in the ledger `exMergeLedger`, with a callback that always returns false and
the filters `exRA` and `exRB`, which compile to two prefixes: the callback is called
twice, for the first booking of `exRA` and, after it returned false, for the first
booking of `exRB`. -/
theorem ForEachTransferOutput_false_ends_one_prefix_witness :
    generateFilterPrefixes exSPENT exUNSPENT [.realityId exRA, .realityId exRB] =
      .ok ([exRA.val, exRB.val], true) ∧
    ForEachTransferOutput exSPENT exUNSPENT exMergeLedger (fun _ => false)
        [.realityId exRA, .realityId exRB] =
      .ok [GetTransferOutput exMergeLedger ⟨exT1, exA1⟩, GetTransferOutput exMergeLedger ⟨exT2, exA2⟩] ∧
    ∃ calls, ForEachTransferOutput exSPENT exUNSPENT exMergeLedger (fun _ => false)
        [.realityId exRA, .realityId exRB] = .ok calls ∧
      ∃ after, calls = forEachBookingLoop exSPENT exUNSPENT exMergeLedger (fun _ => false) [exRA.val] ++
        GetTransferOutput exMergeLedger ⟨exT2, exA2⟩ :: after := by
  refine ⟨by decide, by decide, ?_⟩
  obtain ⟨calls, hc, hscan, _⟩ :=
    ForEachTransferOutput_false_ends_one_prefix exSPENT exUNSPENT exMergeLedger (fun _ => false)
      [.realityId exRA, .realityId exRB] [exRA.val, exRB.val] true (by decide)
  exact ⟨calls, hc, (hscan [exRA.val] exRB.val [] rfl).1 rfl
    (newTransferOutputBooking exRB exA2 false exT2) [newTransferOutputBooking exRB exA2 true exT2]
    (by decide)⟩

/-! ## The parent graph in the states the operations reach (C23, C24) -/

/-- C23, the claim as stated fails: `CreateReality(MAIN_REALITY_ID)` on the new ledger
state stores the main reality again, with the parent list [MAIN_REALITY_ID] in the
place of the empty one: the main reality is its own parent, a cycle. -/
theorem CreateReality_main_cycle_counterexample :
    Reachable exBlake2b exMAIN (LedgerState.CreateReality exMAIN (NewLedgerState exMAIN) exMAIN) ∧
    loadReality (NewLedgerState exMAIN) exMAIN = some (newReality exMAIN []) ∧
    loadReality (LedgerState.CreateReality exMAIN (NewLedgerState exMAIN) exMAIN) exMAIN =
      some (newReality exMAIN [exMAIN]) ∧
    ¬ Acyclic (LedgerState.CreateReality exMAIN (NewLedgerState exMAIN) exMAIN) := by
  refine ⟨Reachable.step _ _ Reachable.init (Step.createReality _ _), by decide, by decide, ?_⟩
  intro hac
  exact hac exMAIN (Relation.TransGen.single ⟨newReality exMAIN [exMAIN], by decide, by decide⟩)

/-- C24, the claim as stated fails: in the state with the children `exRA` and `exRB` of
the main reality, `MergeRealities(exRA, exRB)` returns a reality that is prepared and
not stored, and `CreateReality(exT4)` on it stores a reality whose parent, the
aggregated reality, is not stored. -/
theorem CreateReality_on_prepared_counterexample :
    Reachable exBlake2b exMAIN exTwoChildren ∧
    MergeRealities exBlake2b exMAIN exOrder exTwoChildren 3 [exRA, exRB] =
      .ok { reality := exRealityC, isStored := false } ∧
    loadReality (CreateReality exTwoChildren exRealityC exT4).2 exT4 = some (newReality exT4 [exRC]) ∧
    loadReality (CreateReality exTwoChildren exRealityC exT4).2 exRC = none ∧
    ¬ ClosedUnderParents (CreateReality exTwoChildren exRealityC exT4).2 := by
  refine ⟨Reachable.step _ _ (Reachable.step _ _ Reachable.init (Step.createReality _ _))
    (Step.createReality _ _), by decide, by decide, by decide, ?_⟩
  intro hcl
  obtain ⟨rp, hrp⟩ := hcl exT4 (newReality exT4 [exRC]) (by decide) exRC (by decide)
  have hnone : loadReality (CreateReality exTwoChildren exRealityC exT4).2 exRC = none := by decide
  rw [hnone] at hrp
  cases hrp

/-- What is loaded after a store: the stored record under its id, what was loaded
before under every other id. -/
theorem loadReality_storeReality_eq (ls : LedgerState) (r : Reality) (id : RealityId) :
    loadReality (storeReality ls r) id = if r.id = id then some r else loadReality ls id := by
  by_cases e : r.id = id
  · rw [if_pos e, ← e, loadReality_storeReality]
  · rw [if_neg e]
    unfold loadReality storeReality
    simp only [List.find?_cons, decide_eq_false e]
    rw [find?_filter_of_imp]
    intro a ha
    have ha2 : a.id = id := of_decide_eq_true ha
    exact decide_eq_true (fun e2 => e (e2.symm.trans ha2))

/-- What is loaded depends on the realities keyspace only. -/
theorem loadReality_of_realities (ls ls1 : LedgerState) (h : ls1.realities = ls.realities)
    (id : RealityId) : loadReality ls1 id = loadReality ls id := by
  unfold loadReality
  rw [h]

theorem storeReality_realities_of_realities (ls ls1 : LedgerState) (h : ls1.realities = ls.realities)
    (r : Reality) : (storeReality ls1 r).realities = (storeReality ls r).realities := by
  unfold storeReality
  simp only [h]

/-- The parent graph is closed in a state in which everything that was stored is
still stored and every record either was stored before or has stored parents. -/
theorem closedUnderParents_of_extension (ls ls1 : LedgerState) (hcl : ClosedUnderParents ls)
    (hmono : ∀ id r, loadReality ls id = some r → ∃ r1, loadReality ls1 id = some r1)
    (hnew : ∀ id r, loadReality ls1 id = some r →
      loadReality ls id = some r ∨ ∀ p ∈ r.parentRealities, ∃ rp, loadReality ls1 p = some rp) :
    ClosedUnderParents ls1 := by
  intro id r hr p hp
  rcases hnew id r hr with hold | hpar
  · obtain ⟨rp, hrp⟩ := hcl id r hold p hp
    exact hmono p rp hrp
  · exact hpar p hp

/-- The new ledger state and the pruned one: the main reality, with no parent. -/
theorem loadReality_Prune (MAIN_REALITY_ID : RealityId) (ls : LedgerState) (id : RealityId) :
    loadReality (Prune MAIN_REALITY_ID ls) id =
      if MAIN_REALITY_ID = id then some (newReality MAIN_REALITY_ID []) else none := by
  unfold Prune
  rw [loadReality_storeReality_eq]
  rfl

theorem loadReality_NewLedgerState_eq (MAIN_REALITY_ID : RealityId) (id : RealityId) :
    loadReality (NewLedgerState MAIN_REALITY_ID) id =
      if MAIN_REALITY_ID = id then some (newReality MAIN_REALITY_ID []) else none := by
  unfold loadReality NewLedgerState
  by_cases e : MAIN_REALITY_ID = id
  · simp [List.find?_cons, newReality, e]
  · simp [List.find?_cons, newReality, e]

/-- The loop `AGGREGATE_REALITIES` keeps the map one of stored realities. -/
theorem aggregateRealities_allStored
    (order : Nat → List (RealityId × Reality) → List (RealityId × Reality))
    (ls : LedgerState) (fuel : Nat) (ids : List RealityId) (k : Nat)
    (agg agg1 : List (RealityId × Reality)) (hagg : AllStored ls agg)
    (h : aggregateRealities order ls fuel k ids agg = .ok agg1) : AllStored ls agg1 := by
  induction ids generalizing k agg with
  | nil =>
    simp only [aggregateRealities, Outcome.ok.injEq] at h
    rw [← h]
    exact hagg
  | cons realityId rest ih =>
    rw [aggregateRealities] at h
    split at h
    · exact ih (k + 1) agg hagg h
    · split at h
      · cases h
      · rename_i reality hload
        split at h
        · cases h
        · exact ih (k + 1) agg hagg h
        · refine ih (k + 1) _ ?_ h
          intro q hq
          rcases List.mem_cons.mp hq with rfl | hq
          · show loadReality ls reality.id = some reality
            rw [loadReality_id hload]
            exact hload
          · exact hagg q (List.mem_of_mem_filter (List.mem_of_mem_filter hq))
        · refine ih (k + 1) _ ?_ h
          intro q hq
          rcases List.mem_cons.mp hq with rfl | hq
          · exact hload
          · exact hagg q (List.mem_of_mem_filter hq)

/-- What `MergeRealities` returns: a stored reality, as it is stored, or a prepared
reality whose parents are stored. -/
theorem MergeRealities_stored_or_prepared (blake2b : List (Fin 256) → Bytes32)
    (MAIN_REALITY_ID : RealityId)
    (order : Nat → List (RealityId × Reality) → List (RealityId × Reality)) (hord : IsRangeOrder order)
    (ls : LedgerState) (fuel : Nat) (realityIds : List RealityId) (target : CachedReality)
    (h : MergeRealities blake2b MAIN_REALITY_ID order ls fuel realityIds = .ok target) :
    (target.isStored = true → loadReality ls target.reality.id = some target.reality) ∧
    (target.isStored = false →
      ∀ p ∈ target.reality.parentRealities, ∃ rp, loadReality ls p = some rp) := by
  have hloaded : ∀ (id : RealityId) (r : Reality), loadReality ls id = some r →
      ∀ t : CachedReality, (Outcome.ok { reality := r, isStored := true } : Outcome CachedReality) = .ok t →
      (t.isStored = true → loadReality ls t.reality.id = some t.reality) ∧
      (t.isStored = false → ∀ p ∈ t.reality.parentRealities, ∃ rp, loadReality ls p = some rp) := by
    intro id r hr t ht
    simp only [Outcome.ok.injEq] at ht
    subst ht
    refine ⟨fun _ => ?_, fun hf => by cases hf⟩
    show loadReality ls r.id = some r
    rw [loadReality_id hr]
    exact hr
  match realityIds, h with
  | [], h =>
    unfold MergeRealities at h
    dsimp only at h
    split at h
    · cases h
    · rename_i r hr
      exact hloaded _ r hr target h
  | [realityId], h =>
    unfold MergeRealities at h
    dsimp only at h
    split at h
    · cases h
    · rename_i r hr
      exact hloaded _ r hr target h
  | a :: b :: rest, h =>
    unfold MergeRealities at h
    dsimp only at h
    split at h
    · cases h
    · rename_i k r hagg
      have hst := aggregateRealities_allStored order ls fuel _ 0 [] _
        (fun q hq => absurd hq (List.not_mem_nil q)) hagg
      exact hloaded k r (hst (k, r) (List.mem_singleton.mpr rfl)) target h
    · rename_i agg hne hagg
      have hst := aggregateRealities_allStored order ls fuel _ 0 [] _
        (fun q hq => absurd hq (List.not_mem_nil q)) hagg
      simp only [Outcome.ok.injEq] at h
      subst h
      refine ⟨fun hf => Bool.noConfusion hf, fun _ p hp => ?_⟩
      obtain ⟨q, hq, hqp⟩ := (mem_sortRealityIds hord _ agg p).mp hp
      exact ⟨q.2, hqp ▸ hst q hq⟩

/-- The realities `bookTransfer` leaves: those it started from or, when the transfer
is conflicting, these and the branch reality. -/
theorem bookTransfer_realities (ls : LedgerState) (fuel : Nat) (reality : Reality)
    (transferHash : TransferHash) (inputs : List (Option TransferOutput)) (outputs : OutputMap)
    (err : Option BookError) (ls1 : LedgerState)
    (h : bookTransfer ls fuel reality transferHash inputs outputs = .ok (err, ls1)) :
    ls1.realities = ls.realities ∨
      (err = none ∧
        ls1.realities = (storeReality ls (newReality transferHash [reality.id])).realities) := by
  unfold bookTransfer at h
  split at h
  · cases h
  · simp only [Outcome.ok.injEq, Prod.mk.injEq] at h
    rw [← h.2]
    exact Or.inl rfl
  · split at h
    · cases h
    · rename_i c err1 ls2 heq
      simp only [Outcome.ok.injEq, Prod.mk.injEq] at h
      rw [← h.2]
      exact Or.inl (consumeInputs_preserves _ _ _ _ _ _ heq).1
    · rename_i ls2 heq
      simp only [Outcome.ok.injEq, Prod.mk.injEq] at h
      refine Or.inr ⟨h.1.symm, ?_⟩
      rw [← h.2, bookTransferOutputs_realities]
      exact storeReality_realities_of_realities ls ls2 (consumeInputs_preserves _ _ _ _ _ _ heq).1 _
    · rename_i ls2 heq
      simp only [Outcome.ok.injEq, Prod.mk.injEq] at h
      rw [← h.2, bookTransferOutputs_realities]
      exact Or.inl (consumeInputs_preserves _ _ _ _ _ _ heq).1

/-- The realities `LedgerState.BookTransfer` leaves, by its target reality: those it
started from, to which the branch reality of a conflicting transfer and a prepared
target reality are added. -/
theorem BookTransfer_realities (blake2b : List (Fin 256) → Bytes32) (MAIN_REALITY_ID : RealityId)
    (order : Nat → List (RealityId × Reality) → List (RealityId × Reality)) (hord : IsRangeOrder order)
    (ls : LedgerState) (fuel : Nat) (transfer : Transfer) (err : Option BookError) (ls1 : LedgerState)
    (h : BookTransfer blake2b MAIN_REALITY_ID order ls fuel transfer = .ok (err, ls1)) :
    ∃ target : CachedReality,
      (target.isStored = true → loadReality ls target.reality.id = some target.reality) ∧
      (target.isStored = false →
        ∀ p ∈ target.reality.parentRealities, ∃ rp, loadReality ls p = some rp) ∧
      (ls1.realities = ls.realities ∨
        (target.isStored = true ∧
          ls1.realities = (storeReality ls (newReality transfer.hash [target.reality.id])).realities) ∨
        (target.isStored = false ∧ ls1.realities = (storeReality ls target.reality).realities) ∨
        (target.isStored = false ∧
          ls1.realities =
            (storeReality (storeReality ls (newReality transfer.hash [target.reality.id]))
              target.reality).realities)) := by
  unfold BookTransfer at h
  dsimp only at h
  split at h
  · cases h
  · rename_i target htarget
    have hmerge : (target.isStored = true → loadReality ls target.reality.id = some target.reality) ∧
        (target.isStored = false →
          ∀ p ∈ target.reality.parentRealities, ∃ rp, loadReality ls p = some rp) := by
      unfold getTargetReality at htarget
      split at htarget
      · cases htarget
      · exact MergeRealities_stored_or_prepared blake2b MAIN_REALITY_ID order hord ls fuel _ target htarget
    refine ⟨target, hmerge.1, hmerge.2, ?_⟩
    split at h
    · cases h
    · rename_i bookingErr ls2 hbook
      simp only [Outcome.ok.injEq, Prod.mk.injEq] at h
      rw [← h.2, (bookTransfer_error _ _ _ _ _ _ _ _ hbook).1]
      exact Or.inl rfl
    · rename_i ls2 hbook
      simp only [Outcome.ok.injEq, Prod.mk.injEq] at h
      rw [← h.2]
      rcases bookTransfer_realities _ _ _ _ _ _ _ _ hbook with hsame | ⟨_, hbranch⟩
      · cases hst : target.isStored with
        | true =>
          rw [if_pos rfl]
          exact Or.inl hsame
        | false =>
          rw [if_neg (by decide)]
          exact Or.inr (Or.inr (Or.inl ⟨rfl, storeReality_realities_of_realities ls ls2 hsame _⟩))
      · cases hst : target.isStored with
        | true =>
          rw [if_pos rfl]
          exact Or.inr (Or.inl ⟨rfl, hbranch⟩)
        | false =>
          rw [if_neg (by decide)]
          exact Or.inr (Or.inr (Or.inr ⟨rfl, storeReality_realities_of_realities _ ls2 hbranch _⟩))

/-- A state with the realities of another has the main reality stored and a closed
parent graph when the other has. -/
theorem main_closed_of_realities (MAIN_REALITY_ID : RealityId) (ls ls1 : LedgerState)
    (h : ls1.realities = ls.realities)
    (hinv : (∃ m, loadReality ls MAIN_REALITY_ID = some m) ∧ ClosedUnderParents ls) :
    (∃ m, loadReality ls1 MAIN_REALITY_ID = some m) ∧ ClosedUnderParents ls1 := by
  have e : ∀ id, loadReality ls1 id = loadReality ls id := loadReality_of_realities ls ls1 h
  refine ⟨by rw [e]; exact hinv.1, ?_⟩
  intro id r hr p hp
  rw [e] at hr
  obtain ⟨rp, hrp⟩ := hinv.2 id r hr p hp
  exact ⟨rp, by rw [e]; exact hrp⟩

/-- A store of a reality whose parents are stored (or are the reality itself) keeps
the main reality stored and the parent graph closed. -/
theorem main_closed_store (MAIN_REALITY_ID : RealityId) (ls : LedgerState) (r : Reality)
    (hinv : (∃ m, loadReality ls MAIN_REALITY_ID = some m) ∧ ClosedUnderParents ls)
    (hpar : ∀ p ∈ r.parentRealities, p = r.id ∨ ∃ rp, loadReality ls p = some rp) :
    (∃ m, loadReality (storeReality ls r) MAIN_REALITY_ID = some m) ∧
      ClosedUnderParents (storeReality ls r) := by
  have hmono : ∀ id r0, loadReality ls id = some r0 → ∃ r1, loadReality (storeReality ls r) id = some r1 := by
    intro id r0 h0
    rw [loadReality_storeReality_eq]
    split
    · exact ⟨r, rfl⟩
    · exact ⟨r0, h0⟩
  refine ⟨?_, closedUnderParents_of_extension ls _ hinv.2 hmono ?_⟩
  · obtain ⟨m, hm⟩ := hinv.1
    exact hmono _ m hm
  · intro id r1 h1
    rw [loadReality_storeReality_eq] at h1
    split at h1
    · simp only [Option.some.injEq] at h1
      subst h1
      right
      intro p hp
      rcases hpar p hp with rfl | ⟨rp, hrp⟩
      · exact ⟨r, loadReality_storeReality ls r⟩
      · exact hmono p rp hrp
    · exact Or.inl h1

/-- Two stores in a row, the parents of the first reality being stored or the second
reality, those of the second being stored. -/
theorem main_closed_store_store (MAIN_REALITY_ID : RealityId) (ls : LedgerState) (a b : Reality)
    (hinv : (∃ m, loadReality ls MAIN_REALITY_ID = some m) ∧ ClosedUnderParents ls)
    (ha : ∀ p ∈ a.parentRealities, p = b.id ∨ ∃ rp, loadReality ls p = some rp)
    (hb : ∀ p ∈ b.parentRealities, ∃ rp, loadReality ls p = some rp) :
    (∃ m, loadReality (storeReality (storeReality ls a) b) MAIN_REALITY_ID = some m) ∧
      ClosedUnderParents (storeReality (storeReality ls a) b) := by
  have hmono : ∀ id r0, loadReality ls id = some r0 →
      ∃ r1, loadReality (storeReality (storeReality ls a) b) id = some r1 := by
    intro id r0 h0
    rw [loadReality_storeReality_eq, loadReality_storeReality_eq]
    split
    · exact ⟨b, rfl⟩
    · split
      · exact ⟨a, rfl⟩
      · exact ⟨r0, h0⟩
  refine ⟨?_, closedUnderParents_of_extension ls _ hinv.2 hmono ?_⟩
  · obtain ⟨m, hm⟩ := hinv.1
    exact hmono _ m hm
  · intro id r1 h1
    rw [loadReality_storeReality_eq, loadReality_storeReality_eq] at h1
    split at h1
    · simp only [Option.some.injEq] at h1
      subst h1
      right
      intro p hp
      obtain ⟨rp, hrp⟩ := hb p hp
      exact hmono p rp hrp
    · split at h1
      · simp only [Option.some.injEq] at h1
        subst h1
        right
        intro p hp
        rcases ha p hp with rfl | ⟨rp, hrp⟩
        · exact ⟨b, loadReality_storeReality _ b⟩
        · exact hmono p rp hrp
      · exact Or.inl h1

/-- In every state the operations reach, the main reality is stored and every parent
of a stored reality is stored. -/
theorem reachable_main_closed (blake2b : List (Fin 256) → Bytes32) (MAIN_REALITY_ID : RealityId)
    (ls : LedgerState) (h : Reachable blake2b MAIN_REALITY_ID ls) :
    (∃ m, loadReality ls MAIN_REALITY_ID = some m) ∧ ClosedUnderParents ls := by
  induction h with
  | init =>
    refine ⟨⟨_, loadReality_NewLedgerState MAIN_REALITY_ID⟩, ?_⟩
    intro id r hr p hp
    rw [loadReality_NewLedgerState_eq] at hr
    split at hr
    · simp only [Option.some.injEq] at hr
      subst hr
      exact absurd hp (List.not_mem_nil p)
    · cases hr
  | step ls ls1 _ hstep ih =>
    cases hstep with
    | createReality _ id =>
      refine main_closed_store MAIN_REALITY_ID ls _ ih ?_
      intro p hp
      have hp2 : p = MAIN_REALITY_ID := List.mem_singleton.mp hp
      subst hp2
      exact Or.inr ih.1
    | realityCreateReality _ reality id hstored =>
      refine main_closed_store MAIN_REALITY_ID ls _ ih ?_
      intro p hp
      have hp2 : p = reality.id := List.mem_singleton.mp hp
      subst hp2
      exact Or.inr ⟨reality, hstored⟩
    | addTransferOutput _ transferHash addressHash balances =>
      exact main_closed_of_realities MAIN_REALITY_ID ls _ rfl ih
    | bookTransfer order hord _ fuel transfer err _ hbook =>
      obtain ⟨target, hst, hprep, hcases⟩ :=
        BookTransfer_realities blake2b MAIN_REALITY_ID order hord ls fuel transfer err ls1 hbook
      rcases hcases with hsame | ⟨hs, hreal⟩ | ⟨hs, hreal⟩ | ⟨hs, hreal⟩
      · exact main_closed_of_realities MAIN_REALITY_ID ls ls1 hsame ih
      · refine main_closed_of_realities MAIN_REALITY_ID _ ls1 hreal
          (main_closed_store MAIN_REALITY_ID ls _ ih ?_)
        intro p hp
        have hp2 : p = target.reality.id := List.mem_singleton.mp hp
        subst hp2
        exact Or.inr ⟨target.reality, hst hs⟩
      · exact main_closed_of_realities MAIN_REALITY_ID _ ls1 hreal
          (main_closed_store MAIN_REALITY_ID ls _ ih (fun p hp => Or.inr (hprep hs p hp)))
      · refine main_closed_of_realities MAIN_REALITY_ID _ ls1 hreal
          (main_closed_store_store MAIN_REALITY_ID ls _ _ ih ?_ (hprep hs))
        intro p hp
        exact Or.inl (List.mem_singleton.mp hp)
  | prune ls _ _ =>
    refine ⟨⟨_, by rw [loadReality_Prune, if_pos rfl]⟩, ?_⟩
    intro id r hr p hp
    rw [loadReality_Prune] at hr
    split at hr
    · simp only [Option.some.injEq] at hr
      subst hr
      exact absurd hp (List.not_mem_nil p)
    · cases hr

/-- The state `exBranchedLedger` is reached: the output (T1, A1) is added, the
transfer T2 spends it, and the transfer T4, which spends it again, is booked in the
branch reality T4. -/
theorem reachable_exBranchedLedger : Reachable exBlake2b exMAIN exBranchedLedger := by
  have h1 : Reachable exBlake2b exMAIN
      (AddTransferOutput exMAIN (NewLedgerState exMAIN) exT1 exA1 [⟨exIOTA, 100⟩]) :=
    Reachable.step _ _ Reachable.init (Step.addTransferOutput _ _ _ _)
  have e1 : AddTransferOutput exMAIN (NewLedgerState exMAIN) exT1 exA1 [⟨exIOTA, 100⟩] = exLedger := by
    decide
  rw [e1] at h1
  have h2 : Reachable exBlake2b exMAIN exSpentLedger :=
    Reachable.step _ _ h1
      (Step.bookTransfer exOrder isRangeOrder_exOrder exLedger 3 exT2Transfer none exSpentLedger
        (by decide))
  exact Reachable.step _ _ h2
    (Step.bookTransfer exOrder isRangeOrder_exOrder exSpentLedger 3 exT4Transfer none exBranchedLedger
      BookTransfer_exT4Transfer)

/-- C24, amended: in every state reached from `NewLedgerState` by
`LedgerState.CreateReality`, `Reality.CreateReality` called on a stored reality,
`AddTransferOutput`, `BookTransfer`, `MergeRealities` and `Prune`, the main reality is
stored and every parent id of every stored reality is the id of a stored reality. -/
theorem Reachable_closedUnderParents (blake2b : List (Fin 256) → Bytes32)
    (MAIN_REALITY_ID : RealityId) (ls : LedgerState) (h : Reachable blake2b MAIN_REALITY_ID ls) :
    (∃ m, loadReality ls MAIN_REALITY_ID = some m) ∧ ClosedUnderParents ls :=
  reachable_main_closed blake2b MAIN_REALITY_ID ls h

/-- C24, amended, at the state `exBranchedLedger`, in which the branch reality T4 of a
conflicting transfer is stored. -/
theorem Reachable_closedUnderParents_witness :
    Reachable exBlake2b exMAIN exBranchedLedger ∧
    (∃ m, loadReality exBranchedLedger exMAIN = some m) ∧ ClosedUnderParents exBranchedLedger :=
  ⟨reachable_exBranchedLedger,
    Reachable_closedUnderParents exBlake2b exMAIN exBranchedLedger reachable_exBranchedLedger⟩

/-! ## No cycle when no stored record is changed (C23) -/

/-- A state that keeps the records of `ls` and whose new realities have parents that
were stored, or are new realities of smaller rank, has no cycle when `ls` has none. -/
theorem acyclic_of_keeps (ls ls1 : LedgerState) (hac : Acyclic ls) (hcl : ClosedUnderParents ls)
    (hkeep : KeepsRealities ls ls1) (rank : RealityId → Nat)
    (hnew : ∀ id r, loadReality ls id = none → loadReality ls1 id = some r →
      ∀ p ∈ r.parentRealities, (∃ rp, loadReality ls p = some rp) ∨ rank p < rank id) :
    Acyclic ls1 := by
  have hold : ∀ x y, (∃ rx, loadReality ls x = some rx) → isParent ls1 x y →
      isParent ls x y ∧ ∃ ry, loadReality ls y = some ry := by
    rintro x y ⟨rx, hrx⟩ ⟨r1, hr1, hy⟩
    have h2 := hkeep x rx hrx
    rw [h2] at hr1
    simp only [Option.some.injEq] at hr1
    subst hr1
    exact ⟨⟨rx, hrx, hy⟩, hcl x rx hrx y hy⟩
  have holdpath : ∀ x y, Relation.TransGen (isParent ls1) x y → (∃ rx, loadReality ls x = some rx) →
      Relation.TransGen (isParent ls) x y ∧ ∃ ry, loadReality ls y = some ry := by
    intro x y hxy hx
    induction hxy with
    | single h1 =>
      obtain ⟨h2, h3⟩ := hold _ _ hx h1
      exact ⟨Relation.TransGen.single h2, h3⟩
    | tail _ h2 ih =>
      obtain ⟨h3, h4⟩ := ih
      obtain ⟨h5, h6⟩ := hold _ _ h4 h2
      exact ⟨Relation.TransGen.tail h3 h5, h6⟩
  have hnewedge : ∀ x y, isParent ls1 x y → loadReality ls y = none →
      loadReality ls x = none ∧ rank y < rank x := by
    intro x y hedge hynone
    cases hx : loadReality ls x with
    | some rx =>
      obtain ⟨_, ry, hry⟩ := hold x y ⟨rx, hx⟩ hedge
      rw [hynone] at hry
      cases hry
    | none =>
      obtain ⟨r1, hr1, hy⟩ := hedge
      refine ⟨rfl, ?_⟩
      rcases hnew x r1 hx hr1 y hy with ⟨ry, hry⟩ | hlt
      · rw [hynone] at hry
        cases hry
      · exact hlt
  have hnewpath : ∀ x y, Relation.TransGen (isParent ls1) x y → loadReality ls y = none →
      loadReality ls x = none ∧ rank y < rank x := by
    intro x y hxy
    induction hxy with
    | single h1 => exact hnewedge _ _ h1
    | tail _ h2 ih =>
      intro hz
      obtain ⟨hy, hlt⟩ := hnewedge _ _ h2 hz
      obtain ⟨hx, hlt2⟩ := ih hy
      exact ⟨hx, Nat.lt_trans hlt hlt2⟩
  intro x hxx
  cases hx : loadReality ls x with
  | some rx => exact hac x (holdpath x x hxx ⟨rx, hx⟩).1
  | none => exact absurd (hnewpath x x hxx hx).2 (Nat.lt_irrefl _)

/-- A state whose stored realities have no parent has no cycle. -/
theorem acyclic_of_no_parent (ls : LedgerState)
    (h : ∀ id r, loadReality ls id = some r → r.parentRealities = []) : Acyclic ls := by
  intro x hxx
  have hedge : ∀ a b, ¬ isParent ls a b := by
    rintro a b ⟨r, hr, hb⟩
    rw [h a r hr] at hb
    exact absurd hb (List.not_mem_nil b)
  cases hxx with
  | single h1 => exact hedge _ _ h1
  | tail _ h2 => exact hedge _ _ h2

/-- One store of a reality whose parents are stored, in a call that changes no stored
record, makes no cycle. -/
theorem acyclic_store (ls ls1 : LedgerState) (r : Reality) (hac : Acyclic ls)
    (hcl : ClosedUnderParents ls) (hkeep : KeepsRealities ls ls1)
    (hreal : ls1.realities = (storeReality ls r).realities)
    (hpar : ∀ p ∈ r.parentRealities, ∃ rp, loadReality ls p = some rp) : Acyclic ls1 := by
  refine acyclic_of_keeps ls ls1 hac hcl hkeep (fun _ => 0) ?_
  intro id r1 hnone h1 p hp
  rw [loadReality_of_realities _ ls1 hreal, loadReality_storeReality_eq] at h1
  split at h1
  · simp only [Option.some.injEq] at h1
    subst h1
    exact Or.inl (hpar p hp)
  · rw [hnone] at h1
    cases h1

/-- Two stores in a row, of a reality whose only parent is the second reality and of
a reality whose parents are stored, in a call that changes no stored record, make no
cycle. -/
theorem acyclic_store_store (ls ls1 : LedgerState) (a b : Reality) (hac : Acyclic ls)
    (hcl : ClosedUnderParents ls) (hkeep : KeepsRealities ls ls1)
    (hreal : ls1.realities = (storeReality (storeReality ls a) b).realities)
    (ha : a.parentRealities = [b.id])
    (hb : ∀ p ∈ b.parentRealities, ∃ rp, loadReality ls p = some rp) : Acyclic ls1 := by
  refine acyclic_of_keeps ls ls1 hac hcl hkeep (fun i => if i = b.id then 0 else 1) ?_
  intro id r1 hnone h1 p hp
  rw [loadReality_of_realities _ ls1 hreal, loadReality_storeReality_eq,
    loadReality_storeReality_eq] at h1
  split at h1
  · simp only [Option.some.injEq] at h1
    subst h1
    exact Or.inl (hb p hp)
  · rename_i hne
    split at h1
    · simp only [Option.some.injEq] at h1
      subst h1
      rw [ha] at hp
      have hp2 : p = b.id := List.mem_singleton.mp hp
      right
      have hid : ¬ id = b.id := fun e => hne e.symm
      simp only [hp2, hid, if_true, if_false]
      exact Nat.zero_lt_one
    · rw [hnone] at h1
      cases h1

theorem reachable_of_reachableKeeping (blake2b : List (Fin 256) → Bytes32)
    (MAIN_REALITY_ID : RealityId) (ls : LedgerState)
    (h : ReachableKeeping blake2b MAIN_REALITY_ID ls) : Reachable blake2b MAIN_REALITY_ID ls := by
  induction h with
  | init => exact Reachable.init
  | step ls ls1 _ hstep _ ih => exact Reachable.step ls ls1 ih hstep
  | prune ls _ ih => exact Reachable.prune ls ih

/-- The records of `ls` are kept when each of its realities is loaded from `ls1` as it
is. -/
theorem keepsRealities_of_forall (ls ls1 : LedgerState)
    (h : ∀ r ∈ ls.realities, loadReality ls1 r.id = some r) : KeepsRealities ls ls1 := by
  intro id r hr
  have := h r (loadReality_mem hr)
  rwa [loadReality_id hr] at this

/-- C23, amended: in every state reached from `NewLedgerState` by
`LedgerState.CreateReality`, `Reality.CreateReality` on a stored reality,
`AddTransferOutput`, `BookTransfer`, `MergeRealities` and `Prune`, when no call changes
the record of a reality that is stored (no id is stored a second time with another
parent list), the parent graph has no cycle. -/
theorem ReachableKeeping_acyclic (blake2b : List (Fin 256) → Bytes32)
    (MAIN_REALITY_ID : RealityId) (ls : LedgerState)
    (h : ReachableKeeping blake2b MAIN_REALITY_ID ls) : Acyclic ls := by
  induction h with
  | init =>
    refine acyclic_of_no_parent _ ?_
    intro id r hr
    rw [loadReality_NewLedgerState_eq] at hr
    split at hr
    · simp only [Option.some.injEq] at hr
      rw [← hr]
      rfl
    · cases hr
  | step ls ls1 hreach hstep hkeep ih =>
    obtain ⟨hmain, hcl⟩ := reachable_main_closed blake2b MAIN_REALITY_ID ls
      (reachable_of_reachableKeeping blake2b MAIN_REALITY_ID ls hreach)
    cases hstep with
    | createReality _ id =>
      refine acyclic_store ls _ _ ih hcl hkeep rfl ?_
      intro p hp
      have hp2 : p = MAIN_REALITY_ID := List.mem_singleton.mp hp
      subst hp2
      exact hmain
    | realityCreateReality _ reality id hstored =>
      refine acyclic_store ls _ _ ih hcl hkeep rfl ?_
      intro p hp
      have hp2 : p = reality.id := List.mem_singleton.mp hp
      subst hp2
      exact ⟨reality, hstored⟩
    | addTransferOutput _ transferHash addressHash balances =>
      refine acyclic_of_keeps ls _ ih hcl hkeep (fun _ => 0) ?_
      intro id r hnone h1
      rw [loadReality_of_realities ls
        (AddTransferOutput MAIN_REALITY_ID ls transferHash addressHash balances) rfl, hnone] at h1
      cases h1
    | bookTransfer order hord _ fuel transfer err _ hbook =>
      obtain ⟨target, hst, hprep, hcases⟩ :=
        BookTransfer_realities blake2b MAIN_REALITY_ID order hord ls fuel transfer err ls1 hbook
      rcases hcases with hsame | ⟨hs, hreal⟩ | ⟨hs, hreal⟩ | ⟨hs, hreal⟩
      · refine acyclic_of_keeps ls _ ih hcl hkeep (fun _ => 0) ?_
        intro id r hnone h1
        rw [loadReality_of_realities ls _ hsame, hnone] at h1
        cases h1
      · refine acyclic_store ls ls1 _ ih hcl hkeep hreal ?_
        intro p hp
        have hp2 : p = target.reality.id := List.mem_singleton.mp hp
        subst hp2
        exact ⟨target.reality, hst hs⟩
      · exact acyclic_store ls ls1 _ ih hcl hkeep hreal (hprep hs)
      · exact acyclic_store_store ls ls1 _ _ ih hcl hkeep hreal rfl (hprep hs)
  | prune ls _ _ =>
    refine acyclic_of_no_parent _ ?_
    intro id r hr
    rw [loadReality_Prune] at hr
    split at hr
    · simp only [Option.some.injEq] at hr
      rw [← hr]
      rfl
    · cases hr

/-- The state `exBranchedLedger` is reached by calls that change no stored record. -/
theorem reachableKeeping_exBranchedLedger : ReachableKeeping exBlake2b exMAIN exBranchedLedger := by
  have h1 : ReachableKeeping exBlake2b exMAIN
      (AddTransferOutput exMAIN (NewLedgerState exMAIN) exT1 exA1 [⟨exIOTA, 100⟩]) :=
    ReachableKeeping.step _ _ ReachableKeeping.init (Step.addTransferOutput _ _ _ _)
      (keepsRealities_of_forall _ _ (by decide))
  have e1 : AddTransferOutput exMAIN (NewLedgerState exMAIN) exT1 exA1 [⟨exIOTA, 100⟩] = exLedger := by
    decide
  rw [e1] at h1
  have h2 : ReachableKeeping exBlake2b exMAIN exSpentLedger :=
    ReachableKeeping.step _ _ h1
      (Step.bookTransfer exOrder isRangeOrder_exOrder exLedger 3 exT2Transfer none exSpentLedger
        (by decide))
      (keepsRealities_of_forall _ _ (by decide))
  exact ReachableKeeping.step _ _ h2
    (Step.bookTransfer exOrder isRangeOrder_exOrder exSpentLedger 3 exT4Transfer none exBranchedLedger
      BookTransfer_exT4Transfer)
    (keepsRealities_of_forall _ _ (by decide))

/-- C23, amended, at the state `exBranchedLedger`, in which the branch reality T4 of a
conflicting transfer is stored under the main reality. -/
theorem ReachableKeeping_acyclic_witness :
    ReachableKeeping exBlake2b exMAIN exBranchedLedger ∧ Acyclic exBranchedLedger :=
  ⟨reachableKeeping_exBranchedLedger,
    ReachableKeeping_acyclic exBlake2b exMAIN exBranchedLedger reachableKeeping_exBranchedLedger⟩

end Ledgerstate

/-! # Theorems on the FPC test payload (C15 to C17) -/

namespace Fpctest

open Ledgerstate

theorem ReadBytes_at (pre x post : List (Fin 256)) (off len : Nat) (hoff : off = pre.length)
    (hx : x.length = len) :
    MarshalUtil.ReadBytes { bytes := pre ++ x ++ post, readOffset := off } len =
      some (x, { bytes := pre ++ x ++ post, readOffset := off + len }) := by
  subst hoff
  have hlen : ¬ (pre ++ x ++ post).length < pre.length + len := by
    simp only [List.length_append, hx]
    omega
  have hdrop : (pre ++ x ++ post).drop pre.length = x ++ post := by
    rw [List.append_assoc]
    exact List.drop_left pre (x ++ post)
  unfold MarshalUtil.ReadBytes
  simp only [hlen, if_false, hdrop, List.take_left' hx]

theorem getUint32_of_length (x : List (Fin 256)) (hx : x.length = 4) : ∃ v, getUint32 x = .ok v := by
  match x, hx with
  | [b0, b1, b2, b3], _ => exact ⟨_, rfl⟩

theorem ReadUint32_at (pre x post : List (Fin 256)) (off : Nat) (hoff : off = pre.length)
    (hx : x.length = 4) :
    ∃ v, getUint32 x = .ok v ∧
      MarshalUtil.ReadUint32 { bytes := pre ++ x ++ post, readOffset := off } =
        some (v, { bytes := pre ++ x ++ post, readOffset := off + 4 }) := by
  obtain ⟨v, hv⟩ := getUint32_of_length x hx
  refine ⟨v, hv, ?_⟩
  unfold MarshalUtil.ReadUint32
  rw [show UINT32_SIZE = 4 from rfl, ReadBytes_at pre x post off 4 hoff hx]
  simp only [hv]

theorem getUint32_putUint32_nil (v : Nat) (hv : v < 2 ^ 32) : getUint32 (putUint32 v) = .ok v := by
  have := getUint32_putUint32 v hv []
  rwa [List.append_nil] at this

/-- A payload is parsed from any 44 bytes or more: two fields of four bytes that are
read and dropped, the nonce, and the like value. -/
theorem UnmarshalObjectStorageValue_ok (payload : Payload) (a b n rest : List (Fin 256))
    (like : Nat) (ha : a.length = 4) (hb : b.length = 4) (hn : n.length = 32) (hlike : like < 2 ^ 32) :
    payload.UnmarshalObjectStorageValue (a ++ b ++ n ++ putUint32 like ++ rest) =
      ((44, none), { payload with nonce := n, like := like,
                                  bytes := some (a ++ b ++ n ++ putUint32 like) }) := by
  have hl : (putUint32 like).length = 4 := rfl
  obtain ⟨va, _, h1⟩ := ReadUint32_at [] a (b ++ n ++ putUint32 like ++ rest) 0 rfl ha
  obtain ⟨vb, _, h2⟩ := ReadUint32_at a b (n ++ putUint32 like ++ rest) (0 + 4) (by simp [ha]) hb
  have h3 := ReadBytes_at (a ++ b) n (putUint32 like ++ rest) (0 + 4 + 4) 32 (by simp [ha, hb]) hn
  obtain ⟨vl, hvl, h4⟩ := ReadUint32_at (a ++ b ++ n) (putUint32 like) rest (0 + 4 + 4 + 32)
    (by simp [ha, hb, hn]) hl
  have hvl2 : vl = like := by
    have := (getUint32_putUint32_nil like hlike).symm.trans hvl
    simpa using this.symm
  subst hvl2
  have e1 : a ++ b ++ n ++ putUint32 vl ++ rest = [] ++ a ++ (b ++ n ++ putUint32 vl ++ rest) := by
    simp only [List.nil_append, List.append_assoc]
  have e2 : a ++ b ++ n ++ putUint32 vl ++ rest = a ++ b ++ (n ++ putUint32 vl ++ rest) := by
    simp only [List.append_assoc]
  have e3 : a ++ b ++ n ++ putUint32 vl ++ rest = a ++ b ++ n ++ (putUint32 vl ++ rest) := by
    simp only [List.append_assoc]
  have htake : (a ++ b ++ n ++ putUint32 vl ++ rest).take (0 + 4 + 4 + 32 + 4) =
      a ++ b ++ n ++ putUint32 vl :=
    List.take_left' (by simp [ha, hb, hn, hl])
  unfold Payload.UnmarshalObjectStorageValue MarshalUtil.New
  rw [show NonceSize = 32 from rfl]
  conv_lhs => rw [e1]
  rw [h1]
  simp only
  conv_lhs => rw [← e1, e2]
  rw [h2]
  simp only
  conv_lhs => rw [← e2, e3]
  rw [h3]
  simp only
  conv_lhs => rw [← e3]
  rw [h4]
  simp only [htake]

theorem length_take_nonce (nonce : List (Fin 256)) (hnonce : 32 ≤ nonce.length) :
    (nonce.take 32).length = 32 := by
  rw [List.length_take]
  omega

theorem New_of_length (like : Nat) (nonce : List (Fin 256)) (hnonce : 32 ≤ nonce.length) :
    New like nonce = some { id := none, nonce := nonce.take 32, like := like, bytes := none } := by
  unfold New
  rw [if_neg (by rw [show NonceSize = 32 from rfl]; omega)]
  rfl

theorem marshalBytes_exact (size : Nat) (written : List (Fin 256)) (h : written.length = size) :
    marshalBytes size written = written := by
  unfold marshalBytes
  rw [h, Nat.sub_self]
  simp

/-- C15: for every 32-bit like value and every nonce of at least 32 bytes,
`New(like, nonce).ID()` is the blake2b-256 digest of the 36 bytes formed by the first
32 bytes of the nonce and the four bytes of like, lowest byte first. -/
theorem ID_New (blake2b : List (Fin 256) → Bytes32) (like : Nat) (nonce : List (Fin 256))
    (hlike : like < 2 ^ 32) (hnonce : 32 ≤ nonce.length) :
    ∃ p, New like nonce = some p ∧
      (p.ID blake2b).1 = blake2b (nonce.take 32 ++ putUint32 like) ∧
      (nonce.take 32 ++ putUint32 like).length = 36 ∧
      getUint32 (putUint32 like) = .ok like := by
  have hlen : (nonce.take 32 ++ putUint32 like).length = 36 := by
    rw [List.length_append, length_take_nonce nonce hnonce]
    rfl
  refine ⟨_, New_of_length like nonce hnonce, ?_, hlen, getUint32_putUint32_nil like hlike⟩
  simp only [Payload.ID, Payload.Nonce, Payload.Like]
  exact congrArg blake2b (marshalBytes_exact 36 _ hlen)

/-- C15 at the like value 1 and the 40 bytes of `exNonce`. -/
theorem ID_New_witness :
    (1 : Nat) < 2 ^ 32 ∧ 32 ≤ exNonce.length ∧
    ∃ p, New 1 exNonce = some p ∧
      (p.ID exBlake2b).1 = exBlake2b (exNonce.take 32 ++ putUint32 1) ∧
      (exNonce.take 32 ++ putUint32 1).length = 36 ∧
      getUint32 (putUint32 1) = .ok 1 :=
  ⟨by decide, by decide, ID_New exBlake2b 1 exNonce (by decide) (by decide)⟩

/-- C16: for every 32-bit like value and every nonce of at least 32 bytes,
`New(like, nonce).Bytes()` is 44 bytes long: 8F 2A 00 00 (10895 as `uint32`,
little-endian), 24 00 00 00 (36), the first 32 bytes of the nonce, and the four bytes
of like, lowest byte first. -/
theorem Bytes_New (like : Nat) (nonce : List (Fin 256))
    (hlike : like < 2 ^ 32) (hnonce : 32 ≤ nonce.length) :
    ∃ p, New like nonce = some p ∧
      (p.Bytes).1 = [0x8F, 0x2A, 0x00, 0x00, 0x24, 0x00, 0x00, 0x00] ++ nonce.take 32 ++ putUint32 like ∧
      (p.Bytes).1.length = 44 ∧
      getUint32 [0x8F, 0x2A, 0x00, 0x00] = .ok 10895 ∧ getUint32 [0x24, 0x00, 0x00, 0x00] = .ok 36 ∧
      getUint32 (putUint32 like) = .ok like := by
  have hlen : ([0x8F, 0x2A, 0x00, 0x00, 0x24, 0x00, 0x00, 0x00] ++ nonce.take 32 ++
      putUint32 like : List (Fin 256)).length = 44 := by
    rw [List.length_append, List.length_append, length_take_nonce nonce hnonce]
    rfl
  have hbytes : ({ id := none, nonce := nonce.take 32, like := like, bytes := none } : Payload).Bytes.1 =
      [0x8F, 0x2A, 0x00, 0x00, 0x24, 0x00, 0x00, 0x00] ++ nonce.take 32 ++ putUint32 like := by
    simp only [Payload.Bytes, Payload.ObjectStorageValue, Payload.Nonce, Payload.Like]
    rw [marshalBytes_exact]
    · rfl
    · exact hlen
  refine ⟨_, New_of_length like nonce hnonce, hbytes, ?_, by decide, by decide,
    getUint32_putUint32_nil like hlike⟩
  rw [hbytes]
  exact hlen

/-- C16 at the like value 1 and the 40 bytes of `exNonce`. -/
theorem Bytes_New_witness :
    (1 : Nat) < 2 ^ 32 ∧ 32 ≤ exNonce.length ∧
    ∃ p, New 1 exNonce = some p ∧
      (p.Bytes).1 = [0x8F, 0x2A, 0x00, 0x00, 0x24, 0x00, 0x00, 0x00] ++ exNonce.take 32 ++ putUint32 1 ∧
      (p.Bytes).1.length = 44 ∧
      getUint32 [0x8F, 0x2A, 0x00, 0x00] = .ok 10895 ∧ getUint32 [0x24, 0x00, 0x00, 0x00] = .ok 36 ∧
      getUint32 (putUint32 1) = .ok 1 :=
  ⟨by decide, by decide, Bytes_New 1 exNonce (by decide) (by decide)⟩

/-- C17: for every 32-bit like value and every nonce of at least 32 bytes,
`FromBytes(New(like, nonce).Bytes())` returns no error, reports 44 consumed bytes, and
yields a payload whose `Nonce()` is the first 32 bytes of the nonce and whose `Like()`
is like; its `ID()` and `Bytes()` are those of the original. -/
theorem FromBytes_Bytes_New (blake2b : List (Fin 256) → Bytes32) (like : Nat)
    (nonce : List (Fin 256)) (hlike : like < 2 ^ 32) (hnonce : 32 ≤ nonce.length) :
    ∃ p q, New like nonce = some p ∧ FromBytes (p.Bytes).1 [] = .ok (q, 44, none) ∧
      q.Nonce = nonce.take 32 ∧ q.Like = like ∧
      (q.ID blake2b).1 = (p.ID blake2b).1 ∧ (q.Bytes).1 = (p.Bytes).1 := by
  obtain ⟨p, hp, hbytes, _, _, _, _⟩ := Bytes_New like nonce hlike hnonce
  have hp2 := (New_of_length like nonce hnonce).symm.trans hp
  simp only [Option.some.injEq] at hp2
  subst hp2
  have hu := UnmarshalObjectStorageValue_ok
    { id := none, nonce := [], like := 0, bytes := none }
    [0x8F, 0x2A, 0x00, 0x00] [0x24, 0x00, 0x00, 0x00] (nonce.take 32) [] like rfl rfl
    (length_take_nonce nonce hnonce) hlike
  have hdata : ([0x8F, 0x2A, 0x00, 0x00] : List (Fin 256)) ++ [0x24, 0x00, 0x00, 0x00] ++
      nonce.take 32 ++ putUint32 like ++ [] =
      [0x8F, 0x2A, 0x00, 0x00, 0x24, 0x00, 0x00, 0x00] ++ nonce.take 32 ++ putUint32 like := by
    simp
  have hdata2 : ([0x8F, 0x2A, 0x00, 0x00] : List (Fin 256)) ++ [0x24, 0x00, 0x00, 0x00] ++
      nonce.take 32 ++ putUint32 like =
      [0x8F, 0x2A, 0x00, 0x00, 0x24, 0x00, 0x00, 0x00] ++ nonce.take 32 ++ putUint32 like := by
    simp
  rw [hdata, hdata2] at hu
  refine ⟨_, Payload.mk none (nonce.take 32) like
    (some ([0x8F, 0x2A, 0x00, 0x00, 0x24, 0x00, 0x00, 0x00] ++ nonce.take 32 ++ putUint32 like)),
    hp, ?_, rfl, rfl, rfl, ?_⟩
  · rw [hbytes]
    simp only [FromBytes, Parse, MarshalUtil.New, List.drop_zero, hu, Nat.zero_add]
  · rw [hbytes]
    rfl

/-- C17 at the like value 1 and the 40 bytes of `exNonce`. -/
theorem FromBytes_Bytes_New_witness :
    (1 : Nat) < 2 ^ 32 ∧ 32 ≤ exNonce.length ∧
    ∃ p q, New 1 exNonce = some p ∧ FromBytes (p.Bytes).1 [] = .ok (q, 44, none) ∧
      q.Nonce = exNonce.take 32 ∧ q.Like = 1 ∧
      (q.ID exBlake2b).1 = (p.ID exBlake2b).1 ∧ (q.Bytes).1 = (p.Bytes).1 :=
  ⟨by decide, by decide, FromBytes_Bytes_New exBlake2b 1 exNonce (by decide) (by decide)⟩

/-! ## Parsing any bytes (C29) -/

theorem ReadBytes_of_le (util : MarshalUtil) (n : Nat) (h : util.readOffset + n ≤ util.bytes.length) :
    util.ReadBytes n =
      some ((util.bytes.drop util.readOffset).take n, { util with readOffset := util.readOffset + n }) := by
  unfold MarshalUtil.ReadBytes
  rw [if_neg (by omega)]

theorem ReadBytes_of_lt (util : MarshalUtil) (n : Nat) (h : util.bytes.length < util.readOffset + n) :
    util.ReadBytes n = none := by
  unfold MarshalUtil.ReadBytes
  rw [if_pos h]

theorem ReadUint32_of_le (util : MarshalUtil) (h : util.readOffset + 4 ≤ util.bytes.length) :
    ∃ v, getUint32 ((util.bytes.drop util.readOffset).take 4) = .ok v ∧
      util.ReadUint32 = some (v, { util with readOffset := util.readOffset + 4 }) := by
  have hlen : ((util.bytes.drop util.readOffset).take 4).length = 4 := by
    simp only [List.length_take, List.length_drop]
    omega
  obtain ⟨v, hv⟩ := getUint32_of_length _ hlen
  refine ⟨v, hv, ?_⟩
  unfold MarshalUtil.ReadUint32
  rw [show UINT32_SIZE = 4 from rfl, ReadBytes_of_le util 4 h]
  simp only [hv]

theorem ReadUint32_of_lt (util : MarshalUtil) (h : util.bytes.length < util.readOffset + 4) :
    util.ReadUint32 = none := by
  unfold MarshalUtil.ReadUint32
  rw [show UINT32_SIZE = 4 from rfl, ReadBytes_of_lt util 4 h]

/-- Any 44 bytes or more are unmarshalled: 44 bytes are consumed, the nonce is the
bytes 8 to 39 and the like value the `uint32` of the bytes 40 to 43. -/
theorem UnmarshalObjectStorageValue_of_le (payload : Payload) (data : List (Fin 256))
    (h : 44 ≤ data.length) :
    ∃ like, getUint32 ((data.drop 40).take 4) = .ok like ∧
      payload.UnmarshalObjectStorageValue data =
        ((44, none), { payload with nonce := (data.drop 8).take 32, like := like,
                                    bytes := some (data.take 44) }) := by
  obtain ⟨v1, _, h1⟩ := ReadUint32_of_le ⟨data, 0⟩ (by show 0 + 4 ≤ data.length; omega)
  obtain ⟨v2, _, h2⟩ := ReadUint32_of_le ⟨data, 4⟩ (by show 4 + 4 ≤ data.length; omega)
  have h3 := ReadBytes_of_le ⟨data, 8⟩ 32 (by show 8 + 32 ≤ data.length; omega)
  obtain ⟨like, hlike, h4⟩ := ReadUint32_of_le ⟨data, 40⟩ (by show 40 + 4 ≤ data.length; omega)
  refine ⟨like, hlike, ?_⟩
  unfold Payload.UnmarshalObjectStorageValue MarshalUtil.New
  rw [show NonceSize = 32 from rfl, h1]
  dsimp only
  rw [h2]
  dsimp only
  rw [h3]
  dsimp only
  rw [h4]

/-- Fewer than 44 bytes are not unmarshalled: one of the four reads fails. -/
theorem UnmarshalObjectStorageValue_of_lt (payload : Payload) (data : List (Fin 256))
    (h : data.length < 44) :
    ∃ p, payload.UnmarshalObjectStorageValue data = ((0, some .notEnoughBytes), p) := by
  unfold Payload.UnmarshalObjectStorageValue MarshalUtil.New
  rw [show NonceSize = 32 from rfl]
  by_cases c1 : data.length < 4
  · rw [ReadUint32_of_lt ⟨data, 0⟩ (by show data.length < 0 + 4; omega)]
    exact ⟨_, rfl⟩
  · obtain ⟨v1, _, h1⟩ := ReadUint32_of_le ⟨data, 0⟩ (by show 0 + 4 ≤ data.length; omega)
    rw [h1]
    dsimp only
    by_cases c2 : data.length < 8
    · rw [ReadUint32_of_lt ⟨data, 0 + 4⟩ (by show data.length < 0 + 4 + 4; omega)]
      exact ⟨_, rfl⟩
    · obtain ⟨v2, _, h2⟩ := ReadUint32_of_le ⟨data, 0 + 4⟩ (by show 0 + 4 + 4 ≤ data.length; omega)
      rw [h2]
      dsimp only
      by_cases c3 : data.length < 40
      · rw [ReadBytes_of_lt ⟨data, 0 + 4 + 4⟩ 32 (by show data.length < 0 + 4 + 4 + 32; omega)]
        exact ⟨_, rfl⟩
      · rw [ReadBytes_of_le ⟨data, 0 + 4 + 4⟩ 32 (by show 0 + 4 + 4 + 32 ≤ data.length; omega)]
        dsimp only
        rw [ReadUint32_of_lt ⟨data, 0 + 4 + 4 + 32⟩ (by show data.length < 0 + 4 + 4 + 32 + 4; omega)]
        exact ⟨_, rfl⟩

/-- C29: `FromBytes(data)`, with no target or with one, returns, and it returns no error
exactly when `data` has at least 44 bytes.  Then 44 bytes are consumed whatever the
type field and the length field hold, the nonce is `data[8..40)`, the like value is the
little-endian `uint32` of `data[40..44)`, and `Bytes()` of the payload is `data[0..44)`. -/
theorem FromBytes_ok_iff_length (data : List (Fin 256)) (optionalTargetObject : List Payload)
    (htargets : optionalTargetObject.length ≤ 1) :
    ∃ result consumedBytes err, FromBytes data optionalTargetObject = .ok (result, consumedBytes, err) ∧
      (err = none ↔ 44 ≤ data.length) ∧
      (44 ≤ data.length →
        consumedBytes = 44 ∧ result.Nonce = (data.drop 8).take 32 ∧
        getUint32 ((data.drop 40).take 4) = .ok result.Like ∧ (result.Bytes).1 = data.take 44) := by
  have key : ∀ target : Payload,
      ∃ result consumedBytes err,
        (match target.UnmarshalObjectStorageValue data with
          | ((_, some err), result1) =>
            (Outcome.ok ((result1, some err), MarshalUtil.New data) :
              Outcome ((Payload × Option ParseError) × MarshalUtil))
          | ((parsedBytes, none), result1) =>
            .ok ((result1, none), { MarshalUtil.New data with readOffset := 0 + parsedBytes })) =
          .ok ((result, err), ⟨data, consumedBytes⟩) ∧
        (err = none ↔ 44 ≤ data.length) ∧
        (44 ≤ data.length →
          consumedBytes = 44 ∧ result.Nonce = (data.drop 8).take 32 ∧
          getUint32 ((data.drop 40).take 4) = .ok result.Like ∧ (result.Bytes).1 = data.take 44) := by
    intro target
    by_cases hlen : 44 ≤ data.length
    · obtain ⟨like, hlike, hu⟩ := UnmarshalObjectStorageValue_of_le target data hlen
      rw [hu]
      refine ⟨Payload.mk target.id ((data.drop 8).take 32) like (some (data.take 44)), 44, none,
        ?_, ?_, ?_⟩
      · simp only [MarshalUtil.New, Nat.zero_add]
      · simp [hlen]
      · intro _
        exact ⟨rfl, rfl, hlike, rfl⟩
    · obtain ⟨p, hu⟩ := UnmarshalObjectStorageValue_of_lt target data (by omega)
      rw [hu]
      refine ⟨p, 0, some .notEnoughBytes, ?_, ?_, ?_⟩
      · simp only [MarshalUtil.New]
      · simp [hlen]
      · intro h
        exact absurd h hlen
  match optionalTargetObject, htargets with
  | [], _ =>
    obtain ⟨result, consumedBytes, err, h1, h2, h3⟩ :=
      key { id := none, nonce := [], like := 0, bytes := none }
    refine ⟨result, consumedBytes, err, ?_, h2, h3⟩
    simp only [FromBytes, Parse, MarshalUtil.New, List.drop_zero] at h1 ⊢
    rw [h1]
  | [target], _ =>
    obtain ⟨result, consumedBytes, err, h1, h2, h3⟩ := key target
    refine ⟨result, consumedBytes, err, ?_, h2, h3⟩
    simp only [FromBytes, Parse, MarshalUtil.New, List.drop_zero] at h1 ⊢
    rw [h1]
  | _ :: _ :: _, h => simp at h

/-- C29 at the 46 bytes of `exData` and at its first 43 bytes: the first are parsed,
44 of them consumed, although the type field is not 10895 and the length field not
36; the second are not. -/
theorem FromBytes_ok_iff_length_witness :
    ([] : List Payload).length ≤ 1 ∧
    FromBytes exData [] =
      .ok (Payload.mk none ((exData.drop 8).take 32) 0x2C2B2A29 (some (exData.take 44)), 44, none) ∧
    (∃ result consumedBytes err, FromBytes (exData.take 43) [] = .ok (result, consumedBytes, err) ∧
      (err = none ↔ 44 ≤ (exData.take 43).length) ∧
      (44 ≤ (exData.take 43).length →
        consumedBytes = 44 ∧ result.Nonce = ((exData.take 43).drop 8).take 32 ∧
        getUint32 (((exData.take 43).drop 40).take 4) = .ok result.Like ∧
        (result.Bytes).1 = (exData.take 43).take 44)) :=
  ⟨by decide, by decide, FromBytes_ok_iff_length (exData.take 43) [] (by decide)⟩

end Fpctest
